import Mathlib

/-!
# Vector2 (namespace fuzzyTelegram)

A shallow embedding of the class template `Vector2<T>` of `src/Vector2.cpp` and
`include/Vector2.hpp`, instantiated at `T = int` (`Vector2i`) and `T = float`
(`Vector2f`), together with theorems about its operators.

Conventions of the embedding.

* An `int` is a mathematical integer; every arithmetic result is brought back
  into the 32-bit two's-complement range by `wrapInt`.
* A `std::size_t` is a natural number.
* A `float` is an `F32`: a finite value is carried as the exact rational number
  it denotes, next to the two infinities and NaN.
* An operation that can throw, abort on an `assert`, or run into behaviour the
  language leaves undefined returns `Except Fault _`; a member function that
  mutates `*this` returns the new value of `*this`.
* A `double` is carried like a `float`, with its own rounding; `acosf` is the
  library's function, whose values on `[-1, 1]` are a parameter.
* A `std::ostream` is the string of the characters written to it.
* `lerp` is declared in `Vector2.hpp` and defined nowhere in the repository: it
  is modelled from the specification, on `Vector2<float>`.
-/

namespace fuzzyTelegram

/-! ## Outcomes -/

/-- Ways in which a call can end without producing a value. -/
inductive Fault where
  /-- The exception `std::out_of_range`. -/
  | outOfRange
  /-- An `assert` whose condition is false. -/
  | assertion
  /-- The operation has no defined result (integer division by zero or with a
  quotient that is no value of `int`, a floating-point value converted to `int`
  that does not fit). -/
  | undefinedBehaviour
  deriving DecidableEq, Repr

deriving instance DecidableEq for Except

/-! ## The type `int` -/

/-- Least value of `int`. -/
def INT_MIN : Int := -2147483648

/-- Greatest value of `int`. -/
def INT_MAX : Int := 2147483647

/-- The integer is a value of type `int`. -/
def inIntRange (n : Int) : Prop := INT_MIN ≤ n ∧ n ≤ INT_MAX

instance (n : Int) : Decidable (inIntRange n) := by
  unfold inIntRange; exact inferInstance

/-- Reduction of an integer to the `int` congruent to it modulo `2^32`. -/
def wrapInt (n : Int) : Int := (n + 2147483648) % 4294967296 - 2147483648

/-- The operator `+` on `int`. -/
def addInt (a b : Int) : Int := wrapInt (a + b)

/-- The operator `-` on `int`. -/
def subInt (a b : Int) : Int := wrapInt (a - b)

/-- The operator `*` on `int`. -/
def mulInt (a b : Int) : Int := wrapInt (a * b)

/-- The unary operator `-` on `int`. -/
def negInt (a : Int) : Int := wrapInt (-a)

/-- The operator `/` on `int`: the quotient rounded toward zero. A zero divisor
has no defined result, and neither has a quotient that is no value of `int`:
for operands of type `int` that is `INT_MIN / -1`, which the language leaves
undefined and on which the division instruction of x86 traps. -/
def divInt (a b : Int) : Except Fault Int :=
  if b = 0 then .error .undefinedBehaviour
  else if inIntRange (Int.tdiv a b) then .ok (Int.tdiv a b)
  else .error .undefinedBehaviour

/-- Conversion of an integer to `std::size_t` (64 bits). -/
def toSizeT (n : Int) : Nat := (n % 18446744073709551616).toNat

/-! ## The type `float` -/

/-- A value of type `float` (IEEE 754 binary32). A finite value is carried as
the rational number it denotes, so `2.5f` is `finite (5 / 2)`; the two zeros are
not told apart. -/
inductive F32 where
  | finite (q : ℚ)
  | inf (negative : Bool)
  | nan
  deriving DecidableEq

/-- Number of low-order bits of `a` that do not fit in a 24-bit significand;
the first argument bounds the number of halvings. -/
def excessBits : Nat → Nat → Nat
  | 0, _ => 0
  | fuel + 1, a => if a < 16777216 then 0 else excessBits fuel (a / 2) + 1

/-- Nearest natural number with a 24-bit significand, ties to the even
significand. -/
def roundNat24 (a : Nat) : Nat :=
  let unit := 2 ^ excessBits 64 a
  let q := a / unit
  let r := a % unit
  if 2 * r < unit then q * unit
  else if unit < 2 * r then (q + 1) * unit
  else if q % 2 = 0 then q * unit
  else (q + 1) * unit

/-- Nearest integer with a 24-bit significand: the value an `int` takes when it
is converted to `float`. -/
def roundInt24 (n : Int) : Int :=
  if n < 0 then -(roundNat24 n.natAbs : Int) else (roundNat24 n.natAbs : Int)

namespace F32

/-- The operator `==` on `float`: NaN equals nothing. -/
def eq : F32 → F32 → Bool
  | finite a, finite b => a == b
  | inf s, inf t => s == t
  | _, _ => false

/-- Integral part of a rational, the fraction discarded. -/
def truncQ (q : ℚ) : Int := Int.tdiv q.num q.den

/-- The conversion `static_cast<int>(f)`: the fraction is discarded; when the
result is not a value of `int` (and for an infinity or NaN) the behaviour is
undefined. -/
def toInt : F32 → Except Fault Int
  | finite q =>
    if inIntRange (truncQ q) then .ok (truncQ q) else .error .undefinedBehaviour
  | _ => .error .undefinedBehaviour

/-- The conversion `static_cast<float>(n)` of an `int`, also applied implicitly
when an `int` is compared with a `float`. -/
def ofInt (n : Int) : F32 := finite (roundInt24 n)

end F32

/-! ## Arithmetic of `float` -/

/-- Nearest integer to a rational, a tie going to the even neighbour. -/
def roundHalfEven (q : ℚ) : Int :=
  if q - ⌊q⌋ < 1 / 2 then ⌊q⌋
  else if 1 / 2 < q - ⌊q⌋ then ⌊q⌋ + 1
  else if ⌊q⌋ % 2 = 0 then ⌊q⌋
  else ⌊q⌋ + 1

/-- Spacing of the binary numbers with `p` significant bits and exponent at
least `emin` in the binade of the positive rational `a`. -/
def binaryUlp (p : Nat) (emin : Int) (a : ℚ) : ℚ :=
  2 ^ (max (Int.log 2 a) emin - ((p : Int) - 1))

/-- Rounding of a non-negative rational to the nearest binary number with `p`
significant bits and exponent at least `emin`, ties to even; the exponent is
unbounded above. -/
def roundBinary (p : Nat) (emin : Int) (a : ℚ) : ℚ :=
  roundHalfEven (a / binaryUlp p emin a) * binaryUlp p emin a

/-- Nearest integer to the square root of a non-negative rational, ties to
even. -/
def sqrtRoundHalfEven (t : ℚ) : Int :=
  let f : Int := (Nat.sqrt ⌊t⌋.toNat : Int)
  if t < f * f + f + 1 / 4 then f
  else if (f * f + f + 1 / 4 : ℚ) < t then f + 1
  else if f % 2 = 0 then f
  else f + 1

/-- Spacing of the `double` values in the binade of the square root of the
positive rational `a`. -/
def sqrtUlp (a : ℚ) : ℚ := 2 ^ (Int.log 2 a / 2 - 52)

/-- The function `sqrt` of `double` at a positive argument: the square root
rounded to 53 significant bits. -/
def sqrtDouble (a : ℚ) : ℚ :=
  sqrtRoundHalfEven (a / (sqrtUlp a * sqrtUlp a)) * sqrtUlp a

namespace F32

/-- Rounding of an exact result to `float`: to nearest, ties to even, with
gradual underflow and overflow to an infinity. -/
def round (q : ℚ) : F32 :=
  let r := roundBinary 24 (-126) |q|
  if (2 : ℚ) ^ 128 ≤ r then inf (decide (q < 0))
  else finite (if q < 0 then -r else r)

/-- Unary minus. -/
def neg : F32 → F32
  | finite q => finite (-q)
  | inf s => inf (!s)
  | nan => nan

/-- The operator `+` on `float`. -/
def add : F32 → F32 → F32
  | finite a, finite b => round (a + b)
  | finite _, inf t => inf t
  | inf s, finite _ => inf s
  | inf s, inf t => if s = t then inf s else nan
  | _, _ => nan

/-- The operator `-` on `float`. -/
def sub (a b : F32) : F32 := add a (neg b)

/-- The operator `*` on `float`. -/
def mul : F32 → F32 → F32
  | finite a, finite b => round (a * b)
  | finite a, inf t => if a = 0 then nan else inf (xor (decide (a < 0)) t)
  | inf s, finite b => if b = 0 then nan else inf (xor s (decide (b < 0)))
  | inf s, inf t => inf (xor s t)
  | _, _ => nan

/-- The operator `/` on `float`; a zero divisor is taken as `+0`. -/
def div : F32 → F32 → F32
  | finite a, finite b =>
    if b = 0 then (if a = 0 then nan else inf (decide (a < 0)))
    else round (a / b)
  | finite _, inf _ => finite 0
  | inf s, finite b => inf (xor s (decide (b < 0)))
  | _, _ => nan

/-- The call `sqrt(a)`: the argument is promoted to `double`, the square root is
taken there, and the result is converted to `float`. -/
def sqrt : F32 → F32
  | finite q =>
    if q < 0 then nan
    else if q = 0 then finite 0
    else round (sqrtDouble q)
  | inf s => if s then nan else inf false
  | nan => nan

/-- The operator `!=` on `float`: true when an operand is NaN. -/
def ne : F32 → F32 → Bool
  | finite a, finite b => a != b
  | inf s, inf t => s != t
  | _, _ => true

/-- The operator `<=` on `float`: false when an operand is NaN. -/
def le : F32 → F32 → Bool
  | finite a, finite b => decide (a ≤ b)
  | finite _, inf t => !t
  | inf s, finite _ => s
  | inf s, inf t => s || !t
  | _, _ => false

end F32

/-! ## The type `double` and the mathematical library -/

/-- A value of type `double` (IEEE 754 binary64), carried in the same way as a
`float`: the rational number it denotes, an infinity, or NaN. A `float` is
promoted to `double` without change. -/
abbrev F64 := F32

/-- The macro `M_PI` of `<cmath>`: the `double` nearest to π. -/
def M_PI : ℚ := 884279719003555 / 281474976710656

/-- Rounding of an exact result to `double`: to nearest, ties to even, with
gradual underflow and overflow to an infinity. -/
def F64.round (q : ℚ) : F64 :=
  let r := roundBinary 53 (-1022) |q|
  if (2 : ℚ) ^ 1024 ≤ r then F32.inf (decide (q < 0))
  else F32.finite (if q < 0 then -r else r)

/-- The operator `/` on `double`; a zero divisor is taken as `+0`. -/
def F64.div : F64 → F64 → F64
  | F32.finite a, F32.finite b =>
    if b = 0 then (if a = 0 then F32.nan else F32.inf (decide (a < 0)))
    else F64.round (a / b)
  | F32.finite _, F32.inf _ => F32.finite 0
  | F32.inf s, F32.finite b => F32.inf (xor s (decide (b < 0)))
  | _, _ => F32.nan

/-- Conversion of a `double` to `float`. -/
def F64.toFloat : F64 → F32
  | F32.finite q => F32.round q
  | F32.inf s => F32.inf s
  | F32.nan => F32.nan

/-- The function `acosf` of the C library. Outside `[-1, 1]`, and on NaN, the
result is NaN; at an argument `q` of `[-1, 1]` the result is `lib q`, the value
the library computes there, which the embedding takes as a parameter. -/
def acosf (lib : ℚ → ℚ) : F32 → F32
  | F32.finite q => if q < -1 ∨ 1 < q then F32.nan else F32.finite (lib q)
  | _ => F32.nan

/-- Rounding toward zero as the specification words it: the floor of a
non-negative number, the ceiling of a negative one. -/
def roundTowardZero (q : ℚ) : Int := if 0 ≤ q then ⌊q⌋ else ⌈q⌉

/-- An argument of a numeric type `U`. -/
inductive Scalar where
  /-- A value of an integer type (`unsigned char`, `int`, `long`, ...). -/
  | integer (n : Int)
  /-- A value of type `float`. -/
  | float (f : F32)
  deriving DecidableEq

namespace Scalar

/-- The conversion `static_cast<int>(value)`: an integer is kept when it is a
value of `int` and reduced modulo `2^32` otherwise. -/
def toInt : Scalar → Except Fault Int
  | integer n => .ok (wrapInt n)
  | float f => f.toInt

/-- The comparison `value == 0`. -/
def isZero : Scalar → Bool
  | integer n => n == 0
  | float f => F32.eq f (F32.finite 0)

end Scalar

/-! ## Output streams -/

/-- The characters a `std::ostream` has received, the format flags at their
defaults. -/
structure OStream where
  written : String
  deriving DecidableEq

/-- Default decimal rendering of an `int`, as `operator<<(int)` writes it: the
digits without padding, a minus sign right before them for a negative value. -/
def decimal (n : Int) : String :=
  if n < 0 then "-" ++ Nat.repr n.natAbs else Nat.repr n.natAbs

namespace OStream

/-- The call `output << c` for a character. -/
def putChar (output : OStream) (c : Char) : OStream := ⟨output.written.push c⟩

/-- The call `output << s` for a string literal. -/
def putString (output : OStream) (s : String) : OStream := ⟨output.written ++ s⟩

/-- The call `output << n` for an `int`. -/
def putInt (output : OStream) (n : Int) : OStream := ⟨output.written ++ decimal n⟩

end OStream

/-- The class `Vector2<float>`: two public fields. -/
structure Vector2f where
  x : F32
  y : F32
  deriving DecidableEq

/-! ## Vector2 of int -/

/-- The class `Vector2<int>`: two public fields. -/
structure Vector2i where
  x : Int
  y : Int
  deriving DecidableEq, Repr

namespace Vector2i

/-- Member `operator[](const std::size_t i)`. -/
def opIndex (self : Vector2i) (i : Nat) : Except Fault Int :=
  if i = 0 then .ok self.x
  else if i = 1 then .ok self.y
  else .error .outOfRange

/-- Member `operator==(const Vector2<U> &v)` at `U = int`:
`static_cast<T>(v.x) == x && static_cast<T>(v.y) == v.y`. -/
def opEq (self v : Vector2i) : Bool :=
  (v.x == self.x) && (v.y == v.y)

/-- Member `operator==(const Vector2<U> &v)` at `U = float`:
`static_cast<T>(v.x) == x && static_cast<T>(v.y) == v.y`, the right operand of
`&&` evaluated only when the left one is true; in the second comparison the
converted `int` goes back to `float` to be compared with `v.y`. -/
def opEqF (self : Vector2i) (v : Vector2f) : Except Fault Bool := do
  let cx ← v.x.toInt
  if cx == self.x then
    let cy ← v.y.toInt
    pure (F32.eq (F32.ofInt cy) v.y)
  else
    pure false

/-- Constructor `Vector2(const Vector2<U> &vector)` at `U = float`. -/
def ofVector2f (vector : Vector2f) : Except Fault Vector2i := do
  let x ← vector.x.toInt
  let y ← vector.y.toInt
  pure ⟨x, y⟩

/-- Member `set(U xValue, V yValue)`. -/
def set (self : Vector2i) (xValue yValue : Scalar) : Except Fault Vector2i := do
  let cx ← xValue.toInt
  let s1 : Vector2i := { self with x := cx }
  let cy ← yValue.toInt
  pure { s1 with y := cy }

/-- Member `operator+(const Vector2<T> &v)`. -/
def opAdd (self v : Vector2i) : Vector2i :=
  ⟨addInt self.x v.x, addInt self.y v.y⟩

/-- Member `operator-(const Vector2<T> &v)`. -/
def opSub (self v : Vector2i) : Vector2i :=
  ⟨subInt self.x v.x, subInt self.y v.y⟩

/-- Member `operator*(const Vector2<T> &v)`. -/
def opMul (self v : Vector2i) : Vector2i :=
  ⟨mulInt self.x v.x, mulInt self.y v.y⟩

/-- Member `operator/(const Vector2<T> &v)`. -/
def opDiv (self v : Vector2i) : Except Fault Vector2i := do
  let qx ← divInt self.x v.x
  let qy ← divInt self.y v.y
  pure ⟨qx, qy⟩

/-- Member `operator+=(const Vector2<U> &v)` at `U = int`: `x += v.x; y += v.y;`. -/
def opAddAssign (self v : Vector2i) : Vector2i :=
  let s1 : Vector2i := { self with x := addInt self.x v.x }
  { s1 with y := addInt s1.y v.y }

/-- Member `operator-=(const Vector2<U> &v)` at `U = int`: `x -= v.x; y -= v.y;`. -/
def opSubAssign (self v : Vector2i) : Vector2i :=
  let s1 : Vector2i := { self with x := subInt self.x v.x }
  { s1 with y := subInt s1.y v.y }

/-- Member `operator*=(const Vector2<U> &v)` at `U = int`: `x *= v.x; y *= v.y;`. -/
def opMulAssign (self v : Vector2i) : Vector2i :=
  let s1 : Vector2i := { self with x := mulInt self.x v.x }
  { s1 with y := mulInt s1.y v.y }

/-- Member `operator/=(const Vector2<U> &v)` at `U = int`: `x /= v.x; y /= v.y;`. -/
def opDivAssign (self v : Vector2i) : Except Fault Vector2i := do
  let qx ← divInt self.x v.x
  let s1 : Vector2i := { self with x := qx }
  let qy ← divInt s1.y v.y
  pure { s1 with y := qy }

/-- Member `operator+(U value)`. -/
def opAddScalar (self : Vector2i) (value : Scalar) : Except Fault Vector2i := do
  let cx ← value.toInt
  let cy ← value.toInt
  pure ⟨addInt self.x cx, addInt self.y cy⟩

/-- Member `operator-(U value)`. -/
def opSubScalar (self : Vector2i) (value : Scalar) : Except Fault Vector2i := do
  let cx ← value.toInt
  let cy ← value.toInt
  pure ⟨subInt self.x cx, subInt self.y cy⟩

/-- Member `operator*(U value)`. -/
def opMulScalar (self : Vector2i) (value : Scalar) : Except Fault Vector2i := do
  let cx ← value.toInt
  let cy ← value.toInt
  pure ⟨mulInt self.x cx, mulInt self.y cy⟩

/-- Member `operator/(U value)`: `assert(value != 0)` comes first. -/
def opDivScalar (self : Vector2i) (value : Scalar) : Except Fault Vector2i :=
  if value.isZero then .error .assertion
  else do
    let cx ← value.toInt
    let qx ← divInt self.x cx
    let cy ← value.toInt
    let qy ← divInt self.y cy
    pure ⟨qx, qy⟩

/-- Member `operator+=(const U value)`. -/
def opAddAssignScalar (self : Vector2i) (value : Scalar) : Except Fault Vector2i := do
  let cx ← value.toInt
  let s1 : Vector2i := { self with x := addInt self.x cx }
  let cy ← value.toInt
  pure { s1 with y := addInt s1.y cy }

/-- Member `operator-=(const U value)`. -/
def opSubAssignScalar (self : Vector2i) (value : Scalar) : Except Fault Vector2i := do
  let cx ← value.toInt
  let s1 : Vector2i := { self with x := subInt self.x cx }
  let cy ← value.toInt
  pure { s1 with y := subInt s1.y cy }

/-- Member `operator*=(const U value)`. -/
def opMulAssignScalar (self : Vector2i) (value : Scalar) : Except Fault Vector2i := do
  let cx ← value.toInt
  let s1 : Vector2i := { self with x := mulInt self.x cx }
  let cy ← value.toInt
  pure { s1 with y := mulInt s1.y cy }

/-- Member `operator/=(const U value)`: no assertion here. -/
def opDivAssignScalar (self : Vector2i) (value : Scalar) : Except Fault Vector2i := do
  let cx ← value.toInt
  let qx ← divInt self.x cx
  let s1 : Vector2i := { self with x := qx }
  let cy ← value.toInt
  let qy ← divInt s1.y cy
  pure { s1 with y := qy }

/-- Constructor `Vector2(void)`. -/
def new : Vector2i := ⟨0, 0⟩

/-- Constructor `Vector2(const T xy)`. -/
def ofValue (xy : Int) : Vector2i := ⟨xy, xy⟩

/-- The expression `Vector2<int>(value)` for an argument of a numeric type `U`:
the argument is converted to the parameter type `T` and handed to
`Vector2(const T xy)`. -/
def ofScalar (value : Scalar) : Except Fault Vector2i := do
  let xy ← value.toInt
  pure (ofValue xy)

/-- Member `operator=(const U &value)`. -/
def opAssignScalar (self : Vector2i) (value : Scalar) : Except Fault Vector2i := do
  let cx ← value.toInt
  let s1 : Vector2i := { self with x := cx }
  let cy ← value.toInt
  pure { s1 with y := cy }

/-- Static member `up()`. -/
def up : Vector2i := ⟨0, 1⟩

/-- Static member `down()`. -/
def down : Vector2i := ⟨0, -1⟩

/-- Static member `left()`. -/
def left : Vector2i := ⟨-1, 0⟩

/-- Static member `right()`. -/
def right : Vector2i := ⟨1, 0⟩

/-- Static member `zero()`. -/
def zero : Vector2i := ⟨0, 0⟩

/-- Static member `one()`. -/
def one : Vector2i := ⟨1, 1⟩

/-- Member `operator-(void)`, a `const` member: it reads the receiver and
builds a new vector. -/
def opNeg (self : Vector2i) : Vector2i :=
  ⟨negInt self.x, negInt self.y⟩

/-- Static member `dot`: the `int` expression
`vector1.x * vector2.x + vector1.y * vector2.y` converted to the return type
`float`. -/
def dot (vector1 vector2 : Vector2i) : F32 :=
  F32.ofInt (addInt (mulInt vector1.x vector2.x) (mulInt vector1.y vector2.y))

/-- Member `squaredMagnitude()`: the `int` expression `x * x + y * y` converted
to the return type `float`. -/
def squaredMagnitude (self : Vector2i) : F32 :=
  F32.ofInt (addInt (mulInt self.x self.x) (mulInt self.y self.y))

/-- Member `magnitude()`: `sqrt` applied to the `int` expression
`x * x + y * y`, which converts to `double` without rounding; the result is
converted to the return type `float`. -/
def magnitude (self : Vector2i) : F32 :=
  F32.sqrt (.finite ((addInt (mulInt self.x self.x) (mulInt self.y self.y) : Int) : ℚ))

/-- Member `normalize()`: in `x = x / length` the `int` is converted to
`float`, divided, and the quotient converted back to `int`; the two assertions
follow. -/
def normalize (self : Vector2i) : Except Fault Vector2i := do
  let length := self.magnitude
  let qx ← (F32.div (F32.ofInt self.x) length).toInt
  let s1 : Vector2i := { self with x := qx }
  let qy ← (F32.div (F32.ofInt s1.y) length).toInt
  let s2 : Vector2i := { s1 with y := qy }
  if s2.x ≤ 1 ∧ s2.x ≥ -1 then
    if s2.y ≤ 1 ∧ s2.y ≥ -1 then pure s2 else .error .assertion
  else .error .assertion

/-- Member `normalized()`: a copy of the receiver is normalized and returned. -/
def normalized (self : Vector2i) : Except Fault Vector2i :=
  let v : Vector2i := self
  v.normalize

/-- Friend `operator<<(std::ostream &output, const Vector2 &v)`:
`output << '(' << v.x << ", " << v.y << ')'`; the stream is returned. -/
def opInsert (output : OStream) (v : Vector2i) : OStream :=
  ((((output.putChar '(').putInt v.x).putString ", ").putInt v.y).putChar ')'

/-- Member `toString()`: the vector is inserted into a new `std::stringstream`,
whose contents are returned. -/
def toString (self : Vector2i) : String :=
  let s : OStream := ⟨""⟩
  let s := opInsert s self
  s.written

/-- Member `operator!=(const Vector2<U> &v)` at `U = int`:
`static_cast<T>(v.x) != x || static_cast<T>(v.y) != v.y`. -/
def opNe (self v : Vector2i) : Bool :=
  (v.x != self.x) || (v.y != v.y)

/-- Member `operator!=(const Vector2<U> &v)` at `U = float`:
`static_cast<T>(v.x) != x || static_cast<T>(v.y) != v.y`, the right operand of
`||` evaluated only when the left one is false; in the second comparison the
converted `int` goes back to `float` to be compared with `v.y`. -/
def opNeF (self : Vector2i) (v : Vector2f) : Except Fault Bool := do
  let cx ← v.x.toInt
  if cx != self.x then
    pure true
  else
    let cy ← v.y.toInt
    pure (F32.ne (F32.ofInt cy) v.y)

/-- Member `operator+=(const Vector2<U> &v)` at `U = float`: `x += v.x;
y += v.y;`. In `x += v.x` the `int` is converted to `float`, the sum is taken in
`float`, and the sum is converted back to `int`. -/
def opAddAssignF (self : Vector2i) (v : Vector2f) : Except Fault Vector2i := do
  let cx ← (F32.add (F32.ofInt self.x) v.x).toInt
  let s1 : Vector2i := { self with x := cx }
  let cy ← (F32.add (F32.ofInt s1.y) v.y).toInt
  pure { s1 with y := cy }

/-- Member `operator-=(const Vector2<U> &v)` at `U = float`: `x -= v.x;
y -= v.y;`, the differences taken in `float`. -/
def opSubAssignF (self : Vector2i) (v : Vector2f) : Except Fault Vector2i := do
  let cx ← (F32.sub (F32.ofInt self.x) v.x).toInt
  let s1 : Vector2i := { self with x := cx }
  let cy ← (F32.sub (F32.ofInt s1.y) v.y).toInt
  pure { s1 with y := cy }

/-- Member `operator*=(const Vector2<U> &v)` at `U = float`: `x *= v.x;
y *= v.y;`, the products taken in `float`. -/
def opMulAssignF (self : Vector2i) (v : Vector2f) : Except Fault Vector2i := do
  let cx ← (F32.mul (F32.ofInt self.x) v.x).toInt
  let s1 : Vector2i := { self with x := cx }
  let cy ← (F32.mul (F32.ofInt s1.y) v.y).toInt
  pure { s1 with y := cy }

/-- Member `operator/=(const Vector2<U> &v)` at `U = float`: `x /= v.x;
y /= v.y;`, the quotients taken in `float`. -/
def opDivAssignF (self : Vector2i) (v : Vector2f) : Except Fault Vector2i := do
  let cx ← (F32.div (F32.ofInt self.x) v.x).toInt
  let s1 : Vector2i := { self with x := cx }
  let cy ← (F32.div (F32.ofInt s1.y) v.y).toInt
  pure { s1 with y := cy }

end Vector2i

namespace Vector2f

/-- Member `operator==(const Vector2<U> &v)` of `Vector2<float>` at `U = int`:
`static_cast<T>(v.x) == x && static_cast<T>(v.y) == v.y`; in the second
comparison the `int` on the right is converted to `float` as well. -/
def opEqI (self : Vector2f) (v : Vector2i) : Bool :=
  F32.eq (F32.ofInt v.x) self.x && F32.eq (F32.ofInt v.y) (F32.ofInt v.y)

/-- Constructor `Vector2(void)`. -/
def new : Vector2f := ⟨F32.ofInt 0, F32.ofInt 0⟩

/-- Static member `up()`. -/
def up : Vector2f := ⟨F32.ofInt 0, F32.ofInt 1⟩

/-- Static member `down()`. -/
def down : Vector2f := ⟨F32.ofInt 0, F32.ofInt (-1)⟩

/-- Static member `left()`. -/
def left : Vector2f := ⟨F32.ofInt (-1), F32.ofInt 0⟩

/-- Static member `right()`. -/
def right : Vector2f := ⟨F32.ofInt 1, F32.ofInt 0⟩

/-- Static member `zero()`. -/
def zero : Vector2f := ⟨F32.ofInt 0, F32.ofInt 0⟩

/-- Static member `one()`. -/
def one : Vector2f := ⟨F32.ofInt 1, F32.ofInt 1⟩

/-- Member `operator-(const Vector2<T> &v)`. -/
def opSub (self v : Vector2f) : Vector2f :=
  ⟨F32.sub self.x v.x, F32.sub self.y v.y⟩

/-- Static member `dot`. -/
def dot (vector1 vector2 : Vector2f) : F32 :=
  F32.add (F32.mul vector1.x vector2.x) (F32.mul vector1.y vector2.y)

/-- Member `squaredMagnitude()`. -/
def squaredMagnitude (self : Vector2f) : F32 :=
  F32.add (F32.mul self.x self.x) (F32.mul self.y self.y)

/-- Member `magnitude()`. -/
def magnitude (self : Vector2f) : F32 :=
  F32.sqrt (F32.add (F32.mul self.x self.x) (F32.mul self.y self.y))

/-- The two assignments of `normalize()`: `x = x / length; y = y / length;`. -/
def normalizeAssignments (self : Vector2f) : Vector2f :=
  let length := self.magnitude
  let s1 : Vector2f := { self with x := F32.div self.x length }
  { s1 with y := F32.div s1.y length }

/-- Member `normalize()`: the two assignments, then the two assertions. -/
def normalize (self : Vector2f) : Except Fault Vector2f :=
  let s2 := self.normalizeAssignments
  if F32.le s2.x (F32.ofInt 1) && F32.le (F32.ofInt (-1)) s2.x then
    if F32.le s2.y (F32.ofInt 1) && F32.le (F32.ofInt (-1)) s2.y then pure s2
    else .error .assertion
  else .error .assertion

/-- Member `normalized()`: a copy of the receiver is normalized and returned. -/
def normalized (self : Vector2f) : Except Fault Vector2f :=
  let v : Vector2f := self
  v.normalize

/-- Member `operator+(const Vector2<T> &v)`. -/
def opAdd (self v : Vector2f) : Vector2f :=
  ⟨F32.add self.x v.x, F32.add self.y v.y⟩

/-- Member `operator*(U value)` at `U = float`, where `static_cast<T>(value)` is
`value`. -/
def opMulScalar (self : Vector2f) (value : F32) : Vector2f :=
  ⟨F32.mul self.x value, F32.mul self.y value⟩

/-- Static member `angle`:
`acosf(dot(from.normalized(), to.normalized())) * 180 / M_PI`. The product by
the `int` 180 is taken in `float`, the quotient by the `double` `M_PI` in
`double`, and the quotient is converted to the return type `float`. The first
argument is the library's `acosf` on `[-1, 1]`. -/
def angle (lib : ℚ → ℚ) (fromVector toVector : Vector2f) : Except Fault F32 := do
  let a ← fromVector.normalized
  let b ← toVector.normalized
  pure (F64.toFloat (F64.div (F32.mul (acosf lib (dot a b)) (F32.ofInt 180)) (.finite M_PI)))

end Vector2f

/-! ## Auxiliary lemmas -/

theorem wrapInt_of_inIntRange {n : Int} (h : inIntRange n) : wrapInt n = n := by
  unfold inIntRange INT_MIN INT_MAX at h
  unfold wrapInt
  omega

theorem inIntRange_wrapInt (n : Int) : inIntRange (wrapInt n) := by
  unfold inIntRange INT_MIN INT_MAX wrapInt
  omega

theorem truncQ_eq_roundTowardZero (q : ℚ) : F32.truncQ q = roundTowardZero q := by
  unfold F32.truncQ roundTowardZero
  by_cases h : 0 ≤ q
  · rw [if_pos h, Rat.floor_def]
    exact Int.tdiv_eq_ediv (Rat.num_nonneg.mpr h) (Int.ofNat_nonneg _)
  · rw [if_neg h]
    have hq : q < 0 := not_le.mp h
    have hnum : 0 ≤ -q.num := by
      have := Rat.num_neg.mpr hq
      omega
    have hceil : ⌈q⌉ = -⌊-q⌋ := by rw [Int.floor_neg, neg_neg]
    rw [hceil, Rat.floor_def, Rat.neg_num, Rat.neg_den,
      ← Int.tdiv_eq_ediv hnum (Int.ofNat_nonneg _), Int.neg_tdiv, neg_neg]

theorem truncQ_intCast (n : Int) : F32.truncQ (n : ℚ) = n := by
  simp [F32.truncQ]

theorem toInt_finite_intCast {n : Int} (h : inIntRange n) :
    F32.toInt (.finite (n : ℚ)) = .ok n := by
  simp [F32.toInt, truncQ_intCast, h]

theorem beq_intCast (m n : Int) : ((m : ℚ) == (n : ℚ)) = decide (m = n) := by
  by_cases h : m = n
  · simp [h]
  · have hq : ¬ ((m : ℚ) = (n : ℚ)) := by exact_mod_cast h
    simp [h, hq]

theorem eq_finite_self (q : ℚ) : F32.eq (.finite q) (.finite q) = true := by
  simp [F32.eq]

theorem eq_ofInt_self (n : Int) : F32.eq (F32.ofInt n) (F32.ofInt n) = true := by
  simp [F32.ofInt, F32.eq]

theorem scalar_isZero_eq_false {s : Scalar} {t : Int} (h : s.toInt = .ok t) (ht : t ≠ 0) :
    s.isZero = false := by
  cases s with
  | integer n =>
    have hn : n ≠ 0 := by
      rintro rfl
      simp [Scalar.toInt, wrapInt] at h
      exact ht h.symm
    simp [Scalar.isZero, hn]
  | float f =>
    cases f with
    | finite q =>
      have hq : q ≠ 0 := by
        rintro rfl
        simp [Scalar.toInt, F32.toInt, F32.truncQ, inIntRange, INT_MIN, INT_MAX] at h
        exact ht h.symm
      simp [Scalar.isZero, F32.eq, hq]
    | inf b => simp [Scalar.isZero, F32.eq]
    | nan => simp [Scalar.isZero, F32.eq]

theorem toInt_finite_of_inIntRange {q : ℚ} (h : inIntRange (roundTowardZero q)) :
    F32.toInt (.finite q) = .ok (roundTowardZero q) := by
  rw [← truncQ_eq_roundTowardZero] at h ⊢
  simp [F32.toInt, h]

theorem inIntRange_roundTowardZero {q : ℚ}
    (h : ((INT_MIN : Int) : ℚ) ≤ q ∧ q ≤ ((INT_MAX : Int) : ℚ)) :
    inIntRange (roundTowardZero q) := by
  unfold roundTowardZero inIntRange
  by_cases h0 : 0 ≤ q
  · rw [if_pos h0]
    constructor
    · exact le_trans (by decide) (Int.floor_nonneg.mpr h0)
    · have hf : ((⌊q⌋ : Int) : ℚ) ≤ ((INT_MAX : Int) : ℚ) := le_trans (Int.floor_le q) h.2
      exact_mod_cast hf
  · rw [if_neg h0]
    have hq : q ≤ ((0 : Int) : ℚ) := by
      have := not_le.mp h0
      simpa using this.le
    constructor
    · have hc : ((INT_MIN : Int) : ℚ) ≤ ((⌈q⌉ : Int) : ℚ) := le_trans h.1 (Int.le_ceil q)
      exact_mod_cast hc
    · exact le_trans (Int.ceil_le.mpr hq) (by decide)

theorem roundTowardZero_intCast (n : Int) : roundTowardZero (n : ℚ) = n := by
  rw [← truncQ_eq_roundTowardZero, truncQ_intCast]

theorem opAddScalar_ok (v : Vector2i) {s : Scalar} {t : Int} (h : s.toInt = .ok t) :
    v.opAddScalar s = .ok ⟨addInt v.x t, addInt v.y t⟩ := by
  simp [Vector2i.opAddScalar, h, bind, Except.bind, pure, Except.pure]

theorem opSubScalar_ok (v : Vector2i) {s : Scalar} {t : Int} (h : s.toInt = .ok t) :
    v.opSubScalar s = .ok ⟨subInt v.x t, subInt v.y t⟩ := by
  simp [Vector2i.opSubScalar, h, bind, Except.bind, pure, Except.pure]

theorem opMulScalar_ok (v : Vector2i) {s : Scalar} {t : Int} (h : s.toInt = .ok t) :
    v.opMulScalar s = .ok ⟨mulInt v.x t, mulInt v.y t⟩ := by
  simp [Vector2i.opMulScalar, h, bind, Except.bind, pure, Except.pure]

theorem divInt_eq_ok {a b : Int} (hb : b ≠ 0) (hq : inIntRange (Int.tdiv a b)) :
    divInt a b = .ok (Int.tdiv a b) := by
  simp [divInt, hb, hq]

theorem divInt_int_min_neg_one : divInt INT_MIN (-1) = .error .undefinedBehaviour := by
  decide

/-- The quotient of an `int` by a non-zero divisor is a value of `int`, the
division of `INT_MIN` by -1 apart. -/
theorem tdiv_inIntRange {a b : Int} (ha : inIntRange a) (hb : b ≠ 0)
    (h : ¬(a = INT_MIN ∧ b = -1)) : inIntRange (Int.tdiv a b) := by
  unfold inIntRange INT_MIN INT_MAX at *
  have key : (Int.tdiv a b).natAbs = a.natAbs / b.natAbs := Int.natAbs_tdiv a b
  by_cases h1 : b = 1
  · subst h1
    rw [Int.tdiv_one]
    exact ha
  by_cases h2 : b = -1
  · subst h2
    have e : Int.tdiv a (-1) = -a := by
      rw [Int.tdiv_neg, Int.tdiv_one]
    rw [e]
    have hne : a ≠ -2147483648 := fun e => h ⟨e, rfl⟩
    constructor <;> omega
  · have hb2 : 2 ≤ b.natAbs := by omega
    have hle : a.natAbs / b.natAbs ≤ a.natAbs / 2 :=
      Nat.div_le_div_left hb2 (by norm_num)
    constructor <;> omega

theorem opDivScalar_ok (v : Vector2i) {s : Scalar} {t : Int} (h : s.toInt = .ok t)
    (ht : t ≠ 0) (hx : inIntRange (Int.tdiv v.x t)) (hy : inIntRange (Int.tdiv v.y t)) :
    v.opDivScalar s = .ok ⟨Int.tdiv v.x t, Int.tdiv v.y t⟩ := by
  have hz : s.isZero = false := scalar_isZero_eq_false h ht
  simp [Vector2i.opDivScalar, h, hz, divInt, ht, hx, hy, bind, Except.bind, pure, Except.pure]

theorem roundNat24_of_le {a : Nat} (h : a ≤ 16777216) : roundNat24 a = a := by
  rcases Nat.lt_or_ge a 16777216 with h1 | h1
  · simp [roundNat24, excessBits, h1, Nat.mod_one]
  · have : a = 16777216 := le_antisymm h h1
    subst this
    decide

theorem roundInt24_of_natAbs_le {n : Int} (h : n.natAbs ≤ 16777216) : roundInt24 n = n := by
  unfold roundInt24
  rw [roundNat24_of_le h]
  split <;> omega

theorem ofInt_of_natAbs_le {n : Int} (h : n.natAbs ≤ 16777216) :
    F32.ofInt n = .finite (n : ℚ) := by
  rw [F32.ofInt, roundInt24_of_natAbs_le h]

theorem mulInt_comm (a b : Int) : mulInt a b = mulInt b a := by
  unfold mulInt
  rw [mul_comm]

theorem sumSquares_exact {x y : Int} (h : inIntRange (x * x + y * y)) :
    addInt (mulInt x x) (mulInt y y) = x * x + y * y := by
  have hx : 0 ≤ x * x := mul_self_nonneg x
  have hy : 0 ≤ y * y := mul_self_nonneg y
  unfold inIntRange INT_MIN INT_MAX at h
  have hxr : inIntRange (x * x) := by
    unfold inIntRange INT_MIN INT_MAX
    constructor <;> linarith [h.1, h.2]
  have hyr : inIntRange (y * y) := by
    unfold inIntRange INT_MIN INT_MAX
    constructor <;> linarith [h.1, h.2]
  have hs : inIntRange (x * x + y * y) := by
    unfold inIntRange INT_MIN INT_MAX
    exact h
  unfold addInt mulInt
  rw [wrapInt_of_inIntRange hxr, wrapInt_of_inIntRange hyr, wrapInt_of_inIntRange hs]

theorem roundHalfEven_zero : roundHalfEven 0 = 0 := by
  simp [roundHalfEven]

theorem roundBinary_zero (p : Nat) (emin : Int) : roundBinary p emin 0 = 0 := by
  simp [roundBinary, roundHalfEven_zero]

theorem round_neg (q : ℚ) : F32.round (-q) = F32.neg (F32.round q) := by
  unfold F32.round
  rw [abs_neg]
  rcases lt_trichotomy q 0 with hq | hq | hq
  · have h1 : ¬ (-q < 0) := by linarith
    by_cases hr : (2 : ℚ) ^ 128 ≤ roundBinary 24 (-126) |q|
    · simp [hr, hq, h1, F32.neg]
    · simp [hr, hq, h1, F32.neg]
  · subst hq
    have h128 : ¬ ((2 : ℚ) ^ 128 ≤ 0) := not_le.mpr (by positivity)
    simp [roundBinary_zero, F32.neg, h128]
  · have h1 : -q < 0 := by linarith
    have h2 : ¬ (q < 0) := by linarith
    by_cases hr : (2 : ℚ) ^ 128 ≤ roundBinary 24 (-126) |q|
    · simp [hr, h1, h2, F32.neg]
    · simp [hr, h1, h2, F32.neg]

theorem F32_mul_comm (a b : F32) : F32.mul a b = F32.mul b a := by
  cases a <;> cases b <;> simp [F32.mul, mul_comm, Bool.xor_comm]

theorem roundHalfEven_intCast (n : Int) : roundHalfEven (n : ℚ) = n := by
  simp [roundHalfEven]

theorem abs_roundHalfEven_sub_le (q : ℚ) : |((roundHalfEven q : Int) : ℚ) - q| ≤ 1 / 2 := by
  have h1 : ((⌊q⌋ : Int) : ℚ) ≤ q := Int.floor_le q
  have h2 : q < ((⌊q⌋ : Int) : ℚ) + 1 := Int.lt_floor_add_one q
  unfold roundHalfEven
  split_ifs with ha hb hc
  · rw [abs_le]; constructor <;> linarith
  · rw [abs_le]; push_cast; constructor <;> linarith
  · have : q - ⌊q⌋ = 1 / 2 := le_antisymm (not_lt.mp hb) (not_lt.mp ha)
    rw [abs_le]; constructor <;> linarith
  · have : q - ⌊q⌋ = 1 / 2 := le_antisymm (not_lt.mp hb) (not_lt.mp ha)
    rw [abs_le]; push_cast; constructor <;> linarith

theorem roundHalfEven_le_of_le {q : ℚ} {n : Int} (h : q ≤ n) : roundHalfEven q ≤ n := by
  have h1 := (abs_le.mp (abs_roundHalfEven_sub_le q)).2
  have h2 : ((roundHalfEven q : Int) : ℚ) < ((n + 1 : Int) : ℚ) := by
    push_cast; linarith
  have := Int.cast_lt.mp h2
  omega

theorem le_roundHalfEven_of_le {q : ℚ} {n : Int} (h : (n : ℚ) ≤ q) : n ≤ roundHalfEven q := by
  have h1 := (abs_le.mp (abs_roundHalfEven_sub_le q)).1
  have h2 : ((n - 1 : Int) : ℚ) < ((roundHalfEven q : Int) : ℚ) := by
    push_cast; linarith
  have := Int.cast_lt.mp h2
  omega

theorem roundHalfEven_le_of_lt_half {q : ℚ} {n : Int} (h : q < n + 1 / 2) :
    roundHalfEven q ≤ n := by
  have h1 := (abs_le.mp (abs_roundHalfEven_sub_le q)).2
  have h2 : ((roundHalfEven q : Int) : ℚ) < ((n + 1 : Int) : ℚ) := by
    push_cast; linarith
  have := Int.cast_lt.mp h2
  omega

theorem le_roundHalfEven_of_half_lt {q : ℚ} {n : Int} (h : (n : ℚ) - 1 / 2 < q) :
    n ≤ roundHalfEven q := by
  have h1 := (abs_le.mp (abs_roundHalfEven_sub_le q)).1
  have h2 : ((n - 1 : Int) : ℚ) < ((roundHalfEven q : Int) : ℚ) := by
    push_cast; linarith
  have := Int.cast_lt.mp h2
  omega

theorem binaryUlp_pos (p : Nat) (emin : Int) (a : ℚ) : 0 < binaryUlp p emin a := by
  unfold binaryUlp
  positivity

theorem abs_roundBinary_sub_le (p : Nat) (emin : Int) (a : ℚ) :
    |roundBinary p emin a - a| ≤ binaryUlp p emin a / 2 := by
  have hu := binaryUlp_pos p emin a
  have h := abs_roundHalfEven_sub_le (a / binaryUlp p emin a)
  unfold roundBinary
  have e : ((roundHalfEven (a / binaryUlp p emin a) : Int) : ℚ) * binaryUlp p emin a - a =
      (((roundHalfEven (a / binaryUlp p emin a) : Int) : ℚ) - a / binaryUlp p emin a) *
        binaryUlp p emin a := by
    field_simp
  rw [e, abs_mul, abs_of_pos hu]
  calc |((roundHalfEven (a / binaryUlp p emin a) : Int) : ℚ) - a / binaryUlp p emin a| *
        binaryUlp p emin a ≤ 1 / 2 * binaryUlp p emin a :=
        mul_le_mul_of_nonneg_right h hu.le
    _ = binaryUlp p emin a / 2 := by ring

theorem roundBinary_nonneg (p : Nat) (emin : Int) {a : ℚ} (h : 0 ≤ a) :
    0 ≤ roundBinary p emin a := by
  have hu := binaryUlp_pos p emin a
  unfold roundBinary
  have h0 : (0 : Int) ≤ roundHalfEven (a / binaryUlp p emin a) :=
    le_roundHalfEven_of_le (by simpa using div_nonneg h hu.le)
  have : (0 : ℚ) ≤ ((roundHalfEven (a / binaryUlp p emin a) : Int) : ℚ) := by exact_mod_cast h0
  positivity

theorem sqrtUlp_pos (a : ℚ) : 0 < sqrtUlp a := by
  unfold sqrtUlp
  positivity

theorem sqrtRoundHalfEven_bounds {t : ℚ} (ht : 1 ≤ t) :
    ((sqrtRoundHalfEven t : ℚ) - 1 / 2) ^ 2 ≤ t ∧ t ≤ ((sqrtRoundHalfEven t : ℚ) + 1 / 2) ^ 2 ∧
    ((Nat.sqrt ⌊t⌋.toNat : Int) : ℚ) ≤ (sqrtRoundHalfEven t : ℚ) := by
  have hfl0 : (0 : Int) ≤ ⌊t⌋ := Int.floor_nonneg.mpr (by linarith)
  have hfl1 : (1 : Int) ≤ ⌊t⌋ := Int.le_floor.mpr (by simpa using ht)
  have hN : ((⌊t⌋.toNat : Int)) = ⌊t⌋ := Int.toNat_of_nonneg hfl0
  have hNq : ((⌊t⌋.toNat : ℕ) : ℚ) = ((⌊t⌋ : Int) : ℚ) := by
    rw [← Int.cast_natCast, hN]
  have hlo : ((⌊t⌋.toNat : ℕ) : ℚ) ≤ t := by rw [hNq]; exact Int.floor_le t
  have hhi : t < ((⌊t⌋.toNat : ℕ) : ℚ) + 1 := by rw [hNq]; exact Int.lt_floor_add_one t
  have hNpos : 0 < ⌊t⌋.toNat := by omega
  have hf1 : 1 ≤ Nat.sqrt ⌊t⌋.toNat := Nat.sqrt_pos.mpr hNpos
  have hs1 : (Nat.sqrt ⌊t⌋.toNat) ^ 2 ≤ ⌊t⌋.toNat := Nat.sqrt_le' _
  have hs2 : ⌊t⌋.toNat + 1 ≤ (Nat.sqrt ⌊t⌋.toNat + 1) ^ 2 := Nat.lt_succ_sqrt' _
  have hs1q : ((Nat.sqrt ⌊t⌋.toNat : ℕ) : ℚ) ^ 2 ≤ ((⌊t⌋.toNat : ℕ) : ℚ) := by exact_mod_cast hs1
  have hs2q : ((⌊t⌋.toNat : ℕ) : ℚ) + 1 ≤ (((Nat.sqrt ⌊t⌋.toNat : ℕ) : ℚ) + 1) ^ 2 := by
    exact_mod_cast hs2
  have hf1q : (1 : ℚ) ≤ ((Nat.sqrt ⌊t⌋.toNat : ℕ) : ℚ) := by exact_mod_cast hf1
  have hcast : (((Nat.sqrt ⌊t⌋.toNat : ℕ) : Int) : ℚ) = ((Nat.sqrt ⌊t⌋.toNat : ℕ) : ℚ) :=
    Int.cast_natCast _
  obtain ⟨F, hF⟩ : ∃ F : ℚ, ((Nat.sqrt ⌊t⌋.toNat : ℕ) : ℚ) = F := ⟨_, rfl⟩
  rw [hF] at hs1q hs2q hf1q hcast
  have e1 : (F - 1 / 2) ^ 2 = F ^ 2 - F + 1 / 4 := by ring
  have e2 : (F + 1 / 2) ^ 2 = F * F + F + 1 / 4 := by ring
  have e3 : (F + 1 - 1 / 2) ^ 2 = F * F + F + 1 / 4 := by ring
  have e4 : (F + 1 + 1 / 2) ^ 2 = (F + 1) ^ 2 + F + 5 / 4 := by ring
  unfold sqrtRoundHalfEven
  simp only [hcast]
  split_ifs with ha hb hc
  · rw [hcast, e1, e2]
    exact ⟨by linarith, by linarith, le_refl _⟩
  · simp only [Int.cast_add, Int.cast_one, hcast]
    rw [e3, e4]
    exact ⟨by linarith, by linarith, by linarith⟩
  · rw [hcast, e1, e2]
    exact ⟨by linarith, by linarith [not_lt.mp hb], le_refl _⟩
  · simp only [Int.cast_add, Int.cast_one, hcast]
    rw [e3, e4]
    exact ⟨by linarith [not_lt.mp ha], by linarith, by linarith⟩

theorem sqrtUlp_eq {a : ℚ} (ha : 0 < a) :
    ∃ v : ℚ, 0 < v ∧ sqrtUlp a = v / 2 ^ 52 ∧ v * v ≤ a ∧ a < 4 * (v * v) := by
  refine ⟨2 ^ (Int.log 2 a / 2), by positivity, ?_, ?_, ?_⟩
  · unfold sqrtUlp
    rw [zpow_sub₀ (by norm_num : (2 : ℚ) ≠ 0)]
    norm_num
  · rw [← zpow_add₀ (by norm_num : (2 : ℚ) ≠ 0)]
    have h1 : Int.log 2 a / 2 + Int.log 2 a / 2 ≤ Int.log 2 a := by omega
    have h2 : (2 : ℚ) ^ (Int.log 2 a / 2 + Int.log 2 a / 2) ≤ 2 ^ Int.log 2 a :=
      zpow_le_zpow_right₀ (by norm_num) h1
    have h3 : ((2 : ℕ) : ℚ) ^ Int.log 2 a ≤ a := Int.zpow_log_le_self (by norm_num) ha
    have h4 : (2 : ℚ) ^ Int.log 2 a ≤ a := by simpa using h3
    linarith
  · rw [← zpow_add₀ (by norm_num : (2 : ℚ) ≠ 0)]
    have h1 : Int.log 2 a + 1 ≤ Int.log 2 a / 2 + Int.log 2 a / 2 + 2 := by omega
    have h2 : (2 : ℚ) ^ (Int.log 2 a + 1) ≤ 2 ^ (Int.log 2 a / 2 + Int.log 2 a / 2 + 2) :=
      zpow_le_zpow_right₀ (by norm_num) h1
    have h3 : a < ((2 : ℕ) : ℚ) ^ (Int.log 2 a + 1) := Int.lt_zpow_succ_log_self (by norm_num) a
    have h4 : a < (2 : ℚ) ^ (Int.log 2 a + 1) := by simpa using h3
    have h5 : (2 : ℚ) ^ (Int.log 2 a / 2 + Int.log 2 a / 2 + 2) =
        4 * 2 ^ (Int.log 2 a / 2 + Int.log 2 a / 2) := by
      rw [zpow_add₀ (by norm_num : (2 : ℚ) ≠ 0)]
      norm_num
      ring
    linarith

theorem sqrtDouble_bounds {a : ℚ} (ha : 0 < a) :
    (sqrtDouble a - sqrtUlp a / 2) ^ 2 ≤ a ∧ a ≤ (sqrtDouble a + sqrtUlp a / 2) ^ 2 ∧
    2 ^ 52 * sqrtUlp a ≤ sqrtDouble a := by
  obtain ⟨v, hv, hu, hlo, _⟩ := sqrtUlp_eq ha
  have hupos := sqrtUlp_pos a
  set u := sqrtUlp a with hudef
  have huu : 0 < u * u := by positivity
  have ht104 : (2 : ℚ) ^ 104 ≤ a / (u * u) := by
    rw [le_div_iff₀ huu, hu]
    have : (2 : ℚ) ^ 104 * (v / 2 ^ 52 * (v / 2 ^ 52)) = v * v := by
      field_simp
      ring
    rw [this]
    exact hlo
  have ht1 : (1 : ℚ) ≤ a / (u * u) := le_trans (by norm_num) ht104
  obtain ⟨b1, b2, b3⟩ := sqrtRoundHalfEven_bounds ht1
  have hfl : (20282409603651670423947251286016 : Int) ≤ ⌊a / (u * u)⌋ := by
    apply Int.le_floor.mpr
    have e : ((20282409603651670423947251286016 : Int) : ℚ) = 2 ^ 104 := by norm_num
    rw [e]
    exact ht104
  have hN : 4503599627370496 * 4503599627370496 ≤ ⌊a / (u * u)⌋.toNat := by omega
  have hF : 4503599627370496 ≤ Nat.sqrt ⌊a / (u * u)⌋.toNat := Nat.le_sqrt.mpr hN
  have hFq : (2 : ℚ) ^ 52 ≤ ((Nat.sqrt ⌊a / (u * u)⌋.toNat : Int) : ℚ) := by
    have h1 : ((4503599627370496 : ℕ) : ℚ) ≤ ((Nat.sqrt ⌊a / (u * u)⌋.toNat : ℕ) : ℚ) := by
      exact_mod_cast hF
    have e : ((4503599627370496 : ℕ) : ℚ) = 2 ^ 52 := by norm_num
    rw [Int.cast_natCast, ← e]
    exact h1
  unfold sqrtDouble
  rw [← hudef]
  generalize (sqrtRoundHalfEven (a / (u * u)) : ℚ) = m at b1 b2 b3
  have ea : a = a / (u * u) * (u * u) := by field_simp
  refine ⟨?_, ?_, ?_⟩
  · have : (m * u - u / 2) ^ 2 = (m - 1 / 2) ^ 2 * (u * u) := by ring
    rw [this]
    calc (m - 1 / 2) ^ 2 * (u * u) ≤ a / (u * u) * (u * u) :=
          mul_le_mul_of_nonneg_right b1 huu.le
      _ = a := ea.symm
  · have : (m * u + u / 2) ^ 2 = (m + 1 / 2) ^ 2 * (u * u) := by ring
    rw [this]
    calc a = a / (u * u) * (u * u) := ea
      _ ≤ (m + 1 / 2) ^ 2 * (u * u) := mul_le_mul_of_nonneg_right b2 huu.le
  · exact mul_le_mul_of_nonneg_right (le_trans hFq b3) hupos.le

theorem log_two_le {a : ℚ} (ha : 0 < a) : (2 : ℚ) ^ Int.log 2 a ≤ a := by
  have h := Int.zpow_log_le_self (b := 2) (r := a) (by norm_num) ha
  simpa using h

theorem lt_log_two_succ (a : ℚ) : a < (2 : ℚ) ^ (Int.log 2 a + 1) := by
  have h := Int.lt_zpow_succ_log_self (b := 2) (by norm_num) a
  simpa using h

theorem log_two_lt_iff {a : ℚ} (ha : 0 < a) (k : Int) : a < (2 : ℚ) ^ k ↔ Int.log 2 a < k := by
  have h := Int.lt_zpow_iff_log_lt (b := 2) (by norm_num) (x := k) ha
  simpa using h

theorem le_log_two_iff {a : ℚ} (ha : 0 < a) (k : Int) : (2 : ℚ) ^ k ≤ a ↔ k ≤ Int.log 2 a := by
  have h := Int.zpow_le_iff_le_log (b := 2) (by norm_num) (x := k) ha
  simpa using h

theorem binaryUlp24_eq (a : ℚ) :
    binaryUlp 24 (-126) a = 2 ^ (max (Int.log 2 a) (-126)) / 2 ^ 23 := by
  unfold binaryUlp
  have e : ((24 : ℕ) : Int) - 1 = 23 := by norm_num
  rw [e, zpow_sub₀ (by norm_num : (2 : ℚ) ≠ 0)]
  norm_num

theorem lt_binaryUlp24 (a : ℚ) : a < 2 ^ 24 * binaryUlp 24 (-126) a := by
  rw [binaryUlp24_eq]
  have h1 := lt_log_two_succ a
  have h2 : (2 : ℚ) ^ (Int.log 2 a + 1) ≤ 2 ^ (max (Int.log 2 a) (-126) + 1) :=
    zpow_le_zpow_right₀ (by norm_num) (by omega)
  have h3 : (2 : ℚ) ^ (max (Int.log 2 a) (-126) + 1) = 2 ^ (max (Int.log 2 a) (-126)) * 2 := by
    rw [zpow_add₀ (by norm_num : (2 : ℚ) ≠ 0)]
    norm_num
  have h4 : (2 : ℚ) ^ 24 * (2 ^ (max (Int.log 2 a) (-126)) / 2 ^ 23) =
      2 ^ (max (Int.log 2 a) (-126)) * 2 := by
    field_simp
    ring
  linarith

theorem binaryUlp24_le {a : ℚ} (ha : (2 : ℚ) ^ (-126 : Int) ≤ a) :
    2 ^ 23 * binaryUlp 24 (-126) a ≤ a := by
  have hpos : 0 < a := lt_of_lt_of_le (by positivity) ha
  have hL : (-126 : Int) ≤ Int.log 2 a := (le_log_two_iff hpos _).mp ha
  rw [binaryUlp24_eq, max_eq_left hL]
  have h1 := log_two_le hpos
  have h4 : (2 : ℚ) ^ 23 * (2 ^ (Int.log 2 a) / 2 ^ 23) = 2 ^ (Int.log 2 a) := by
    field_simp
  linarith

theorem roundBinary24_lt_one {a : ℚ} (h0 : 0 ≤ a) (h1 : a < 1 - 1 / 2 ^ 25) :
    roundBinary 24 (-126) a < 1 := by
  rcases eq_or_lt_of_le h0 with h | hpos
  · rw [← h, roundBinary_zero]
    norm_num
  have hu := binaryUlp_pos 24 (-126) a
  have hL : Int.log 2 a < 0 := (log_two_lt_iff hpos 0).mp (by norm_num; linarith)
  have hE : max (Int.log 2 a) (-126) ≤ -1 := by omega
  have hue := binaryUlp24_eq a
  unfold roundBinary
  set u := binaryUlp 24 (-126) a with hudef
  rcases eq_or_lt_of_le hE with hE1 | hE2
  · rw [hE1] at hue
    have hu24 : u = 1 / 2 ^ 24 := by
      rw [hue]
      norm_num
    have hq : a / u < ((16777215 : Int) : ℚ) + 1 / 2 := by
      rw [hu24, div_lt_iff₀ (by positivity)]
      norm_num
      linarith
    have hr := roundHalfEven_le_of_lt_half hq
    have hrq : ((roundHalfEven (a / u) : Int) : ℚ) ≤ 16777215 := by exact_mod_cast hr
    calc ((roundHalfEven (a / u) : Int) : ℚ) * u ≤ 16777215 * u :=
          mul_le_mul_of_nonneg_right hrq hu.le
      _ < 1 := by rw [hu24]; norm_num
  · have hE3 : max (Int.log 2 a) (-126) ≤ -2 := by omega
    have hpow : (2 : ℚ) ^ (max (Int.log 2 a) (-126)) ≤ 2 ^ (-2 : Int) :=
      zpow_le_zpow_right₀ (by norm_num) hE3
    have hule : u ≤ 1 / 2 ^ 25 := by
      rw [hue]
      have : (2 : ℚ) ^ (-2 : Int) = 1 / 4 := by norm_num
      rw [this] at hpow
      calc (2 : ℚ) ^ (max (Int.log 2 a) (-126)) / 2 ^ 23 ≤ (1 / 4) / 2 ^ 23 :=
            div_le_div_of_nonneg_right hpow (by positivity)
        _ = 1 / 2 ^ 25 := by norm_num
    have hq : a / u ≤ ((16777216 : Int) : ℚ) := by
      rw [div_le_iff₀ hu]
      have := lt_binaryUlp24 a
      rw [← hudef] at this
      norm_num at this ⊢
      linarith
    have hr := roundHalfEven_le_of_le hq
    have hrq : ((roundHalfEven (a / u) : Int) : ℚ) ≤ 16777216 := by exact_mod_cast hr
    calc ((roundHalfEven (a / u) : Int) : ℚ) * u ≤ 16777216 * u :=
          mul_le_mul_of_nonneg_right hrq hu.le
      _ ≤ 16777216 * (1 / 2 ^ 25) := by linarith
      _ < 1 := by norm_num

theorem round_abs_lt_one {q : ℚ} (h : |q| < 1 - 1 / 2 ^ 25) :
    ∃ r : ℚ, F32.round q = .finite r ∧ |r| < 1 := by
  have hrb := roundBinary24_lt_one (abs_nonneg q) h
  have hnn := roundBinary_nonneg 24 (-126) (abs_nonneg q)
  have h128 : ¬ ((2 : ℚ) ^ 128 ≤ roundBinary 24 (-126) |q|) := by
    have : (1 : ℚ) < 2 ^ 128 := by norm_num
    intro hc
    linarith
  unfold F32.round
  simp only [h128, if_false]
  refine ⟨_, rfl, ?_⟩
  split_ifs
  · rw [abs_neg, abs_of_nonneg hnn]
    exact hrb
  · rw [abs_of_nonneg hnn]
    exact hrb

theorem truncQ_eq_zero {r : ℚ} (h : |r| < 1) : F32.truncQ r = 0 := by
  rw [truncQ_eq_roundTowardZero]
  unfold roundTowardZero
  have h' := abs_lt.mp h
  split_ifs with h0
  · rw [Int.floor_eq_iff]
    constructor
    · simpa using h0
    · simpa using h'.2
  · rw [Int.ceil_eq_iff]
    constructor
    · simpa using h'.1
    · simpa using (not_le.mp h0).le

theorem roundBinary24_gt {X : Int} {d : ℚ} (hX1 : 1 ≤ X) (hX2 : X ≤ 4095)
    (hd1 : (X : ℚ) + 1 / 2 ^ 13 < d) (hd2 : d < 2 ^ 13) :
    (X : ℚ) * (1 + 1 / 2 ^ 24) < roundBinary 24 (-126) d := by
  have hXq1 : (1 : ℚ) ≤ X := by exact_mod_cast hX1
  have hXq2 : (X : ℚ) ≤ 4095 := by exact_mod_cast hX2
  have hdpos : 0 < d := by
    have : (0 : ℚ) < 1 / 2 ^ 13 := by positivity
    linarith
  have hL0 : 0 ≤ Int.log 2 d := (le_log_two_iff hdpos 0).mp (by norm_num; linarith)
  have hL13 : Int.log 2 d < 13 := (log_two_lt_iff hdpos 13).mp (by norm_num at hd2 ⊢; linarith)
  obtain ⟨j, hj⟩ := Int.eq_ofNat_of_zero_le hL0
  have hj12 : j ≤ 12 := by omega
  have hu := binaryUlp_pos 24 (-126) d
  have hue := binaryUlp24_eq d
  have hlt := lt_binaryUlp24 d
  have hlog := log_two_le hdpos
  rw [max_eq_left (by omega : (-126 : Int) ≤ Int.log 2 d), hj, zpow_natCast] at hue
  rw [hj, zpow_natCast] at hlog
  unfold roundBinary
  set u := binaryUlp 24 (-126) d with hudef
  have hP : (0 : ℚ) < 2 ^ j := by positivity
  have hXu : (X : ℚ) * (1 + 1 / 2 ^ 24) < X + u := by
    have : (X : ℚ) < 2 ^ 24 * u := by linarith
    norm_num at this ⊢
    linarith
  suffices h : (X : ℚ) + u ≤ ((roundHalfEven (d / u) : Int) : ℚ) * u by linarith
  rcases Nat.lt_or_ge j 12 with h11 | h12
  · -- the binade of `d` has spacing at most `2 ^ (-12)`
    have hQ : (2 : ℚ) ^ 23 = 2 ^ j * 2 ^ (23 - j) := by
      rw [← pow_add]
      congr 1
      omega
    have hPle : (2 : ℚ) ^ j ≤ 2 ^ 11 := pow_le_pow_right₀ (by norm_num) (by omega)
    have hK : (((X * 2 ^ (23 - j) : Int)) : ℚ) = X / u := by
      rw [hue]
      push_cast
      field_simp
      rw [hQ]
      ring
    have hhalf : ((X * 2 ^ (23 - j) + 1 : Int) : ℚ) - 1 / 2 < d / u := by
      rw [lt_div_iff₀ hu]
      push_cast
      have e1 : ((X : ℚ) * 2 ^ (23 - j) + 1 - 1 / 2) * u = X + u / 2 := by
        have : (X : ℚ) * 2 ^ (23 - j) * u = X := by
          have := hK
          push_cast at this
          rw [this]
          field_simp
        linarith
      rw [e1]
      have e2 : u / 2 ≤ 1 / 2 ^ 13 := by
        rw [hue]
        rw [div_div, div_le_div_iff₀ (by positivity) (by positivity)]
        norm_num at hPle ⊢
        linarith
      linarith
    have hr := le_roundHalfEven_of_half_lt hhalf
    have hrq : ((X * 2 ^ (23 - j) + 1 : Int) : ℚ) ≤ ((roundHalfEven (d / u) : Int) : ℚ) := by
      exact_mod_cast hr
    calc (X : ℚ) + u = ((X * 2 ^ (23 - j) + 1 : Int) : ℚ) * u := by
          have := hK
          push_cast at this ⊢
          rw [add_mul, this]
          field_simp
      _ ≤ ((roundHalfEven (d / u) : Int) : ℚ) * u := mul_le_mul_of_nonneg_right hrq hu.le
  · have hj' : j = 12 := by omega
    subst hj'
    have hu' : u = 1 / 2 ^ 11 := by
      rw [hue]
      norm_num
    have hq : ((8388608 : Int) : ℚ) ≤ d / u := by
      rw [le_div_iff₀ hu, hu']
      norm_num at hlog ⊢
      linarith
    have hr := le_roundHalfEven_of_le hq
    have hrq : ((8388608 : Int) : ℚ) ≤ ((roundHalfEven (d / u) : Int) : ℚ) := by
      exact_mod_cast hr
    calc (X : ℚ) + u ≤ 8388608 * u := by
          rw [hu']
          norm_num
          linarith
      _ ≤ ((roundHalfEven (d / u) : Int) : ℚ) * u := by
          have := mul_le_mul_of_nonneg_right hrq hu.le
          simpa using this

theorem sqrt_finite_pos {a : ℚ} (ha : 0 < a) :
    F32.sqrt (.finite a) = F32.round (sqrtDouble a) := by
  have h1 : ¬ (a < 0) := not_lt.mpr ha.le
  have h2 : a ≠ 0 := ne_of_gt ha
  simp [F32.sqrt, h1, h2]

theorem round_of_pos_small {d : ℚ} (h1 : (1 : ℚ) ≤ d) (h2 : d < 2 ^ 100) :
    F32.round d = .finite (roundBinary 24 (-126) d) := by
  have hpos : 0 < d := by linarith
  have hule : 2 ^ 23 * binaryUlp 24 (-126) d ≤ d :=
    binaryUlp24_le (le_trans (by norm_num) h1)
  have hb := (abs_le.mp (abs_roundBinary_sub_le 24 (-126) d)).2
  have hlt : ¬ ((2 : ℚ) ^ 128 ≤ roundBinary 24 (-126) d) := by
    intro hc
    have : roundBinary 24 (-126) d ≤ d + d := by
      have hu := binaryUlp_pos 24 (-126) d
      norm_num at hule
      linarith
    have h3 : (2 : ℚ) ^ 100 + 2 ^ 100 < 2 ^ 128 := by norm_num
    linarith
  unfold F32.round
  rw [abs_of_pos hpos]
  simp [hlt, not_lt.mpr hpos.le]

theorem magnitude_gt_components {x y : Int} (hx1 : 1 ≤ |x|) (hx2 : |x| ≤ 4095)
    (hy1 : 1 ≤ |y|) (hy2 : |y| ≤ 4095) :
    ∃ l : ℚ, Vector2i.magnitude ⟨x, y⟩ = .finite l ∧
      ((|x| : Int) : ℚ) * (1 + 1 / 2 ^ 24) < l ∧ ((|y| : Int) : ℚ) * (1 + 1 / 2 ^ 24) < l := by
  have hxx : x * x = |x| * |x| := (abs_mul_abs_self x).symm
  have hyy : y * y = |y| * |y| := (abs_mul_abs_self y).symm
  have hX0 : (0 : Int) ≤ |x| := abs_nonneg x
  have hY0 : (0 : Int) ≤ |y| := abs_nonneg y
  generalize |x| = X at hxx hx1 hx2 hX0
  generalize |y| = Y at hyy hy1 hy2 hY0
  have hXX1 : 1 ≤ X * X := by nlinarith
  have hXX2 : X * X ≤ 4095 * 4095 := by nlinarith
  have hYY1 : 1 ≤ Y * Y := by nlinarith
  have hYY2 : Y * Y ≤ 4095 * 4095 := by nlinarith
  have hr : inIntRange (x * x + y * y) := by
    unfold inIntRange INT_MIN INT_MAX
    rw [hxx, hyy]
    constructor <;> omega
  have hn0 : (0 : ℚ) < ((x * x + y * y : Int) : ℚ) := by
    have : (0 : Int) < x * x + y * y := by rw [hxx, hyy]; omega
    exact_mod_cast this
  have hnX : (X : ℚ) * X + 1 ≤ ((x * x + y * y : Int) : ℚ) := by
    have : X * X + 1 ≤ x * x + y * y := by rw [hxx, hyy]; omega
    exact_mod_cast this
  have hnY : (Y : ℚ) * Y + 1 ≤ ((x * x + y * y : Int) : ℚ) := by
    have : Y * Y + 1 ≤ x * x + y * y := by rw [hxx, hyy]; omega
    exact_mod_cast this
  have hnhi : ((x * x + y * y : Int) : ℚ) ≤ 33538050 := by
    have : x * x + y * y ≤ 33538050 := by rw [hxx, hyy]; omega
    exact_mod_cast this
  have hmag : Vector2i.magnitude ⟨x, y⟩ =
      F32.round (sqrtDouble ((x * x + y * y : Int) : ℚ)) := by
    unfold Vector2i.magnitude
    rw [sumSquares_exact hr, sqrt_finite_pos hn0]
  generalize ((x * x + y * y : Int) : ℚ) = n at hn0 hnX hnY hnhi hmag
  obtain ⟨b1, b2, b3⟩ := sqrtDouble_bounds hn0
  obtain ⟨v, hv, hu, hvlo, _⟩ := sqrtUlp_eq hn0
  have hv13 : v < 2 ^ 13 := by
    by_contra hc
    have hc' : (2 : ℚ) ^ 13 ≤ v := not_lt.mp hc
    have : (2 : ℚ) ^ 13 * 2 ^ 13 ≤ v * v := mul_le_mul hc' hc' (by positivity) hv.le
    norm_num at this
    linarith
  have hupos := sqrtUlp_pos n
  have hu39 : sqrtUlp n < 1 / 2 ^ 39 := by
    rw [hu, div_lt_div_iff₀ (by positivity) (by positivity)]
    norm_num at hv13 ⊢
    linarith
  generalize sqrtUlp n = u at b1 b2 b3 hupos hu39
  generalize sqrtDouble n = d at b1 b2 b3 hmag
  have hd0 : 0 < d := lt_of_lt_of_le (by positivity) b3
  have key : ∀ Z : Int, 0 ≤ Z → Z ≤ 4095 → (Z : ℚ) * Z + 1 ≤ n → (Z : ℚ) + 1 / 2 ^ 13 < d := by
    intro Z hZ0 hZ hZn
    have hZq0 : (0 : ℚ) ≤ Z := by exact_mod_cast hZ0
    have hZq : (Z : ℚ) ≤ 4095 := by exact_mod_cast hZ
    by_contra hc
    have hc' : d ≤ (Z : ℚ) + 1 / 2 ^ 13 := not_lt.mp hc
    have h1 : d + u / 2 ≤ (Z : ℚ) + 1 / 2 ^ 13 + 1 / 2 ^ 40 := by
      norm_num at hu39 ⊢
      linarith
    have h2 : (d + u / 2) ^ 2 ≤ ((Z : ℚ) + 1 / 2 ^ 13 + 1 / 2 ^ 40) ^ 2 :=
      pow_le_pow_left₀ (by positivity) h1 2
    have h3 : ((Z : ℚ) + 1 / 2 ^ 13 + 1 / 2 ^ 40) ^ 2 =
        Z * Z + 2 * (1 / 2 ^ 13 + 1 / 2 ^ 40) * Z + (1 / 2 ^ 13 + 1 / 2 ^ 40) ^ 2 := by ring
    have h4 : 2 * (1 / 2 ^ 13 + 1 / 2 ^ 40) * (Z : ℚ) ≤ 2 * (1 / 2 ^ 13 + 1 / 2 ^ 40) * 4095 :=
      mul_le_mul_of_nonneg_left hZq (by positivity)
    have h5 : 2 * (1 / 2 ^ 13 + 1 / 2 ^ 40) * (4095 : ℚ) + (1 / 2 ^ 13 + 1 / 2 ^ 40) ^ 2 < 1 := by
      norm_num
    linarith
  have hd13 : d < 2 ^ 13 := by
    by_contra hc
    have hc' : (2 : ℚ) ^ 13 ≤ d := not_lt.mp hc
    have h1 : (2 : ℚ) ^ 13 - 1 ≤ d - u / 2 := by
      norm_num at hu39 ⊢
      linarith
    have h2 : ((2 : ℚ) ^ 13 - 1) ^ 2 ≤ (d - u / 2) ^ 2 :=
      pow_le_pow_left₀ (by norm_num) h1 2
    norm_num at h2
    linarith
  have hdX := key X hX0 hx2 hnX
  have hdY := key Y hY0 hy2 hnY
  have hd1 : (1 : ℚ) ≤ d := by
    have : (1 : ℚ) ≤ X := by exact_mod_cast hx1
    have : (0 : ℚ) < 1 / 2 ^ 13 := by positivity
    linarith
  refine ⟨roundBinary 24 (-126) d, ?_, roundBinary24_gt hx1 hx2 hdX hd13,
    roundBinary24_gt hy1 hy2 hdY hd13⟩
  rw [hmag]
  exact round_of_pos_small hd1 (lt_trans hd13 (by norm_num))

theorem div_toInt_zero {x : Int} {l : ℚ} (hx : |x| ≤ 4095)
    (hl : ((|x| : Int) : ℚ) * (1 + 1 / 2 ^ 24) < l) :
    (F32.div (F32.ofInt x) (.finite l)).toInt = .ok 0 := by
  have hofInt : F32.ofInt x = .finite (x : ℚ) := by
    apply ofInt_of_natAbs_le
    have := Int.abs_eq_natAbs x
    omega
  have habs0 : (0 : ℚ) ≤ ((|x| : Int) : ℚ) := by exact_mod_cast abs_nonneg x
  have hl0 : 0 < l := by
    have : (0 : ℚ) ≤ ((|x| : Int) : ℚ) * (1 + 1 / 2 ^ 24) := by positivity
    linarith
  have hdiv : F32.div (F32.ofInt x) (.finite l) = F32.round ((x : ℚ) / l) := by
    rw [hofInt]
    simp [F32.div, ne_of_gt hl0]
  have hq : |(x : ℚ) / l| < 1 - 1 / 2 ^ 25 := by
    rw [abs_div, abs_of_pos hl0, div_lt_iff₀ hl0]
    have e : |(x : ℚ)| = ((|x| : Int) : ℚ) := by push_cast; rfl
    rw [e]
    norm_num at hl ⊢
    linarith
  obtain ⟨r, hr, hr1⟩ := round_abs_lt_one hq
  rw [hdiv, hr]
  have ht := truncQ_eq_zero hr1
  simp [F32.toInt, ht, inIntRange, INT_MIN, INT_MAX]

theorem int_log_two_eq {a : ℚ} {k : Int} (h1 : (2 : ℚ) ^ k ≤ a) (h2 : a < (2 : ℚ) ^ (k + 1)) :
    Int.log 2 a = k := by
  have hpos : 0 < a := lt_of_lt_of_le (by positivity) h1
  have h3 := (le_log_two_iff hpos k).mp h1
  have h4 := (log_two_lt_iff hpos (k + 1)).mp h2
  omega

theorem roundHalfEven_eq_of_abs_lt {q : ℚ} {n : Int} (h : |q - n| < 1 / 2) :
    roundHalfEven q = n := by
  have h' := abs_lt.mp h
  apply le_antisymm
  · exact roundHalfEven_le_of_lt_half (by linarith)
  · exact le_roundHalfEven_of_half_lt (by linarith)

theorem roundBinary24_eq {a : ℚ} {k n : Int} (h1 : (2 : ℚ) ^ k ≤ a) (h2 : a < (2 : ℚ) ^ (k + 1))
    (hk : -126 ≤ k) (hn : |a / 2 ^ (k - 23) - n| < 1 / 2) :
    roundBinary 24 (-126) a = n * 2 ^ (k - 23) := by
  have hu : binaryUlp 24 (-126) a = 2 ^ (k - 23) := by
    unfold binaryUlp
    rw [int_log_two_eq h1 h2, max_eq_left hk]
    norm_num
  unfold roundBinary
  rw [hu, roundHalfEven_eq_of_abs_lt hn]

theorem round_eq_of_pos {q : ℚ} {k n : Int} (h1 : (2 : ℚ) ^ k ≤ q) (h2 : q < (2 : ℚ) ^ (k + 1))
    (hk : -126 ≤ k) (hn : |q / 2 ^ (k - 23) - n| < 1 / 2)
    (hfin : (n : ℚ) * 2 ^ (k - 23) < 2 ^ 128) :
    F32.round q = .finite (n * 2 ^ (k - 23)) := by
  have hpos : 0 < q := lt_of_lt_of_le (by positivity) h1
  unfold F32.round
  rw [abs_of_pos hpos, roundBinary24_eq h1 h2 hk hn]
  simp [not_le.mpr hfin, not_lt.mpr hpos.le]

theorem sqrtRoundHalfEven_eq {t : ℚ} {m : Int} (hm : 2 ≤ m)
    (h1 : ((m : ℚ) - 1 / 2) ^ 2 < t) (h2 : t < ((m : ℚ) + 1 / 2) ^ 2) :
    sqrtRoundHalfEven t = m := by
  have hmq : (2 : ℚ) ≤ m := by exact_mod_cast hm
  have ht : (1 : ℚ) ≤ t := by nlinarith
  obtain ⟨b1, b2, b3⟩ := sqrtRoundHalfEven_bounds ht
  have hF : (0 : ℚ) ≤ ((Nat.sqrt ⌊t⌋.toNat : Int) : ℚ) := by
    rw [Int.cast_natCast]
    positivity
  have hm0 : (0 : ℚ) ≤ (sqrtRoundHalfEven t : ℚ) := le_trans hF b3
  apply le_antisymm
  · by_contra hc
    have hc' : m + 1 ≤ sqrtRoundHalfEven t := by omega
    have hq : ((m : ℚ) + 1) ≤ (sqrtRoundHalfEven t : ℚ) := by exact_mod_cast hc'
    have : ((m : ℚ) + 1 / 2) ^ 2 ≤ ((sqrtRoundHalfEven t : ℚ) - 1 / 2) ^ 2 :=
      pow_le_pow_left₀ (by linarith) (by linarith) 2
    linarith
  · by_contra hc
    have hc' : sqrtRoundHalfEven t + 1 ≤ m := by omega
    have hq : (sqrtRoundHalfEven t : ℚ) + 1 ≤ (m : ℚ) := by exact_mod_cast hc'
    have : ((sqrtRoundHalfEven t : ℚ) + 1 / 2) ^ 2 ≤ ((m : ℚ) - 1 / 2) ^ 2 :=
      pow_le_pow_left₀ (by linarith) (by linarith) 2
    linarith

theorem sqrtDouble_eq {a : ℚ} {k m : Int} (h1 : (2 : ℚ) ^ (2 * k) ≤ a)
    (h2 : a < (2 : ℚ) ^ (2 * k + 2)) (hm : 2 ≤ m)
    (hlo : ((m : ℚ) - 1 / 2) ^ 2 < a / (2 ^ (k - 52) * 2 ^ (k - 52)))
    (hhi : a / (2 ^ (k - 52) * 2 ^ (k - 52)) < ((m : ℚ) + 1 / 2) ^ 2) :
    sqrtDouble a = m * 2 ^ (k - 52) := by
  have hpos : 0 < a := lt_of_lt_of_le (by positivity) h1
  have h3 := (le_log_two_iff hpos (2 * k)).mp h1
  have h4 := (log_two_lt_iff hpos (2 * k + 2)).mp h2
  have hu : sqrtUlp a = 2 ^ (k - 52) := by
    unfold sqrtUlp
    congr 1
    omega
  unfold sqrtDouble
  rw [hu, sqrtRoundHalfEven_eq hm hlo hhi]

theorem magnitude_one_one : Vector2i.magnitude ⟨1, 1⟩ = .finite (11863283 / 8388608) := by
  have hs : sqrtDouble 2 = 6369051672525773 / 4503599627370496 := by
    have h := sqrtDouble_eq (a := 2) (k := 0) (m := 6369051672525773) (by norm_num)
      (by norm_num) (by norm_num) (by norm_num) (by norm_num)
    rw [h]
    norm_num
  have hr : F32.round (6369051672525773 / 4503599627370496) = .finite (11863283 / 8388608) := by
    have h := round_eq_of_pos (q := 6369051672525773 / 4503599627370496) (k := 0)
      (n := 11863283) (by norm_num) (by norm_num) (by norm_num)
      (by rw [abs_lt]; constructor <;> norm_num) (by norm_num)
    rw [h]
    norm_num
  have hn : ((addInt (mulInt 1 1) (mulInt 1 1) : Int) : ℚ) = 2 := by
    have : addInt (mulInt 1 1) (mulInt 1 1) = 2 := by decide
    rw [this]
    norm_num
  unfold Vector2i.magnitude
  rw [hn, sqrt_finite_pos (by norm_num), hs, hr]

theorem round_zero : F32.round 0 = .finite 0 := by
  have h128 : ¬ ((2 : ℚ) ^ 128 ≤ 0) := not_le.mpr (by positivity)
  simp [F32.round, roundBinary_zero, h128]

theorem round_one : F32.round 1 = .finite 1 := by
  have h := round_eq_of_pos (q := 1) (k := 0) (n := 8388608) (by norm_num) (by norm_num)
    (by norm_num) (by rw [abs_lt]; constructor <;> norm_num) (by norm_num)
  rw [h]
  norm_num

theorem magnitude_4096_1 : Vector2i.magnitude ⟨4096, 1⟩ = .finite 4096 := by
  have hs : sqrtDouble 16777217 = 2251799880794111 / 549755813888 := by
    have h := sqrtDouble_eq (a := 16777217) (k := 12) (m := 4503599761588222) (by norm_num)
      (by norm_num) (by norm_num) (by norm_num) (by norm_num)
    rw [h]
    norm_num
  have hr : F32.round (2251799880794111 / 549755813888) = .finite 4096 := by
    have h := round_eq_of_pos (q := 2251799880794111 / 549755813888) (k := 12)
      (n := 8388608) (by norm_num) (by norm_num) (by norm_num)
      (by rw [abs_lt]; constructor <;> norm_num) (by norm_num)
    rw [h]
    norm_num
  have hn : ((addInt (mulInt 4096 4096) (mulInt 1 1) : Int) : ℚ) = 16777217 := by
    have : addInt (mulInt 4096 4096) (mulInt 1 1) = 16777217 := by decide
    rw [this]
    norm_num
  unfold Vector2i.magnitude
  rw [hn, sqrt_finite_pos (by norm_num), hs, hr]

theorem normalize_eq_of_toInt {v : Vector2i} {l : F32} {qx qy : Int}
    (hmag : v.magnitude = l)
    (hx : (F32.div (F32.ofInt v.x) l).toInt = .ok qx)
    (hy : (F32.div (F32.ofInt v.y) l).toInt = .ok qy)
    (hax : qx ≤ 1 ∧ qx ≥ -1) (hay : qy ≤ 1 ∧ qy ≥ -1) :
    v.normalize = .ok ⟨qx, qy⟩ := by
  unfold Vector2i.normalize
  simp only [hmag, hx, hy, bind, Except.bind, pure, Except.pure]
  simp [hax, hay]

theorem round_intCast_pos {k : Int} (h1 : 1 ≤ k) (h2 : k < 16777216) :
    F32.round (k : ℚ) = .finite (k : ℚ) := by
  have hq1 : (1 : ℚ) ≤ k := by exact_mod_cast h1
  have hq2 : (k : ℚ) < 16777216 := by exact_mod_cast h2
  have hpos : (0 : ℚ) < k := by linarith
  have hL0 : 0 ≤ Int.log 2 (k : ℚ) := (le_log_two_iff hpos 0).mp (by norm_num; linarith)
  have hL24 : Int.log 2 (k : ℚ) < 24 :=
    (log_two_lt_iff hpos 24).mp (by norm_num; linarith)
  obtain ⟨j, hj⟩ := Int.eq_ofNat_of_zero_le hL0
  have hj23 : j ≤ 23 := by omega
  have hlo := log_two_le hpos
  have hhi := lt_log_two_succ (k : ℚ)
  have hQ : (2 : ℚ) ^ 23 = 2 ^ j * 2 ^ (23 - j) := by
    rw [← pow_add]
    congr 1
    omega
  have hz : (2 : ℚ) ^ (Int.log 2 (k : ℚ) - 23) = 2 ^ j / 2 ^ 23 := by
    rw [hj, zpow_sub₀ (by norm_num : (2 : ℚ) ≠ 0), zpow_natCast]
    norm_num
  have hn : |(k : ℚ) / 2 ^ (Int.log 2 (k : ℚ) - 23) - ((k * 2 ^ (23 - j) : Int) : ℚ)| < 1 / 2 := by
    have e : (k : ℚ) / 2 ^ (Int.log 2 (k : ℚ) - 23) - ((k * 2 ^ (23 - j) : Int) : ℚ) = 0 := by
      rw [hz]
      push_cast
      field_simp
      rw [hQ]
      ring
    rw [e]
    norm_num
  have hval : ((k * 2 ^ (23 - j) : Int) : ℚ) * 2 ^ (Int.log 2 (k : ℚ) - 23) = k := by
    rw [hz]
    push_cast
    field_simp
    rw [hQ]
    ring
  have h := round_eq_of_pos hlo hhi (by omega) hn (by rw [hval]; norm_num; linarith)
  rw [h, hval]

theorem sqrtDouble_sq {k : Int} (h1 : 1 ≤ k) (h2 : k < 65536) :
    sqrtDouble ((k : ℚ) * k) = k := by
  have hq1 : (1 : ℚ) ≤ k := by exact_mod_cast h1
  have hq2 : (k : ℚ) < 65536 := by exact_mod_cast h2
  have hpos : (0 : ℚ) < (k : ℚ) * k := by positivity
  have ha1 : (1 : ℚ) ≤ (k : ℚ) * k := by nlinarith
  have ha2 : (k : ℚ) * k < 2 ^ 32 := by nlinarith
  have hL0 : 0 ≤ Int.log 2 ((k : ℚ) * k) := (le_log_two_iff hpos 0).mp (by norm_num; linarith)
  have hL32 : Int.log 2 ((k : ℚ) * k) < 32 := (log_two_lt_iff hpos 32).mp (by norm_num at ha2 ⊢; linarith)
  have he0 : 0 ≤ Int.log 2 ((k : ℚ) * k) / 2 := by omega
  obtain ⟨j, hj⟩ := Int.eq_ofNat_of_zero_le he0
  have hj15 : j ≤ 15 := by omega
  have hQ : (2 : ℚ) ^ 52 = 2 ^ j * 2 ^ (52 - j) := by
    rw [← pow_add]
    congr 1
    omega
  have hu : sqrtUlp ((k : ℚ) * k) = 2 ^ j / 2 ^ 52 := by
    unfold sqrtUlp
    rw [hj, zpow_sub₀ (by norm_num : (2 : ℚ) ≠ 0), zpow_natCast]
    norm_num
  have hP : (0 : ℚ) < 2 ^ j := by positivity
  have hP2 : (0 : ℚ) < 2 ^ (52 - j) := by positivity
  have hP2' : (1 : ℚ) ≤ 2 ^ (52 - j) := one_le_pow₀ (by norm_num)
  have ht : (k : ℚ) * k / (2 ^ j / 2 ^ 52 * (2 ^ j / 2 ^ 52)) =
      ((k * 2 ^ (52 - j) : Int) : ℚ) ^ 2 := by
    push_cast
    field_simp
    rw [hQ]
    ring
  have hK2 : (2 : ℚ) ≤ ((k * 2 ^ (52 - j) : Int) : ℚ) := by
    push_cast
    have : (2 : ℚ) ≤ 2 ^ (52 - j) := by
      calc (2 : ℚ) = 2 ^ 1 := by norm_num
        _ ≤ 2 ^ (52 - j) := pow_le_pow_right₀ (by norm_num) (by omega)
    nlinarith
  have hK2' : (2 : Int) ≤ k * 2 ^ (52 - j) := by exact_mod_cast hK2
  unfold sqrtDouble
  rw [hu, ht]
  rw [sqrtRoundHalfEven_eq hK2' (by nlinarith) (by nlinarith)]
  push_cast
  field_simp
  rw [hQ]
  ring

theorem magnitude_of_square {v : Vector2i} {k : Int}
    (h : inIntRange (v.x * v.x + v.y * v.y)) (hk : 0 ≤ k)
    (hsq : v.x * v.x + v.y * v.y = k * k) : v.magnitude = .finite (k : ℚ) := by
  unfold Vector2i.magnitude
  rw [sumSquares_exact h, hsq]
  rcases eq_or_lt_of_le hk with h0 | hpos
  · rw [← h0]
    simp [F32.sqrt]
  · have hk1 : 1 ≤ k := by omega
    have hk2 : k < 65536 := by
      by_contra hc
      have hc' : 65536 ≤ k := not_lt.mp hc
      have : 65536 * 65536 ≤ k * k := mul_le_mul hc' hc' (by norm_num) hk
      unfold inIntRange INT_MIN INT_MAX at h
      rw [hsq] at h
      omega
    have hq : (0 : ℚ) < ((k * k : Int) : ℚ) := by
      have : (0 : Int) < k * k := by positivity
      exact_mod_cast this
    rw [sqrt_finite_pos hq]
    push_cast
    rw [sqrtDouble_sq hk1 hk2, round_intCast_pos hk1 (by omega)]

theorem round_rel {q : ℚ} (h1 : (2 : ℚ) ^ (-126 : Int) ≤ |q|) (h2 : |q| ≤ 2 ^ 127) :
    ∃ r : ℚ, F32.round q = .finite r ∧ |r - q| ≤ |q| / 2 ^ 24 ∧ (0 ≤ q → 0 ≤ r) ∧
      (q ≤ 0 → r ≤ 0) := by
  have hule := binaryUlp24_le h1
  have hu := binaryUlp_pos 24 (-126) |q|
  have hb := abs_roundBinary_sub_le 24 (-126) |q|
  have hnn := roundBinary_nonneg 24 (-126) (abs_nonneg q)
  have herr : |roundBinary 24 (-126) (abs q) - abs q| ≤ abs q / 2 ^ 24 := by
    refine le_trans hb ?_
    rw [div_le_div_iff₀ (by norm_num) (by positivity)]
    norm_num at hule ⊢
    linarith
  have hlt : ¬ ((2 : ℚ) ^ 128 ≤ roundBinary 24 (-126) |q|) := by
    intro hc
    have h3 := (abs_le.mp herr).2
    have h4 : |q| / 2 ^ 24 ≤ 2 ^ 127 / 2 ^ 24 := div_le_div_of_nonneg_right h2 (by positivity)
    norm_num at h2 h3 h4 hc
    linarith
  unfold F32.round
  simp only [hlt, if_false]
  refine ⟨_, rfl, ?_, ?_, ?_⟩
  · split_ifs with hq
    · have e : -roundBinary 24 (-126) |q| - q = -(roundBinary 24 (-126) |q| - |q|) := by
        rw [abs_of_neg hq]
        ring
      rw [e, abs_neg]
      exact herr
    · have e : |q| = q := abs_of_nonneg (not_lt.mp hq)
      rw [e] at herr ⊢
      exact herr
  · intro hq
    rw [if_neg (not_lt.mpr hq)]
    exact hnn
  · intro hq
    split_ifs
    · linarith
    · have e : q = 0 := le_antisymm hq (not_lt.mp ‹_›)
      rw [e]
      simp [roundBinary_zero]

set_option maxRecDepth 8000 in
theorem sqrt_sq_bounds {a : ℚ} (h1 : 1 / 2 ^ 200 ≤ a) (h2 : a ≤ 2 ^ 200) :
    ∃ l : ℚ, F32.sqrt (.finite a) = .finite l ∧ 0 < l ∧
      (1 - 1 / 2 ^ 22) * a ≤ l * l ∧ l * l ≤ (1 + 1 / 2 ^ 22) * a := by
  have ha : 0 < a := lt_of_lt_of_le (by positivity) h1
  obtain ⟨b1, b2, b3⟩ := sqrtDouble_bounds ha
  have hupos := sqrtUlp_pos a
  rw [sqrt_finite_pos ha]
  generalize sqrtUlp a = u at b1 b2 b3 hupos
  generalize sqrtDouble a = d at b1 b2 b3
  have hd0 : 0 < d := lt_of_lt_of_le (by positivity) b3
  have hud : u / 2 ≤ d / 2 ^ 53 := by
    rw [div_le_div_iff₀ (by norm_num) (by positivity)]
    norm_num at b3 ⊢
    linarith
  have hdlo : (2 : ℚ) ^ (-126 : Int) ≤ d := by
    by_contra hc
    have hc' : d < (2 : ℚ) ^ (-126 : Int) := not_le.mp hc
    have e : (2 : ℚ) ^ (-126 : Int) = 1 / 2 ^ 126 := by norm_num
    rw [e] at hc'
    have h3 : d + u / 2 < 1 / 2 ^ 125 := by
      have : d / 2 ^ 53 ≤ d := div_le_self hd0.le (by norm_num)
      have e2 : (1 : ℚ) / 2 ^ 125 = 1 / 2 ^ 126 + 1 / 2 ^ 126 := by norm_num
      linarith
    have h4 : (d + u / 2) ^ 2 < (1 / 2 ^ 125) ^ 2 := pow_lt_pow_left₀ h3 (by positivity) (by norm_num)
    have h5 : ((1 : ℚ) / 2 ^ 125) ^ 2 ≤ 1 / 2 ^ 200 := by norm_num
    linarith
  have hdhi : d ≤ 2 ^ 127 := by
    by_contra hc
    have hc' : (2 : ℚ) ^ 127 < d := not_le.mp hc
    have h3 : (2 : ℚ) ^ 126 ≤ d - u / 2 := by
      have : d / 2 ^ 53 ≤ d / 2 := by
        apply div_le_div_of_nonneg_left hd0.le (by norm_num) (by norm_num)
      have e2 : (2 : ℚ) ^ 127 = 2 * 2 ^ 126 := by norm_num
      linarith
    have h4 : ((2 : ℚ) ^ 126) ^ 2 ≤ (d - u / 2) ^ 2 := pow_le_pow_left₀ (by positivity) h3 2
    have h5 : (2 : ℚ) ^ 200 < (2 ^ 126) ^ 2 := by norm_num
    linarith
  have habs : |d| = d := abs_of_pos hd0
  obtain ⟨l, hl, herr, hnn, _⟩ := round_rel (q := d) (by rw [habs]; exact hdlo)
    (by rw [habs]; exact hdhi)
  rw [habs] at herr
  have herr' := abs_le.mp herr
  have hl0 : 0 ≤ l := hnn hd0.le
  have hllo : (1 - 1 / 2 ^ 24) * d ≤ l := by linarith
  have hlhi : l ≤ (1 + 1 / 2 ^ 24) * d := by linarith
  have hlpos : 0 < l := lt_of_lt_of_le (mul_pos (by norm_num) hd0) hllo
  have hD : 0 ≤ d * d := by positivity
  have hA : (1 - 1 / 2 ^ 53) ^ 2 * (d * d) ≤ a := by
    have h3 : (1 - 1 / 2 ^ 53) * d ≤ d - u / 2 := by linarith
    have h4 : ((1 - 1 / 2 ^ 53) * d) ^ 2 ≤ (d - u / 2) ^ 2 :=
      pow_le_pow_left₀ (mul_nonneg (by norm_num) hd0.le) h3 2
    have e : ((1 - 1 / 2 ^ 53) * d) ^ 2 = (1 - 1 / 2 ^ 53) ^ 2 * (d * d) := by ring
    linarith
  have hB : a ≤ (1 + 1 / 2 ^ 53) ^ 2 * (d * d) := by
    have h3 : d + u / 2 ≤ (1 + 1 / 2 ^ 53) * d := by linarith
    have h4 : (d + u / 2) ^ 2 ≤ ((1 + 1 / 2 ^ 53) * d) ^ 2 :=
      pow_le_pow_left₀ (by positivity) h3 2
    have e : ((1 + 1 / 2 ^ 53) * d) ^ 2 = (1 + 1 / 2 ^ 53) ^ 2 * (d * d) := by ring
    linarith
  have hC : l * l ≤ (1 + 1 / 2 ^ 24) ^ 2 * (d * d) := by
    have h4 : l ^ 2 ≤ ((1 + 1 / 2 ^ 24) * d) ^ 2 := pow_le_pow_left₀ hl0 hlhi 2
    have e : ((1 + 1 / 2 ^ 24) * d) ^ 2 = (1 + 1 / 2 ^ 24) ^ 2 * (d * d) := by ring
    have e2 : l ^ 2 = l * l := by ring
    linarith
  have hE : (1 - 1 / 2 ^ 24) ^ 2 * (d * d) ≤ l * l := by
    have h4 : ((1 - 1 / 2 ^ 24) * d) ^ 2 ≤ l ^ 2 :=
      pow_le_pow_left₀ (mul_nonneg (by norm_num) hd0.le) hllo 2
    have e : ((1 - 1 / 2 ^ 24) * d) ^ 2 = (1 - 1 / 2 ^ 24) ^ 2 * (d * d) := by ring
    have e2 : l ^ 2 = l * l := by ring
    linarith
  refine ⟨l, hl, hlpos, ?_, ?_⟩
  · have hc : (1 - 1 / 2 ^ 22 : ℚ) * (1 + 1 / 2 ^ 53) ^ 2 ≤ (1 - 1 / 2 ^ 24) ^ 2 := by norm_num
    calc (1 - 1 / 2 ^ 22) * a ≤ (1 - 1 / 2 ^ 22) * ((1 + 1 / 2 ^ 53) ^ 2 * (d * d)) :=
          mul_le_mul_of_nonneg_left hB (by norm_num)
      _ = (1 - 1 / 2 ^ 22) * (1 + 1 / 2 ^ 53) ^ 2 * (d * d) := by ring
      _ ≤ (1 - 1 / 2 ^ 24) ^ 2 * (d * d) := mul_le_mul_of_nonneg_right hc hD
      _ ≤ l * l := hE
  · have hc : (1 + 1 / 2 ^ 24 : ℚ) ^ 2 ≤ (1 + 1 / 2 ^ 22) * (1 - 1 / 2 ^ 53) ^ 2 := by norm_num
    calc l * l ≤ (1 + 1 / 2 ^ 24) ^ 2 * (d * d) := hC
      _ ≤ (1 + 1 / 2 ^ 22) * (1 - 1 / 2 ^ 53) ^ 2 * (d * d) := mul_le_mul_of_nonneg_right hc hD
      _ = (1 + 1 / 2 ^ 22) * ((1 - 1 / 2 ^ 53) ^ 2 * (d * d)) := by ring
      _ ≤ (1 + 1 / 2 ^ 22) * a := mul_le_mul_of_nonneg_left hA (by norm_num)

theorem binaryUlp24_eq_of_normal {a : ℚ} (ha : (2 : ℚ) ^ (-126 : Int) ≤ a) :
    binaryUlp 24 (-126) a = 2 ^ Int.log 2 a / 2 ^ 23 := by
  have hpos : 0 < a := lt_of_lt_of_le (by positivity) ha
  have hL : (-126 : Int) ≤ Int.log 2 a := (le_log_two_iff hpos _).mp ha
  rw [binaryUlp24_eq, max_eq_left hL]

theorem roundBinary24_ge_pow {a : ℚ} (ha : (2 : ℚ) ^ (-126 : Int) ≤ a) :
    (2 : ℚ) ^ Int.log 2 a ≤ roundBinary 24 (-126) a := by
  have hpos : 0 < a := lt_of_lt_of_le (by positivity) ha
  have hu := binaryUlp_pos 24 (-126) a
  have hue := binaryUlp24_eq_of_normal ha
  have hlo := binaryUlp24_le ha
  unfold roundBinary
  set u := binaryUlp 24 (-126) a with hudef
  have hq : ((8388608 : Int) : ℚ) ≤ a / u := by
    rw [le_div_iff₀ hu]
    norm_num at hlo ⊢
    linarith
  have hr := le_roundHalfEven_of_le hq
  have hrq : ((8388608 : Int) : ℚ) ≤ ((roundHalfEven (a / u) : Int) : ℚ) := by exact_mod_cast hr
  have e : (2 : ℚ) ^ Int.log 2 a = 8388608 * u := by
    rw [hue]
    field_simp
    norm_num
    ring
  rw [e]
  have := mul_le_mul_of_nonneg_right hrq hu.le
  simpa using this

theorem roundBinary24_le_pow (a : ℚ) :
    roundBinary 24 (-126) a ≤ 2 ^ 24 * binaryUlp 24 (-126) a := by
  have hu := binaryUlp_pos 24 (-126) a
  have hlt := lt_binaryUlp24 a
  unfold roundBinary
  set u := binaryUlp 24 (-126) a with hudef
  have hq : a / u ≤ ((16777216 : Int) : ℚ) := by
    rw [div_le_iff₀ hu]
    norm_num at hlt ⊢
    linarith
  have hr := roundHalfEven_le_of_le hq
  have hrq : ((roundHalfEven (a / u) : Int) : ℚ) ≤ ((16777216 : Int) : ℚ) := by exact_mod_cast hr
  have := mul_le_mul_of_nonneg_right hrq hu.le
  norm_num at this ⊢
  linarith

theorem roundBinary24_mono_rounded {a b : ℚ} (ha : (2 : ℚ) ^ (-126 : Int) ≤ a)
    (h : roundBinary 24 (-126) a ≤ b) : roundBinary 24 (-126) a ≤ roundBinary 24 (-126) b := by
  have hpos : 0 < a := lt_of_lt_of_le (by positivity) ha
  have hge := roundBinary24_ge_pow ha
  have hbpos : 0 < b := lt_of_lt_of_le (by positivity) (le_trans hge h)
  have hLL : Int.log 2 a ≤ Int.log 2 b := (le_log_two_iff hbpos _).mp (le_trans hge h)
  have hb : (2 : ℚ) ^ (-126 : Int) ≤ b := by
    have h1 : (-126 : Int) ≤ Int.log 2 a := (le_log_two_iff hpos _).mp ha
    exact (le_log_two_iff hbpos _).mpr (by omega)
  rcases eq_or_lt_of_le hLL with heq | hlt
  · -- same binade: the rounded value is a grid point below `b`
    have hua := binaryUlp24_eq_of_normal ha
    have hub := binaryUlp24_eq_of_normal hb
    have huu : binaryUlp 24 (-126) b = binaryUlp 24 (-126) a := by rw [hua, hub, heq]
    have hu := binaryUlp_pos 24 (-126) a
    have hq : ((roundHalfEven (a / binaryUlp 24 (-126) a) : Int) : ℚ) ≤
        b / binaryUlp 24 (-126) a := by
      rw [le_div_iff₀ hu]
      exact h
    have hr := le_roundHalfEven_of_le hq
    have hrq : ((roundHalfEven (a / binaryUlp 24 (-126) a) : Int) : ℚ) ≤
        ((roundHalfEven (b / binaryUlp 24 (-126) a) : Int) : ℚ) := by exact_mod_cast hr
    have hgoal := mul_le_mul_of_nonneg_right hrq hu.le
    unfold roundBinary
    rw [huu]
    exact hgoal
  · have h1 := roundBinary24_le_pow a
    have h2 := roundBinary24_ge_pow hb
    have hua := binaryUlp24_eq_of_normal ha
    have h3 : (2 : ℚ) ^ 24 * binaryUlp 24 (-126) a = 2 ^ (Int.log 2 a + 1) := by
      rw [hua, zpow_add₀ (by norm_num : (2 : ℚ) ≠ 0)]
      field_simp
      norm_num
      ring
    have h4 : (2 : ℚ) ^ (Int.log 2 a + 1) ≤ 2 ^ Int.log 2 b :=
      zpow_le_zpow_right₀ (by norm_num) (by omega)
    linarith

theorem roundBinary24_le_one {a : ℚ} (h0 : 0 ≤ a) (h1 : a ≤ 1) :
    roundBinary 24 (-126) a ≤ 1 := by
  rcases eq_or_lt_of_le h1 with h | h
  · have hr := roundBinary24_eq (a := a) (k := 0) (n := 8388608) (by rw [h]; norm_num)
      (by rw [h]; norm_num) (by norm_num) (by rw [h, abs_lt]; constructor <;> norm_num)
    rw [hr]
    norm_num
  · rcases eq_or_lt_of_le h0 with hz | hpos
    · rw [← hz, roundBinary_zero]
      norm_num
    have hL : Int.log 2 a < 0 := (log_two_lt_iff hpos 0).mp (by norm_num; linarith)
    have hE : max (Int.log 2 a) (-126) + 1 ≤ 0 := by omega
    have h2 := roundBinary24_le_pow a
    have h3 : (2 : ℚ) ^ 24 * binaryUlp 24 (-126) a = 2 ^ (max (Int.log 2 a) (-126) + 1) := by
      rw [binaryUlp24_eq, zpow_add₀ (by norm_num : (2 : ℚ) ≠ 0)]
      field_simp
      norm_num
      ring
    have h4 : (2 : ℚ) ^ (max (Int.log 2 a) (-126) + 1) ≤ 2 ^ (0 : Int) :=
      zpow_le_zpow_right₀ (by norm_num) hE
    norm_num at h4
    linarith

theorem round_of_pos_normal {d : ℚ} (h1 : (2 : ℚ) ^ (-126 : Int) ≤ d) (h2 : d ≤ 2 ^ 127) :
    F32.round d = .finite (roundBinary 24 (-126) d) := by
  have hpos : 0 < d := lt_of_lt_of_le (by positivity) h1
  have hule : 2 ^ 23 * binaryUlp 24 (-126) d ≤ d := binaryUlp24_le h1
  have hb := (abs_le.mp (abs_roundBinary_sub_le 24 (-126) d)).2
  have hlt : ¬ ((2 : ℚ) ^ 128 ≤ roundBinary 24 (-126) d) := by
    intro hc
    have hu := binaryUlp_pos 24 (-126) d
    norm_num at hule h2 hc
    linarith
  unfold F32.round
  rw [abs_of_pos hpos]
  simp [hlt, not_lt.mpr hpos.le]

theorem roundBinary_eq_of_round_eq {X : ℚ} (hX : 0 < X) (hr : F32.round X = .finite X) :
    roundBinary 24 (-126) X = X := by
  unfold F32.round at hr
  rw [abs_of_pos hX] at hr
  by_cases h : (2 : ℚ) ^ 128 ≤ roundBinary 24 (-126) X
  · simp [h] at hr
  · simp only [h, if_false, not_lt.mpr hX.le] at hr
    exact F32.finite.inj hr

/-- A normal value of `float` is `M` units of its binade, with a 24-bit
significand `M`. -/
theorem grid_of_round_eq {X : ℚ} (hX : (2 : ℚ) ^ (-126 : Int) ≤ X)
    (hr : F32.round X = .finite X) :
    ∃ M : Int, 8388608 ≤ M ∧ M < 16777216 ∧ X = M * (2 ^ Int.log 2 X / 2 ^ 23) := by
  have hpos : 0 < X := lt_of_lt_of_le (by positivity) hX
  have hrb := roundBinary_eq_of_round_eq hpos hr
  have hue := binaryUlp24_eq_of_normal hX
  have hu := binaryUlp_pos 24 (-126) X
  have hlo := binaryUlp24_le hX
  have hhi := lt_binaryUlp24 X
  unfold roundBinary at hrb
  rw [hue] at hrb hu hlo hhi
  refine ⟨roundHalfEven (X / (2 ^ Int.log 2 X / 2 ^ 23)), ?_, ?_, hrb.symm⟩
  · have h1 : ((8388608 : Int) : ℚ) * (2 ^ Int.log 2 X / 2 ^ 23) ≤
        ((roundHalfEven (X / (2 ^ Int.log 2 X / 2 ^ 23)) : Int) : ℚ) *
          (2 ^ Int.log 2 X / 2 ^ 23) := by
      rw [hrb]
      norm_num at hlo ⊢
      linarith
    have h2 := le_of_mul_le_mul_right h1 hu
    exact_mod_cast h2
  · have h1 : ((roundHalfEven (X / (2 ^ Int.log 2 X / 2 ^ 23)) : Int) : ℚ) *
        (2 ^ Int.log 2 X / 2 ^ 23) < ((16777216 : Int) : ℚ) * (2 ^ Int.log 2 X / 2 ^ 23) := by
      rw [hrb]
      norm_num at hhi ⊢
      linarith
    have h2 := lt_of_mul_lt_mul_right h1 hu.le
    exact_mod_cast h2

/-- Rounding does not go below a `float` `M * u` when the argument is above
`M * u - u / 4`: a quarter unit is half the spacing just below a power of two. -/
theorem roundBinary24_ge_grid {d w : ℚ} {L M : Int} (hw : w = 2 ^ L) (hL : -125 ≤ L)
    (hM1 : 8388608 ≤ M) (hM2 : M ≤ 16777216)
    (hd : (M : ℚ) * (w / 2 ^ 23) - w / 2 ^ 23 / 4 < d) :
    (M : ℚ) * (w / 2 ^ 23) ≤ roundBinary 24 (-126) d := by
  have hwpos : 0 < w := by rw [hw]; positivity
  have hMq : (8388608 : ℚ) ≤ M := by exact_mod_cast hM1
  have hdlo : w / 2 < d := by
    have : (8388608 : ℚ) * (w / 2 ^ 23) ≤ (M : ℚ) * (w / 2 ^ 23) :=
      mul_le_mul_of_nonneg_right hMq (by positivity)
    norm_num at this hd ⊢
    linarith
  have hdpos : 0 < d := by linarith
  have hw2 : w / 2 = 2 ^ (L - 1) := by
    rw [hw, zpow_sub₀ (by norm_num : (2 : ℚ) ≠ 0)]
    norm_num
  have hLd : L - 1 ≤ Int.log 2 d := (le_log_two_iff hdpos _).mp (by rw [← hw2]; exact hdlo.le)
  have hdn : (2 : ℚ) ^ (-126 : Int) ≤ d := (le_log_two_iff hdpos _).mpr (by omega)
  have hu := binaryUlp_pos 24 (-126) d
  have hue := binaryUlp24_eq_of_normal hdn
  rcases lt_trichotomy (Int.log 2 d) L with h1 | h1 | h1
  · -- the binade below that of the grid point
    have hL1 : Int.log 2 d = L - 1 := by omega
    rw [hL1, ← hw2] at hue
    have hq : ((2 * M : Int) : ℚ) - 1 / 2 < d / binaryUlp 24 (-126) d := by
      rw [hue, lt_div_iff₀ (by positivity)]
      push_cast
      have e : (2 * (M : ℚ) - 1 / 2) * (w / 2 / 2 ^ 23) =
          (M : ℚ) * (w / 2 ^ 23) - w / 2 ^ 23 / 4 := by ring
      rw [e]
      exact hd
    have hr := le_roundHalfEven_of_half_lt hq
    have hrq : ((2 * M : Int) : ℚ) ≤
        ((roundHalfEven (d / binaryUlp 24 (-126) d) : Int) : ℚ) := by exact_mod_cast hr
    have h2 := mul_le_mul_of_nonneg_right hrq hu.le
    unfold roundBinary
    rw [hue] at h2 ⊢
    push_cast at h2
    have e : 2 * (M : ℚ) * (w / 2 / 2 ^ 23) = (M : ℚ) * (w / 2 ^ 23) := by ring
    rw [e] at h2
    exact h2
  · rw [h1, ← hw] at hue
    have hq : ((M : Int) : ℚ) - 1 / 2 < d / binaryUlp 24 (-126) d := by
      rw [hue, lt_div_iff₀ (by positivity)]
      have e : ((M : ℚ) - 1 / 2) * (w / 2 ^ 23) =
          (M : ℚ) * (w / 2 ^ 23) - w / 2 ^ 23 / 4 - w / 2 ^ 23 / 4 := by ring
      rw [e]
      have : 0 < w / 2 ^ 23 / 4 := by positivity
      linarith
    have hr := le_roundHalfEven_of_half_lt hq
    have hrq : ((M : Int) : ℚ) ≤
        ((roundHalfEven (d / binaryUlp 24 (-126) d) : Int) : ℚ) := by exact_mod_cast hr
    have h2 := mul_le_mul_of_nonneg_right hrq hu.le
    unfold roundBinary
    rw [hue] at h2 ⊢
    exact h2
  · have h2 := roundBinary24_ge_pow hdn
    have h3 : (2 : ℚ) ^ (L + 1) ≤ 2 ^ Int.log 2 d := zpow_le_zpow_right₀ (by norm_num) (by omega)
    have h4 : (2 : ℚ) ^ (L + 1) = 2 * w := by
      rw [hw, zpow_add₀ (by norm_num : (2 : ℚ) ≠ 0)]
      norm_num
      ring
    have hMq2 : (M : ℚ) ≤ 16777216 := by exact_mod_cast hM2
    have h5 : (M : ℚ) * (w / 2 ^ 23) ≤ 16777216 * (w / 2 ^ 23) :=
      mul_le_mul_of_nonneg_right hMq2 (by positivity)
    norm_num at h5 ⊢
    linarith

/-- Rounding does not go below a `float` `M * u` that is not a power of two when
the argument is above `M * u - u / 2`. -/
theorem roundBinary24_ge_grid_half {d w : ℚ} {L M : Int} (hw : w = 2 ^ L) (hL : -126 ≤ L)
    (hM1 : 8388609 ≤ M) (hM2 : M ≤ 16777216)
    (hd : (M : ℚ) * (w / 2 ^ 23) - w / 2 ^ 23 / 2 < d) :
    (M : ℚ) * (w / 2 ^ 23) ≤ roundBinary 24 (-126) d := by
  have hwpos : 0 < w := by rw [hw]; positivity
  have hMq : (8388609 : ℚ) ≤ M := by exact_mod_cast hM1
  have hdlo : w < d := by
    have : (8388609 : ℚ) * (w / 2 ^ 23) ≤ (M : ℚ) * (w / 2 ^ 23) :=
      mul_le_mul_of_nonneg_right hMq (by positivity)
    norm_num at this hd ⊢
    linarith
  have hdpos : 0 < d := by linarith
  have hLd : L ≤ Int.log 2 d := (le_log_two_iff hdpos _).mp (by rw [← hw]; exact hdlo.le)
  have hdn : (2 : ℚ) ^ (-126 : Int) ≤ d := (le_log_two_iff hdpos _).mpr (by omega)
  have hu := binaryUlp_pos 24 (-126) d
  have hue := binaryUlp24_eq_of_normal hdn
  rcases eq_or_lt_of_le hLd with h1 | h1
  · rw [← h1, ← hw] at hue
    have hq : ((M : Int) : ℚ) - 1 / 2 < d / binaryUlp 24 (-126) d := by
      rw [hue, lt_div_iff₀ (by positivity)]
      have e : ((M : ℚ) - 1 / 2) * (w / 2 ^ 23) =
          (M : ℚ) * (w / 2 ^ 23) - w / 2 ^ 23 / 2 := by ring
      rw [e]
      exact hd
    have hr := le_roundHalfEven_of_half_lt hq
    have hrq : ((M : Int) : ℚ) ≤
        ((roundHalfEven (d / binaryUlp 24 (-126) d) : Int) : ℚ) := by exact_mod_cast hr
    have h2 := mul_le_mul_of_nonneg_right hrq hu.le
    unfold roundBinary
    rw [hue] at h2 ⊢
    exact h2
  · have h2 := roundBinary24_ge_pow hdn
    have h3 : (2 : ℚ) ^ (L + 1) ≤ 2 ^ Int.log 2 d := zpow_le_zpow_right₀ (by norm_num) (by omega)
    have h4 : (2 : ℚ) ^ (L + 1) = 2 * w := by
      rw [hw, zpow_add₀ (by norm_num : (2 : ℚ) ≠ 0)]
      norm_num
      ring
    have hMq2 : (M : ℚ) ≤ 16777216 := by exact_mod_cast hM2
    have h5 : (M : ℚ) * (w / 2 ^ 23) ≤ 16777216 * (w / 2 ^ 23) :=
      mul_le_mul_of_nonneg_right hMq2 (by positivity)
    norm_num at h5 ⊢
    linarith

theorem sq_lower_half {u M s d e : ℚ} (hu : 0 < u) (hM1 : 8388609 ≤ M) (hM2 : M ≤ 16777216)
    (hs : M * u * (M * u) - 8388608 * (u * u) ≤ s) (he0 : 0 ≤ e) (hd : 2 ^ 52 * e ≤ d)
    (hsd : s ≤ (d + e / 2) ^ 2) : M * u - u / 2 < d := by
  by_contra hcon
  have hcon := not_lt.mp hcon
  have hd0 : 0 ≤ d := le_trans (by positivity) hd
  have hY0 : 0 ≤ M * u - u / 2 := le_trans hd0 hcon
  have h1 : d + e / 2 ≤ (M * u - u / 2) * (1 + 1 / 2 ^ 53) := by
    norm_num at hd ⊢
    linarith
  have h2 : (d + e / 2) ^ 2 ≤ ((M * u - u / 2) * (1 + 1 / 2 ^ 53)) ^ 2 :=
    pow_le_pow_left₀ (by positivity) h1 2
  have hYle : M * u - u / 2 ≤ 2 ^ 24 * u := by
    have := mul_le_mul_of_nonneg_right hM2 hu.le
    norm_num at this ⊢
    linarith
  have hY2 : (M * u - u / 2) * (M * u - u / 2) ≤ 2 ^ 24 * u * (2 ^ 24 * u) :=
    mul_le_mul hYle hYle hY0 (by positivity)
  have hMu : 8388609 * (u * u) ≤ M * (u * u) := mul_le_mul_of_nonneg_right hM1 (by positivity)
  have huu : 0 < u * u := by positivity
  have e1 : ((M * u - u / 2) * (1 + 1 / 2 ^ 53)) ^ 2 =
      (M * u - u / 2) * (M * u - u / 2) +
        (M * u - u / 2) * (M * u - u / 2) * (1 / 2 ^ 52 + 1 / 2 ^ 106) := by ring
  have e2 : (M * u - u / 2) * (M * u - u / 2) =
      M * u * (M * u) - M * (u * u) + u * u / 4 := by ring
  have e3 : (2 : ℚ) ^ 24 * u * (2 ^ 24 * u) = 2 ^ 48 * (u * u) := by ring
  have h3 : (M * u - u / 2) * (M * u - u / 2) * (1 / 2 ^ 52 + 1 / 2 ^ 106) ≤
      2 ^ 48 * (u * u) * (1 / 2 ^ 52 + 1 / 2 ^ 106) := by
    rw [← e3]
    exact mul_le_mul_of_nonneg_right hY2 (by positivity)
  have e4 : (2 : ℚ) ^ 48 * (u * u) * (1 / 2 ^ 52 + 1 / 2 ^ 106) =
      (2 ^ 48 * (1 / 2 ^ 52 + 1 / 2 ^ 106)) * (u * u) := by ring
  have h4 : (2 : ℚ) ^ 48 * (1 / 2 ^ 52 + 1 / 2 ^ 106) ≤ 1 / 8 := by norm_num
  have h5 := mul_le_mul_of_nonneg_right h4 huu.le
  rw [e1] at h2
  rw [e4] at h3
  rw [e2] at h2
  linarith

theorem sq_lower_quarter {w s d e : ℚ} (hw : 0 < w) (hs : w * w ≤ s) (he0 : 0 ≤ e)
    (hd : 2 ^ 52 * e ≤ d) (hsd : s ≤ (d + e / 2) ^ 2) : w - w / 2 ^ 23 / 4 < d := by
  by_contra hcon
  have hcon := not_lt.mp hcon
  have hd0 : 0 ≤ d := le_trans (by positivity) hd
  have h1 : d + e / 2 ≤ w * ((1 - 1 / 2 ^ 25) * (1 + 1 / 2 ^ 53)) := by
    norm_num at hd hcon ⊢
    linarith
  have h2 : (d + e / 2) ^ 2 ≤ (w * ((1 - 1 / 2 ^ 25) * (1 + 1 / 2 ^ 53))) ^ 2 :=
    pow_le_pow_left₀ (by positivity) h1 2
  have e1 : (w * ((1 - 1 / 2 ^ 25) * (1 + 1 / 2 ^ 53))) ^ 2 =
      ((1 - 1 / 2 ^ 25) * (1 + 1 / 2 ^ 53)) ^ 2 * (w * w) := by ring
  have h4 : (((1 : ℚ) - 1 / 2 ^ 25) * (1 + 1 / 2 ^ 53)) ^ 2 ≤ 1 - 1 / 2 ^ 25 := by norm_num
  have hww : 0 < w * w := by positivity
  have h5 := mul_le_mul_of_nonneg_right h4 hww.le
  rw [e1] at h2
  have h6 : (1 - 1 / 2 ^ 25) * (w * w) < w * w := by
    have : (0 : ℚ) < 1 / 2 ^ 25 * (w * w) := by positivity
    linarith
  linarith

/-- The computed length is not below a component: when `s` is at least the
rounded square of the `float` `X`, the square root of `s`, computed in `double`
and rounded to `float`, is at least `X`. -/
theorem roundBinary_sqrt_ge {X s : ℚ} (hX : 1 / 2 ^ 30 ≤ X) (hr : F32.round X = .finite X)
    (hs : roundBinary 24 (-126) (X * X) ≤ s) :
    X ≤ roundBinary 24 (-126) (sqrtDouble s) := by
  have hpos : 0 < X := lt_of_lt_of_le (by positivity) hX
  have hX30 : (2 : ℚ) ^ (-30 : Int) ≤ X := le_trans (by norm_num) hX
  have hXn : (2 : ℚ) ^ (-126 : Int) ≤ X := le_trans (by norm_num) hX
  have hXXn : (2 : ℚ) ^ (-126 : Int) ≤ X * X := by
    have : (1 : ℚ) / 2 ^ 30 * (1 / 2 ^ 30) ≤ X * X := mul_le_mul hX hX (by positivity) hpos.le
    exact le_trans (by norm_num) this
  obtain ⟨M, hM1, hM2, hXM⟩ := grid_of_round_eq hXn hr
  have hL : (-30 : Int) ≤ Int.log 2 X := (le_log_two_iff hpos _).mp hX30
  have hw1 := log_two_le hpos
  have hw2 := lt_log_two_succ X
  rw [zpow_add₀ (by norm_num : (2 : ℚ) ≠ 0), zpow_one] at hw2
  have hwdef : (2 : ℚ) ^ Int.log 2 X = 2 ^ Int.log 2 X := rfl
  have hww : (2 : ℚ) ^ (2 * Int.log 2 X) = 2 ^ Int.log 2 X * 2 ^ Int.log 2 X := by
    rw [two_mul, zpow_add₀ (by norm_num : (2 : ℚ) ≠ 0)]
  generalize hLdef : Int.log 2 X = L at *
  generalize hwg : (2 : ℚ) ^ L = w at *
  have hwpos : 0 < w := by rw [← hwg]; positivity
  have hspos : 0 < s := by
    have h1 := roundBinary24_ge_pow hXXn
    have h2 : (0 : ℚ) < 2 ^ Int.log 2 (X * X) := by positivity
    linarith
  obtain ⟨-, b2, b3⟩ := sqrtDouble_bounds hspos
  have he := sqrtUlp_pos s
  rcases eq_or_lt_of_le hM1 with hM | hM
  · -- the significand is a power of two: the square is exact
    have hXw : X = w := by
      rw [hXM, ← hM]
      norm_num
      field_simp
    have hsq : roundBinary 24 (-126) (X * X) = w * w := by
      have h := roundBinary24_eq (a := X * X) (k := 2 * L) (n := 8388608)
        (by rw [hww, hXw]) (by
          rw [zpow_add₀ (by norm_num : (2 : ℚ) ≠ 0), hww, hXw]
          have : 0 < w * w := by positivity
          norm_num
          linarith) (by omega) (by
          rw [zpow_sub₀ (by norm_num : (2 : ℚ) ≠ 0), hww, hXw]
          have hne : w ≠ 0 := ne_of_gt hwpos
          have e : w * w / (w * w / 2 ^ (23 : Int)) = 8388608 := by
            field_simp
            norm_num
          rw [e]
          norm_num)
      rw [h, zpow_sub₀ (by norm_num : (2 : ℚ) ≠ 0), hww]
      norm_num
      field_simp
    rw [hsq] at hs
    have hq := sq_lower_quarter hwpos hs he.le b3 b2
    have hg := roundBinary24_ge_grid (d := sqrtDouble s) (M := M) hwg.symm (by omega) hM1
      hM2.le (by
        rw [← hM]
        have e : ((8388608 : Int) : ℚ) * (w / 2 ^ 23) = w := by
          norm_num
          field_simp
        rw [e]
        exact hq)
    rw [hXM]
    exact hg
  · have hM' : 8388609 ≤ M := by omega
    have hMq1 : (8388609 : ℚ) ≤ M := by exact_mod_cast hM'
    have hMq2 : (M : ℚ) ≤ 16777216 := by exact_mod_cast hM2.le
    have hXX2 : X * X < 2 ^ (2 * L + 2) := by
      have h1 : X * X < 2 ^ L * 2 * (2 ^ L * 2) := by
        rw [hwg]
        exact mul_lt_mul'' hw2 hw2 hpos.le hpos.le
      have e : (2 : ℚ) ^ (2 * L + 2) = 2 ^ L * 2 * (2 ^ L * 2) := by
        rw [zpow_add₀ (by norm_num : (2 : ℚ) ≠ 0), two_mul,
          zpow_add₀ (by norm_num : (2 : ℚ) ≠ 0)]
        norm_num
        ring
      rw [e]
      exact h1
    have hXXpos : 0 < X * X := by positivity
    have hlog : Int.log 2 (X * X) ≤ 2 * L + 1 := by
      have := (log_two_lt_iff hXXpos (2 * L + 2)).mp hXX2
      omega
    have hulp : binaryUlp 24 (-126) (X * X) ≤ 2 * (w * w) / 2 ^ 23 := by
      rw [binaryUlp24_eq_of_normal hXXn]
      have h1 : (2 : ℚ) ^ Int.log 2 (X * X) ≤ 2 ^ (2 * L + 1) :=
        zpow_le_zpow_right₀ (by norm_num) hlog
      have e : (2 : ℚ) ^ (2 * L + 1) = 2 * (w * w) := by
        rw [zpow_add₀ (by norm_num : (2 : ℚ) ≠ 0), two_mul,
          zpow_add₀ (by norm_num : (2 : ℚ) ≠ 0), hwg]
        norm_num
        ring
      rw [e] at h1
      exact div_le_div_of_nonneg_right h1 (by positivity)
    have herr := (abs_le.mp (abs_roundBinary_sub_le 24 (-126) (X * X))).1
    have hs' : (M : ℚ) * (w / 2 ^ 23) * ((M : ℚ) * (w / 2 ^ 23)) -
        8388608 * (w / 2 ^ 23 * (w / 2 ^ 23)) ≤ s := by
      rw [← hXM]
      have e : (8388608 : ℚ) * (w / 2 ^ 23 * (w / 2 ^ 23)) = 2 * (w * w) / 2 ^ 23 / 2 := by
        field_simp
        ring
      rw [e]
      linarith
    have hq := sq_lower_half (u := w / 2 ^ 23) (by positivity) hMq1 hMq2 hs' he.le b3 b2
    have hg := roundBinary24_ge_grid_half (d := sqrtDouble s) (M := M) hwg.symm (by omega) hM'
      hM2.le hq
    rw [hXM]
    exact hg

/-- Relative error of one rounding of a normal number, or of zero. -/
theorem roundBinary24_rel {q : ℚ} (h : q = 0 ∨ (2 : ℚ) ^ (-126 : Int) ≤ q) :
    (1 - 1 / 2 ^ 24) * q ≤ roundBinary 24 (-126) q ∧
      roundBinary 24 (-126) q ≤ (1 + 1 / 2 ^ 24) * q := by
  rcases h with h | h
  · rw [h, roundBinary_zero]
    norm_num
  · have hule := binaryUlp24_le h
    have hb := abs_le.mp (abs_roundBinary_sub_le 24 (-126) q)
    norm_num at hule ⊢
    constructor <;> linarith [hb.1, hb.2]

theorem round_nonneg_rel {q : ℚ} (h : q = 0 ∨ (2 : ℚ) ^ (-126 : Int) ≤ q) (h2 : q ≤ 2 ^ 127) :
    F32.round q = .finite (roundBinary 24 (-126) q) := by
  rcases h with h | h
  · rw [h, round_zero, roundBinary_zero]
  · exact round_of_pos_normal h h2

theorem roundBinary_of_round_finite {d l : ℚ} (hd : 0 ≤ d) (h : F32.round d = .finite l) :
    roundBinary 24 (-126) d = l := by
  unfold F32.round at h
  rw [abs_of_nonneg hd] at h
  by_cases hc : (2 : ℚ) ^ 128 ≤ roundBinary 24 (-126) d
  · simp [hc] at h
  · simp only [hc, if_false, not_lt.mpr hd] at h
    exact F32.finite.inj h

theorem round_abs_finite {q : ℚ} (h : q = 0 ∨ (2 : ℚ) ^ (-126 : Int) ≤ |q|) (h2 : |q| ≤ 2 ^ 127) :
    ∃ r : ℚ, F32.round q = .finite r ∧ |r| = roundBinary 24 (-126) |q| := by
  have hnn := roundBinary_nonneg 24 (-126) (abs_nonneg q)
  have h' : |q| = 0 ∨ (2 : ℚ) ^ (-126 : Int) ≤ |q| := by
    rcases h with h | h
    · left
      rw [h, abs_zero]
    · right
      exact h
  have hrel := (roundBinary24_rel h').2
  have hlt : ¬ ((2 : ℚ) ^ 128 ≤ roundBinary 24 (-126) |q|) := by
    intro hc
    norm_num at h2 hrel hc
    linarith
  unfold F32.round
  simp only [hlt, if_false]
  refine ⟨_, rfl, ?_⟩
  split_ifs
  · rw [abs_neg, abs_of_nonneg hnn]
  · rw [abs_of_nonneg hnn]

theorem round_abs_of_round {x : ℚ} (h : F32.round x = .finite x) :
    F32.round |x| = .finite |x| := by
  rcases le_or_lt 0 x with h0 | h0
  · rw [abs_of_nonneg h0]
    exact h
  · rw [abs_of_neg h0, round_neg, h]
    rfl

/-- The value of `magnitude()` on a `float` vector without overflow or underflow:
it is finite and positive, not below the rounded squares, and its square is the
exact sum of squares up to the accumulated relative rounding errors. -/
theorem magnitude_rel {x y : ℚ} (hx : x = 0 ∨ (1 / 2 ^ 62 ≤ |x| ∧ |x| ≤ 2 ^ 30))
    (hy : y = 0 ∨ (1 / 2 ^ 62 ≤ |y| ∧ |y| ≤ 2 ^ 30)) (hne : x ≠ 0 ∨ y ≠ 0) :
    ∃ s l : ℚ, Vector2f.magnitude ⟨.finite x, .finite y⟩ = .finite l ∧ 0 < l ∧
      roundBinary 24 (-126) (sqrtDouble s) = l ∧
      roundBinary 24 (-126) (|x| * |x|) ≤ s ∧ roundBinary 24 (-126) (|y| * |y|) ≤ s ∧
      (1 - 1 / 2 ^ 22) * ((1 - 1 / 2 ^ 24) * (1 - 1 / 2 ^ 24)) * (x * x + y * y) ≤ l * l ∧
      l * l ≤ (1 + 1 / 2 ^ 22) * ((1 + 1 / 2 ^ 24) * (1 + 1 / 2 ^ 24)) * (x * x + y * y) := by
  have sq : ∀ z : ℚ, (z = 0 ∨ (1 / 2 ^ 62 ≤ |z| ∧ |z| ≤ 2 ^ 30)) →
      (z * z = 0 ∨ (2 : ℚ) ^ (-126 : Int) ≤ z * z) ∧ z * z ≤ 2 ^ 60 ∧ 0 ≤ z * z ∧
        (z ≠ 0 → 1 / 2 ^ 124 ≤ z * z) := by
    intro z hz
    rcases hz with hz | ⟨hz1, hz2⟩
    · rw [hz]
      norm_num
    · have h1 : (1 : ℚ) / 2 ^ 62 * (1 / 2 ^ 62) ≤ |z| * |z| :=
        mul_le_mul hz1 hz1 (by positivity) (abs_nonneg z)
      have h2 : |z| * |z| ≤ 2 ^ 30 * 2 ^ 30 := mul_le_mul hz2 hz2 (abs_nonneg z) (by positivity)
      rw [abs_mul_abs_self] at h1 h2
      refine ⟨Or.inr (le_trans (by norm_num) h1), le_trans h2 (by norm_num),
        mul_self_nonneg z, fun _ => le_trans (by norm_num) h1⟩
  obtain ⟨hxn, hxu, hx0, hxl⟩ := sq x hx
  obtain ⟨hyn, hyu, hy0, hyl⟩ := sq y hy
  have rx := round_nonneg_rel hxn (le_trans hxu (by norm_num))
  have ry := round_nonneg_rel hyn (le_trans hyu (by norm_num))
  obtain ⟨bx1, bx2⟩ := roundBinary24_rel hxn
  obtain ⟨by1, by2⟩ := roundBinary24_rel hyn
  have hSx0 := roundBinary_nonneg 24 (-126) hx0
  have hSy0 := roundBinary_nonneg 24 (-126) hy0
  have hNlow : 1 / 2 ^ 124 ≤ x * x + y * y := by
    rcases hne with h | h
    · have := hxl h
      linarith
    · have := hyl h
      linarith
  generalize hSx : roundBinary 24 (-126) (x * x) = Sx at *
  generalize hSy : roundBinary 24 (-126) (y * y) = Sy at *
  have hsum1 : (2 : ℚ) ^ (-126 : Int) ≤ Sx + Sy := by
    norm_num at bx1 by1 hNlow ⊢
    linarith
  have hsum2 : Sx + Sy ≤ 2 ^ 127 := by
    norm_num at bx2 by2 hxu hyu ⊢
    linarith
  have rs := round_of_pos_normal hsum1 hsum2
  obtain ⟨bs1, bs2⟩ := roundBinary24_rel (Or.inr hsum1)
  have hxs : Sx ≤ roundBinary 24 (-126) (Sx + Sy) := by
    rcases hxn with h | h
    · rw [h, roundBinary_zero] at hSx
      rw [← hSx]
      exact roundBinary_nonneg 24 (-126) (by linarith)
    · have := roundBinary24_mono_rounded (b := Sx + Sy) h (by rw [hSx]; linarith)
      rw [hSx] at this
      exact this
  have hys : Sy ≤ roundBinary 24 (-126) (Sx + Sy) := by
    rcases hyn with h | h
    · rw [h, roundBinary_zero] at hSy
      rw [← hSy]
      exact roundBinary_nonneg 24 (-126) (by linarith)
    · have := roundBinary24_mono_rounded (b := Sx + Sy) h (by rw [hSy]; linarith)
      rw [hSy] at this
      exact this
  generalize hs : roundBinary 24 (-126) (Sx + Sy) = s at *
  have hs1 : 1 / 2 ^ 200 ≤ s := by
    norm_num at bs1 hsum1 ⊢
    linarith
  have hs2 : s ≤ 2 ^ 200 := by
    norm_num at bs2 hsum2 ⊢
    linarith
  obtain ⟨l, hl, hlpos, bl1, bl2⟩ := sqrt_sq_bounds hs1 hs2
  have hspos : 0 < s := lt_of_lt_of_le (by positivity) hs1
  have hd0 : 0 ≤ sqrtDouble s := by
    obtain ⟨-, -, b3⟩ := sqrtDouble_bounds hspos
    have := sqrtUlp_pos s
    exact le_trans (by positivity) b3
  have hlr := hl
  rw [sqrt_finite_pos hspos] at hlr
  have hrb := roundBinary_of_round_finite hd0 hlr
  refine ⟨s, l, ?_, hlpos, hrb, ?_, ?_, ?_, ?_⟩
  · show F32.sqrt (F32.add (F32.mul (.finite x) (.finite x)) (F32.mul (.finite y) (.finite y)))
      = .finite l
    have e1 : F32.mul (.finite x) (.finite x) = .finite Sx := rx
    have e2 : F32.mul (.finite y) (.finite y) = .finite Sy := ry
    have e3 : F32.add (.finite Sx) (.finite Sy) = .finite s := rs
    rw [e1, e2, e3, hl]
  · rw [abs_mul_abs_self, hSx]
    exact hxs
  · rw [abs_mul_abs_self, hSy]
    exact hys
  · norm_num at bx1 by1 bs1 bl1 ⊢
    linarith
  · norm_num at bx2 by2 bs2 bl2 ⊢
    linarith

theorem abs_sub_one_le_of_sq {m δ : ℚ} (hm : 0 < m) (h1 : 1 - δ ≤ m * m) (h2 : m * m ≤ 1 + δ) :
    |m - 1| ≤ δ := by
  rw [abs_le]
  rcases le_or_lt 1 m with h | h
  · have : 0 ≤ m * (m - 1) := mul_nonneg hm.le (by linarith)
    constructor <;> nlinarith
  · have : 0 ≤ m * (1 - m) := mul_nonneg hm.le (by linarith)
    constructor <;> nlinarith

theorem sq_le_of_le_mul {p q c : ℚ} (hp : 0 ≤ p) (h : p ≤ c * q) :
    p * p ≤ c * c * (q * q) := by
  have := mul_le_mul h h hp (le_trans hp h)
  have e : c * q * (c * q) = c * c * (q * q) := by ring
  rw [e] at this
  exact this

theorem sq_ge_of_mul_le {p q c : ℚ} (hq : 0 ≤ c * q) (h : c * q ≤ p) :
    c * c * (q * q) ≤ p * p := by
  have := mul_le_mul h h hq (le_trans hq h)
  have e : c * q * (c * q) = c * c * (q * q) := by ring
  rw [e] at this
  exact this

theorem normalized_sq_bounds {N N' ll mm c1 c2 e1 e2 : ℚ} (hN : 0 < N) (hN' : 0 ≤ N')
    (hc1 : 0 < c1) (hc2 : 0 < c2) (hl1 : c1 * N ≤ ll) (hl2 : ll ≤ c2 * N)
    (hn1 : e1 * N ≤ N' * ll) (hn2 : N' * ll ≤ e2 * N)
    (hm1 : c1 * N' ≤ mm) (hm2 : mm ≤ c2 * N') :
    c1 * e1 ≤ mm * c2 ∧ mm * c1 ≤ c2 * e2 := by
  have a1 : N' * (c1 * N) ≤ N' * ll := mul_le_mul_of_nonneg_left hl1 hN'
  have a2 : N' * ll ≤ N' * (c2 * N) := mul_le_mul_of_nonneg_left hl2 hN'
  have b1 : N' * c1 ≤ e2 := by
    have : N' * c1 * N ≤ e2 * N := by
      have e : N' * c1 * N = N' * (c1 * N) := by ring
      rw [e]
      linarith
    exact le_of_mul_le_mul_right this hN
  have b2 : e1 ≤ N' * c2 := by
    have : e1 * N ≤ N' * c2 * N := by
      have e : N' * c2 * N = N' * (c2 * N) := by ring
      rw [e]
      linarith
    exact le_of_mul_le_mul_right this hN
  constructor
  · have h1 := mul_le_mul_of_nonneg_left b2 hc1.le
    have h2 := mul_le_mul_of_nonneg_right hm1 hc2.le
    have e : c1 * (N' * c2) = c1 * N' * c2 := by ring
    rw [e] at h1
    linarith
  · have h1 := mul_le_mul_of_nonneg_left b1 hc2.le
    have h2 := mul_le_mul_of_nonneg_right hm2 hc1.le
    have e : c2 * (N' * c1) = c2 * N' * c1 := by ring
    rw [e] at h1
    linarith

/-- A quotient `x / l` of `normalize()` when the length `l` is at least `|x|`: it
is finite, of absolute value at most 1, and close to the exact quotient. -/
theorem div_round_le_one {x l : ℚ} (hl : 0 < l) (hxl : |x| ≤ l) (hlu : l ≤ 2 ^ 31)
    (hxr : x = 0 ∨ 1 / 2 ^ 30 ≤ |x|) :
    ∃ r : ℚ, F32.div (.finite x) (.finite l) = .finite r ∧ |r| ≤ 1 ∧
      (r = 0 ∨ (1 / 2 ^ 62 ≤ |r| ∧ |r| ≤ 2 ^ 30)) ∧
      (1 - 1 / 2 ^ 24) * |x| ≤ |r| * l ∧ |r| * l ≤ (1 + 1 / 2 ^ 24) * |x| := by
  have hne : l ≠ 0 := ne_of_gt hl
  have hdiv : F32.div (.finite x) (.finite l) = F32.round (x / l) := by
    simp [F32.div, hne]
  have habs : |x / l| = |x| / l := by rw [abs_div, abs_of_pos hl]
  have hq1 : |x / l| ≤ 1 := by
    rw [habs, div_le_one hl]
    exact hxl
  have hq0 : x / l = 0 ∨ (2 : ℚ) ^ (-126 : Int) ≤ |x / l| := by
    rcases hxr with h | h
    · left
      rw [h, zero_div]
    · right
      rw [habs, le_div_iff₀ hl]
      have : (2 : ℚ) ^ (-126 : Int) * l ≤ 2 ^ (-126 : Int) * 2 ^ 31 :=
        mul_le_mul_of_nonneg_left hlu (by positivity)
      norm_num at this h ⊢
      linarith
  have hq0' : |x / l| = 0 ∨ (2 : ℚ) ^ (-126 : Int) ≤ |x / l| := by
    rcases hq0 with h | h
    · left
      rw [h, abs_zero]
    · right
      exact h
  obtain ⟨r, hr, hrabs⟩ := round_abs_finite hq0 (le_trans hq1 (by norm_num))
  obtain ⟨b1, b2⟩ := roundBinary24_rel hq0'
  have hle := roundBinary24_le_one (abs_nonneg (x / l)) hq1
  rw [← hrabs] at b1 b2 hle
  have hxe : |x / l| * l = |x| := by
    rw [habs]
    field_simp
  have m1 := mul_le_mul_of_nonneg_right b1 hl.le
  have m2 := mul_le_mul_of_nonneg_right b2 hl.le
  rw [mul_assoc, hxe] at m1 m2
  refine ⟨r, by rw [hdiv, hr], hle, ?_, m1, m2⟩
  rcases hxr with h | h
  · left
    rw [h, abs_zero, mul_zero] at m2
    have h0 : |r| * l = 0 := le_antisymm m2 (mul_nonneg (abs_nonneg r) hl.le)
    rcases mul_eq_zero.mp h0 with h1 | h1
    · exact abs_eq_zero.mp h1
    · exact absurd h1 hne
  · right
    refine ⟨?_, le_trans hle (by norm_num)⟩
    by_contra hcon
    have hcon := not_le.mp hcon
    have h3 : |r| * l < 1 / 2 ^ 62 * 2 ^ 31 := by
      calc |r| * l ≤ |r| * 2 ^ 31 := mul_le_mul_of_nonneg_left hlu (abs_nonneg r)
        _ < 1 / 2 ^ 62 * 2 ^ 31 := mul_lt_mul_of_pos_right hcon (by positivity)
    norm_num at h3 m1 h
    linarith

/-- The assertions of `normalize()` hold when both quotients have an absolute
value of at most 1. -/
theorem normalize_float_ok {l x' y' : ℚ} {v : Vector2f} (hmag : v.magnitude = .finite l)
    (hdx : F32.div v.x (.finite l) = .finite x') (hdy : F32.div v.y (.finite l) = .finite y')
    (hx : |x'| ≤ 1) (hy : |y'| ≤ 1) :
    v.normalize = .ok ⟨.finite x', .finite y'⟩ := by
  have h1 : F32.ofInt 1 = .finite 1 := by
    simpa using ofInt_of_natAbs_le (show (1 : Int).natAbs ≤ 16777216 by decide)
  have hm1 : F32.ofInt (-1) = .finite (-1) := by
    simpa using ofInt_of_natAbs_le (show (-1 : Int).natAbs ≤ 16777216 by decide)
  obtain ⟨hx1, hx2⟩ := abs_le.mp hx
  obtain ⟨hy1, hy2⟩ := abs_le.mp hy
  have ha : v.normalizeAssignments = ⟨.finite x', .finite y'⟩ := by
    simp [Vector2f.normalizeAssignments, hmag, hdx, hdy]
  simp [Vector2f.normalize, ha, h1, hm1, F32.le, hx1, hx2, hy1, hy2]
  rfl

/-- When the square of `x` overflows, the length is infinite and `normalized()`
returns `(0, 0)`. -/
theorem normalized_float_overflow {x : ℚ} (hsq : F32.round (x * x) = .inf false) :
    Vector2f.magnitude ⟨.finite x, .finite 0⟩ = .inf false ∧
    Vector2f.normalized ⟨.finite x, .finite 0⟩ = .ok ⟨.finite 0, .finite 0⟩ := by
  have hmf : Vector2f.magnitude ⟨.finite x, .finite 0⟩ = .inf false := by
    simp [Vector2f.magnitude, F32.mul, hsq, round_zero, F32.add, F32.sqrt]
  have h1 : F32.ofInt 1 = .finite 1 := by
    simpa using ofInt_of_natAbs_le (show (1 : Int).natAbs ≤ 16777216 by decide)
  have hm1 : F32.ofInt (-1) = .finite (-1) := by
    simpa using ofInt_of_natAbs_le (show (-1 : Int).natAbs ≤ 16777216 by decide)
  have hna : Vector2f.normalizeAssignments ⟨.finite x, .finite 0⟩ =
      ⟨.finite 0, .finite 0⟩ := by
    simp [Vector2f.normalizeAssignments, hmf, F32.div]
  refine ⟨hmf, ?_⟩
  simp [Vector2f.normalized, Vector2f.normalize, hna, h1, hm1, F32.le]
  rfl

theorem opInsert_written (out : OStream) (v : Vector2i) :
    (Vector2i.opInsert out v).written =
      out.written ++ ("(" ++ decimal v.x ++ ", " ++ decimal v.y ++ ")") := by
  apply String.ext
  simp [Vector2i.opInsert, OStream.putChar, OStream.putInt, OStream.putString]

theorem ne_eq_not_eq (a b : F32) : F32.ne a b = !(F32.eq a b) := by
  cases a <;> cases b <;> simp [F32.ne, F32.eq, bne]

/-- A quotient of absolute value at most 3/2, rounded to `float` and converted
to `int`, is -1, 0 or 1. -/
theorem toInt_round_small {q : ℚ} (h : |q| ≤ 3 / 2) :
    ∃ k : Int, (F32.round q).toInt = .ok k ∧ -1 ≤ k ∧ k ≤ 1 := by
  rcases lt_or_le |q| (1 - 1 / 2 ^ 25) with hs | hb
  · obtain ⟨r, hr, hr1⟩ := round_abs_lt_one hs
    refine ⟨0, ?_, by norm_num, by norm_num⟩
    rw [hr]
    unfold F32.toInt
    simp only
    rw [truncQ_eq_zero hr1, if_pos (by decide)]
  · obtain ⟨r, hr, herr, -, -⟩ := round_rel (q := q) (le_trans (by norm_num) hb)
      (le_trans h (by norm_num))
    have hr2 : |r| < 2 := by
      have h1 : |r| ≤ |r - q| + |q| := by
        have := abs_add (r - q) q
        simpa using this
      have h2 : |q| / 2 ^ 24 ≤ 3 / 2 / 2 ^ 24 := div_le_div_of_nonneg_right h (by positivity)
      norm_num at h2 herr ⊢
      linarith
    obtain ⟨hlo, hhi⟩ := abs_lt.mp hr2
    have hk : -1 ≤ roundTowardZero r ∧ roundTowardZero r ≤ 1 := by
      unfold roundTowardZero
      split_ifs with h0
      · constructor
        · have : (0 : Int) ≤ ⌊r⌋ := Int.floor_nonneg.mpr h0
          omega
        · have : ⌊r⌋ < 2 := Int.floor_lt.mpr (by exact_mod_cast hhi)
          omega
      · constructor
        · have : (-2 : Int) < ⌈r⌉ := Int.lt_ceil.mpr (by exact_mod_cast hlo)
          omega
        · have : ⌈r⌉ ≤ 0 := Int.ceil_le.mpr (by exact_mod_cast (not_le.mp h0).le)
          omega
    refine ⟨roundTowardZero r, ?_, hk.1, hk.2⟩
    rw [hr]
    apply toInt_finite_of_inIntRange
    unfold inIntRange INT_MIN INT_MAX
    constructor <;> omega

/-- The quotient of a component of a `Vector2<int>` by the length of the vector
has an absolute value of at most 3/2. -/
theorem abs_div_magnitude_le {x S : Int} {l : ℚ} (hl : 0 < l) (hx : x * x ≤ S)
    (hS : (1 - 1 / 2 ^ 22) * (S : ℚ) ≤ l * l) : |(x : ℚ) / l| ≤ 3 / 2 := by
  rw [abs_div, abs_of_pos hl, div_le_iff₀ hl]
  have hxq : (x : ℚ) * x ≤ S := by exact_mod_cast hx
  by_contra hcon
  have hcon := not_le.mp hcon
  have h0 : (0 : ℚ) ≤ 3 / 2 * l := by positivity
  have h1 : 3 / 2 * l * (3 / 2 * l) < |(x : ℚ)| * |(x : ℚ)| :=
    mul_lt_mul'' hcon hcon h0 h0
  rw [abs_mul_abs_self] at h1
  have h2 : 0 < l * l := by positivity
  norm_num at hS
  nlinarith

theorem round_intCast {k : Int} (h : |k| < 16777216) : F32.round (k : ℚ) = .finite (k : ℚ) := by
  rcases lt_trichotomy k 0 with hk | hk | hk
  · have h1 : F32.round ((-k : Int) : ℚ) = .finite ((-k : Int) : ℚ) :=
      round_intCast_pos (by omega) (by rw [abs_of_neg hk] at h; omega)
    have e : (k : ℚ) = -((-k : Int) : ℚ) := by push_cast; ring
    rw [e, round_neg, h1]
    rfl
  · rw [hk]
    simpa using round_zero
  · exact round_intCast_pos (by omega) (by rw [abs_of_pos hk] at h; omega)

theorem truncQ_neg (r : ℚ) : F32.truncQ (-r) = -F32.truncQ r := by
  unfold F32.truncQ
  rw [Rat.neg_num, Rat.neg_den, Int.neg_tdiv]

/-- The quotient of two small non-negative integers, rounded to `float` and
truncated, is their integer quotient. -/
theorem round_div_nonneg {x w : Int} (hx0 : 0 ≤ x) (hx : x ≤ 4095) (hw0 : 1 ≤ w)
    (hw : w ≤ 4095) :
    ∃ R : ℚ, F32.round ((x : ℚ) / w) = .finite R ∧ F32.truncQ R = x / w := by
  have hwq : (0 : ℚ) < w := by exact_mod_cast (by omega : (0 : Int) < w)
  rcases eq_or_lt_of_le hx0 with hz | hxpos
  · refine ⟨0, ?_, ?_⟩
    · rw [← hz]
      simpa using round_zero
    · rw [← hz]
      simpa using truncQ_intCast 0
  have hxq1 : (1 : ℚ) ≤ x := by exact_mod_cast (by omega : (1 : Int) ≤ x)
  have hxq2 : (x : ℚ) ≤ 4095 := by exact_mod_cast hx
  have hwq2 : (w : ℚ) ≤ 4095 := by exact_mod_cast hw
  have hq1 : (2 : ℚ) ^ (-126 : Int) ≤ (x : ℚ) / w := by
    rw [le_div_iff₀ hwq]
    have : (2 : ℚ) ^ (-126 : Int) * w ≤ 2 ^ (-126 : Int) * 4095 :=
      mul_le_mul_of_nonneg_left hwq2 (by positivity)
    norm_num at this ⊢
    linarith
  have hq2 : (x : ℚ) / w ≤ 2 ^ 127 := by
    rw [div_le_iff₀ hwq]
    have : (1 : ℚ) ≤ w := by exact_mod_cast hw0
    nlinarith
  have hround := round_of_pos_normal hq1 hq2
  obtain ⟨-, hrel⟩ := roundBinary24_rel (Or.inr hq1)
  -- the integer quotient
  have hk0 : 0 ≤ x / w := Int.ediv_nonneg hx0 (by omega)
  have hdm := Int.ediv_add_emod x w
  have hm0 := Int.emod_nonneg x (by omega : w ≠ 0)
  have hm1 := Int.emod_lt_of_pos x (by omega : 0 < w)
  have hkx : w * (x / w) ≤ x := by omega
  have hxk : x + 1 ≤ w * (x / w) + w := by omega
  have hkxq : (w : ℚ) * ((x / w : Int) : ℚ) ≤ x := by exact_mod_cast hkx
  have hxkq : (x : ℚ) + 1 ≤ (w : ℚ) * ((x / w : Int) : ℚ) + w := by exact_mod_cast hxk
  have hkq : ((x / w : Int) : ℚ) ≤ (x : ℚ) / w := by
    rw [le_div_iff₀ hwq]
    linarith
  have hlow : ((x / w : Int) : ℚ) ≤ roundBinary 24 (-126) ((x : ℚ) / w) := by
    rcases eq_or_lt_of_le hk0 with hkz | hkpos
    · rw [← hkz]
      exact_mod_cast roundBinary_nonneg 24 (-126) (le_trans (by positivity) hq1)
    · have hk4 : x / w ≤ 4095 := by
        have : w * (x / w) ≥ x / w := by nlinarith
        omega
      have hkr : F32.round ((x / w : Int) : ℚ) = .finite ((x / w : Int) : ℚ) :=
        round_intCast_pos (by omega) (by omega)
      have hk1 : (1 : ℚ) ≤ ((x / w : Int) : ℚ) := by exact_mod_cast (by omega : 1 ≤ x / w)
      have hrb := roundBinary_of_round_finite (le_trans (by norm_num) hk1) hkr
      have := roundBinary24_mono_rounded (a := ((x / w : Int) : ℚ)) (b := (x : ℚ) / w)
        (le_trans (by norm_num) hk1) (by rw [hrb]; exact hkq)
      rw [hrb] at this
      exact this
  have hhigh : roundBinary 24 (-126) ((x : ℚ) / w) < ((x / w : Int) : ℚ) + 1 := by
    have h1 : roundBinary 24 (-126) ((x : ℚ) / w) * w ≤ (1 + 1 / 2 ^ 24) * ((x : ℚ) / w) * w :=
      mul_le_mul_of_nonneg_right hrel hwq.le
    have e : (1 + 1 / 2 ^ 24) * ((x : ℚ) / w) * w = (1 + 1 / 2 ^ 24) * x := by
      rw [mul_assoc, div_mul_cancel₀ _ (ne_of_gt hwq)]
    rw [e] at h1
    have h2 : roundBinary 24 (-126) ((x : ℚ) / w) * w < (((x / w : Int) : ℚ) + 1) * w := by
      norm_num at h1 ⊢
      linarith
    exact lt_of_mul_lt_mul_right h2 hwq.le
  refine ⟨_, hround, ?_⟩
  rw [truncQ_eq_roundTowardZero]
  unfold roundTowardZero
  rw [if_pos (roundBinary_nonneg 24 (-126) (le_trans (by positivity) hq1)), Int.floor_eq_iff]
  exact ⟨hlow, hhigh⟩

/-- Division in `float` of two small integers, converted to `int`, is the `int`
division. -/
theorem toInt_round_div {x w : Int} (hx : |x| ≤ 4095) (hw0 : w ≠ 0) (hw : |w| ≤ 4095) :
    (F32.round ((x : ℚ) / w)).toInt = .ok (Int.tdiv x w) := by
  have key : ∀ a b : Int, 0 ≤ a → a ≤ 4095 → 1 ≤ b → b ≤ 4095 →
      ∃ R : ℚ, F32.round ((a : ℚ) / b) = .finite R ∧ F32.truncQ R = Int.tdiv a b := by
    intro a b ha0 ha hb0 hb
    obtain ⟨R, h1, h2⟩ := round_div_nonneg ha0 ha hb0 hb
    exact ⟨R, h1, by rw [h2, Int.tdiv_eq_ediv ha0 (by omega)]⟩
  have hrange : inIntRange (Int.tdiv x w) := by
    have h1 : (Int.tdiv x w).natAbs ≤ x.natAbs := by
      rw [Int.natAbs_tdiv]
      exact Nat.div_le_self _ _
    have h2 := Int.abs_eq_natAbs x
    unfold inIntRange INT_MIN INT_MAX
    omega
  have fin : ∀ R : ℚ, F32.truncQ R = Int.tdiv x w →
      (F32.finite R).toInt = .ok (Int.tdiv x w) := by
    intro R hR
    unfold F32.toInt
    simp only
    rw [hR, if_pos hrange]
  rcases le_or_lt 0 x with hx0 | hx0 <;> rcases lt_or_gt_of_ne hw0 with hw1 | hw1
  · -- 0 ≤ x, w < 0
    obtain ⟨R, h1, h2⟩ := key x (-w) hx0 (by rw [abs_of_nonneg hx0] at hx; exact hx)
      (by omega) (by rw [abs_of_neg hw1] at hw; exact hw)
    have e : (x : ℚ) / w = -((x : ℚ) / ((-w : Int) : ℚ)) := by
      push_cast
      rw [div_neg, neg_neg]
    rw [e, round_neg, h1]
    apply fin
    rw [truncQ_neg, h2, Int.tdiv_neg, neg_neg]
  · obtain ⟨R, h1, h2⟩ := key x w hx0 (by rw [abs_of_nonneg hx0] at hx; exact hx)
      (by omega) (by rw [abs_of_pos hw1] at hw; exact hw)
    rw [h1]
    exact fin R h2
  · -- x < 0, w < 0
    obtain ⟨R, h1, h2⟩ := key (-x) (-w) (by omega) (by rw [abs_of_neg hx0] at hx; exact hx)
      (by omega) (by rw [abs_of_neg hw1] at hw; exact hw)
    have e : (x : ℚ) / w = ((-x : Int) : ℚ) / ((-w : Int) : ℚ) := by
      push_cast
      rw [neg_div_neg_eq]
    rw [e, h1]
    apply fin
    rw [h2, Int.neg_tdiv_neg]
  · -- x < 0, 0 < w
    obtain ⟨R, h1, h2⟩ := key (-x) w (by omega) (by rw [abs_of_neg hx0] at hx; exact hx)
      (by omega) (by rw [abs_of_pos hw1] at hw; exact hw)
    have e : (x : ℚ) / w = -(((-x : Int) : ℚ) / (w : ℚ)) := by
      push_cast
      rw [neg_div, neg_neg]
    rw [e, round_neg, h1]
    apply fin
    rw [truncQ_neg, h2, Int.neg_tdiv, neg_neg]

theorem round_half : F32.round (1 / 2) = .finite (1 / 2) := by
  have h := round_eq_of_pos (q := 1 / 2) (k := -1) (n := 8388608) (by norm_num) (by norm_num)
    (by norm_num) (by rw [abs_lt]; constructor <;> norm_num) (by norm_num)
  rw [h]
  norm_num

theorem round_three_halves : F32.round (3 / 2) = .finite (3 / 2) := by
  have h := round_eq_of_pos (q := 3 / 2) (k := 0) (n := 12582912) (by norm_num) (by norm_num)
    (by norm_num) (by rw [abs_lt]; constructor <;> norm_num) (by norm_num)
  rw [h]
  norm_num

theorem truncQ_three_halves : F32.truncQ (3 / 2) = 1 := by
  rw [truncQ_eq_roundTowardZero]
  unfold roundTowardZero
  rw [if_pos (by norm_num), Int.floor_eq_iff]
  constructor <;> norm_num

theorem toInt_finite_of_truncQ {q : ℚ} {k : Int} (h : F32.truncQ q = k) (hk : inIntRange k) :
    (F32.finite q).toInt = .ok k := by
  unfold F32.toInt
  simp only
  rw [h, if_pos hk]

theorem ofInt_small {x : Int} (h : |x| ≤ 4095) : F32.ofInt x = .finite (x : ℚ) := by
  apply ofInt_of_natAbs_le
  have := Int.abs_eq_natAbs x
  omega

theorem opAssignF_eq {a b : Int} {v : Vector2i} {w : Vector2f}
    (op : F32 → F32 → F32)
    (hx : (op (F32.ofInt v.x) w.x).toInt = .ok a) (hy : (op (F32.ofInt v.y) w.y).toInt = .ok b) :
    (do
      let cx ← (op (F32.ofInt v.x) w.x).toInt
      let s1 : Vector2i := { v with x := cx }
      let cy ← (op (F32.ofInt s1.y) w.y).toInt
      pure { s1 with y := cy } : Except Fault Vector2i) = .ok ⟨a, b⟩ := by
  simp [hx, hy, bind, Except.bind, pure, Except.pure]

theorem roundHalfEven_mono {a b : ℚ} (h : a ≤ b) : roundHalfEven a ≤ roundHalfEven b := by
  have h1 := (abs_le.mp (abs_roundHalfEven_sub_le a)).2
  rcases lt_or_le ((roundHalfEven a : ℚ) - 1 / 2) b with hlt | hge
  · exact le_roundHalfEven_of_half_lt hlt
  · have e : a = b := le_antisymm h (by linarith)
    rw [e]

/-- Rounding to `float` is monotone on the non-negative numbers. -/
theorem roundBinary24_mono {a b : ℚ} (ha : 0 ≤ a) (h : a ≤ b) :
    roundBinary 24 (-126) a ≤ roundBinary 24 (-126) b := by
  rcases eq_or_lt_of_le ha with hz | hapos
  · rw [← hz, roundBinary_zero]
    exact roundBinary_nonneg 24 (-126) (le_trans ha h)
  have hbpos : 0 < b := lt_of_lt_of_le hapos h
  have hLL : Int.log 2 a ≤ Int.log 2 b :=
    (le_log_two_iff hbpos _).mp (le_trans (log_two_le hapos) h)
  rcases eq_or_lt_of_le (max_le_max hLL (le_refl (-126 : Int))) with heq | hlt
  · have huu : binaryUlp 24 (-126) b = binaryUlp 24 (-126) a := by
      rw [binaryUlp24_eq, binaryUlp24_eq, heq]
    have hu := binaryUlp_pos 24 (-126) a
    have hq : a / binaryUlp 24 (-126) a ≤ b / binaryUlp 24 (-126) a :=
      div_le_div_of_nonneg_right h hu.le
    have hr := roundHalfEven_mono hq
    have hrq : ((roundHalfEven (a / binaryUlp 24 (-126) a) : Int) : ℚ) ≤
        ((roundHalfEven (b / binaryUlp 24 (-126) a) : Int) : ℚ) := by exact_mod_cast hr
    have hgoal := mul_le_mul_of_nonneg_right hrq hu.le
    unfold roundBinary
    rw [huu]
    exact hgoal
  · have hbL : (-126 : Int) < Int.log 2 b := by
      by_contra hcon
      have h1 : max (Int.log 2 b) (-126) = -126 := max_eq_right (not_lt.mp hcon)
      have h2 : (-126 : Int) ≤ max (Int.log 2 a) (-126) := le_max_right _ _
      omega
    have hb : (2 : ℚ) ^ (-126 : Int) ≤ b := (le_log_two_iff hbpos _).mpr hbL.le
    have hEb : max (Int.log 2 b) (-126) = Int.log 2 b := max_eq_left hbL.le
    rw [hEb] at hlt
    have h1 := roundBinary24_le_pow a
    have h2 := roundBinary24_ge_pow hb
    have h3 : (2 : ℚ) ^ 24 * binaryUlp 24 (-126) a = 2 ^ (max (Int.log 2 a) (-126) + 1) := by
      rw [binaryUlp24_eq, zpow_add₀ (by norm_num : (2 : ℚ) ≠ 0)]
      field_simp
      norm_num
      ring
    have h4 : (2 : ℚ) ^ (max (Int.log 2 a) (-126) + 1) ≤ 2 ^ Int.log 2 b :=
      zpow_le_zpow_right₀ (by norm_num) (by omega)
    linarith

theorem roundBinary24_pow127 : roundBinary 24 (-126) (2 ^ 127) = 2 ^ 127 := by
  have h := roundBinary24_eq (a := 2 ^ 127) (k := 127) (n := 8388608) (by norm_num)
    (by norm_num) (by norm_num) (by rw [abs_lt]; constructor <;> norm_num)
  rw [h]
  norm_num

/-- A non-negative number of at most `2^127` rounds to a finite `float`. -/
theorem round_of_nonneg {q : ℚ} (h0 : 0 ≤ q) (h : q ≤ 2 ^ 127) :
    F32.round q = .finite (roundBinary 24 (-126) q) := by
  have hm := roundBinary24_mono h0 h
  rw [roundBinary24_pow127] at hm
  have hlt : ¬ ((2 : ℚ) ^ 128 ≤ roundBinary 24 (-126) q) := by
    intro hc
    norm_num at hm hc
    linarith
  unfold F32.round
  rw [abs_of_nonneg h0]
  simp [hlt, not_lt.mpr h0]

/-- A number of absolute value at most `2^127` rounds to a finite `float`, of
the same sign. -/
theorem round_finite {q : ℚ} (h : |q| ≤ 2 ^ 127) :
    ∃ r : ℚ, F32.round q = .finite r ∧ |r| = roundBinary 24 (-126) |q| ∧
      (0 ≤ q → 0 ≤ r) ∧ (q ≤ 0 → r ≤ 0) := by
  have hnn := roundBinary_nonneg 24 (-126) (abs_nonneg q)
  rcases le_or_lt 0 q with h0 | h0
  · rw [abs_of_nonneg h0] at h hnn ⊢
    refine ⟨_, round_of_nonneg h0 h, abs_of_nonneg hnn, fun _ => hnn, fun h1 => ?_⟩
    have e : q = 0 := le_antisymm h1 h0
    rw [e, roundBinary_zero]
  · have h1 : F32.round (-q) = .finite (roundBinary 24 (-126) (-q)) :=
      round_of_nonneg (by linarith) (by rw [abs_of_neg h0] at h; exact h)
    have e : q = -(-q) := by ring
    rw [abs_of_neg h0] at hnn ⊢
    refine ⟨-roundBinary 24 (-126) (-q), ?_, ?_, fun h2 => absurd h2 (not_le.mpr h0),
      fun _ => by linarith⟩
    · rw [e, round_neg, h1]
      simp [F32.neg]
    · rw [abs_neg, abs_of_nonneg hnn]

/-- The steps of `normalized()` on a `float` vector without overflow or
underflow: the length `l` is at least the absolute value of each component, both
quotients are finite, of absolute value at most 1 and close to the exact
quotients, and both assertions hold. -/
theorem normalized_float_components {x y : ℚ} (hx : F32.round x = .finite x)
    (hy : F32.round y = .finite y)
    (hxr : x = 0 ∨ (1 / 2 ^ 30 ≤ |x| ∧ |x| ≤ 2 ^ 30))
    (hyr : y = 0 ∨ (1 / 2 ^ 30 ≤ |y| ∧ |y| ≤ 2 ^ 30)) (hne : x ≠ 0 ∨ y ≠ 0) :
    ∃ l x' y' : ℚ,
      Vector2f.magnitude ⟨.finite x, .finite y⟩ = .finite l ∧ 0 < l ∧
      (1 - 1 / 2 ^ 22) * ((1 - 1 / 2 ^ 24) * (1 - 1 / 2 ^ 24)) * (x * x + y * y) ≤ l * l ∧
      l * l ≤ (1 + 1 / 2 ^ 22) * ((1 + 1 / 2 ^ 24) * (1 + 1 / 2 ^ 24)) * (x * x + y * y) ∧
      Vector2f.normalized ⟨.finite x, .finite y⟩ = .ok ⟨.finite x', .finite y'⟩ ∧
      |x'| ≤ 1 ∧ |y'| ≤ 1 ∧
      (x' = 0 ∨ (1 / 2 ^ 62 ≤ |x'| ∧ |x'| ≤ 2 ^ 30)) ∧
      (y' = 0 ∨ (1 / 2 ^ 62 ≤ |y'| ∧ |y'| ≤ 2 ^ 30)) ∧ (x' ≠ 0 ∨ y' ≠ 0) ∧
      ((1 - 1 / 2 ^ 24) * |x| ≤ |x'| * l ∧ |x'| * l ≤ (1 + 1 / 2 ^ 24) * |x|) ∧
      ((1 - 1 / 2 ^ 24) * |y| ≤ |y'| * l ∧ |y'| * l ≤ (1 + 1 / 2 ^ 24) * |y|) ∧
      (1 - 1 / 2 ^ 24) * (1 - 1 / 2 ^ 24) * (x * x + y * y) ≤
        (x' * x' + y' * y') * (l * l) ∧
      (x' * x' + y' * y') * (l * l) ≤
        (1 + 1 / 2 ^ 24) * (1 + 1 / 2 ^ 24) * (x * x + y * y) := by
  have weaken : ∀ z : ℚ, (z = 0 ∨ (1 / 2 ^ 30 ≤ |z| ∧ |z| ≤ 2 ^ 30)) →
      (z = 0 ∨ (1 / 2 ^ 62 ≤ |z| ∧ |z| ≤ 2 ^ 30)) ∧ (z = 0 ∨ 1 / 2 ^ 30 ≤ |z|) ∧
        z * z ≤ 2 ^ 60 := by
    intro z hz
    rcases hz with hz | ⟨hz1, hz2⟩
    · rw [hz]
      norm_num
    · have h2 : |z| * |z| ≤ 2 ^ 30 * 2 ^ 30 := mul_le_mul hz2 hz2 (abs_nonneg z) (by positivity)
      rw [abs_mul_abs_self] at h2
      exact ⟨Or.inr ⟨le_trans (by norm_num) hz1, hz2⟩, Or.inr hz1, le_trans h2 (by norm_num)⟩
  obtain ⟨hxw, hxl, hxu⟩ := weaken x hxr
  obtain ⟨hyw, hyl, hyu⟩ := weaken y hyr
  obtain ⟨s, l, hmag, hlpos, hrb, hsx, hsy, bl1, bl2⟩ := magnitude_rel hxw hyw hne
  have hxle : |x| ≤ l := by
    rcases hxl with h | h
    · rw [h, abs_zero]
      exact hlpos.le
    · rw [← hrb]
      exact roundBinary_sqrt_ge h (round_abs_of_round hx) hsx
  have hyle : |y| ≤ l := by
    rcases hyl with h | h
    · rw [h, abs_zero]
      exact hlpos.le
    · rw [← hrb]
      exact roundBinary_sqrt_ge h (round_abs_of_round hy) hsy
  have hlu : l ≤ 2 ^ 31 := by
    by_contra hcon
    have hcon := not_le.mp hcon
    have : (2 : ℚ) ^ 31 * 2 ^ 31 < l * l := mul_lt_mul'' hcon hcon (by positivity) (by positivity)
    norm_num at this bl2 hxu hyu
    linarith
  obtain ⟨x', hdx, hx1, hxr', bx1, bx2⟩ := div_round_le_one hlpos hxle hlu hxl
  obtain ⟨y', hdy, hy1, hyr', by1, by2⟩ := div_round_le_one hlpos hyle hlu hyl
  have hnorm := normalize_float_ok (v := ⟨.finite x, .finite y⟩) hmag hdx hdy hx1 hy1
  have hne' : x' ≠ 0 ∨ y' ≠ 0 := by
    rcases hne with h | h
    · left
      intro h0
      rw [h0, abs_zero, zero_mul] at bx1
      have : 0 < |x| := abs_pos.mpr h
      norm_num at bx1
      linarith
    · right
      intro h0
      rw [h0, abs_zero, zero_mul] at by1
      have : 0 < |y| := abs_pos.mpr h
      norm_num at by1
      linarith
  have sqx1 := sq_ge_of_mul_le (c := 1 - 1 / 2 ^ 24)
    (mul_nonneg (by norm_num) (abs_nonneg x)) bx1
  have sqx2 := sq_le_of_le_mul (mul_nonneg (abs_nonneg x') hlpos.le) bx2
  have sqy1 := sq_ge_of_mul_le (c := 1 - 1 / 2 ^ 24)
    (mul_nonneg (by norm_num) (abs_nonneg y)) by1
  have sqy2 := sq_le_of_le_mul (mul_nonneg (abs_nonneg y') hlpos.le) by2
  have ex : |x'| * l * (|x'| * l) = x' * x' * (l * l) := by
    rw [← abs_mul_abs_self x']
    ring
  have ey : |y'| * l * (|y'| * l) = y' * y' * (l * l) := by
    rw [← abs_mul_abs_self y']
    ring
  rw [ex, abs_mul_abs_self] at sqx1 sqx2
  rw [ey, abs_mul_abs_self] at sqy1 sqy2
  refine ⟨l, x', y', hmag, hlpos, bl1, bl2, hnorm, hx1, hy1, hxr', hyr', hne',
    ⟨bx1, bx2⟩, ⟨by1, by2⟩, ?_, ?_⟩
  · rw [mul_add, add_mul]
    linarith
  · rw [mul_add, add_mul]
    linarith

theorem sqrt_of_sq {k : Int} (h1 : 1 ≤ k) (h2 : k < 65536) :
    F32.sqrt (.finite ((k : ℚ) * k)) = .finite (k : ℚ) := by
  have hq1 : (1 : ℚ) ≤ k := by exact_mod_cast h1
  have hpos : (0 : ℚ) < (k : ℚ) * k := by positivity
  rw [sqrt_finite_pos hpos, sqrtDouble_sq h1 h2]
  exact round_intCast_pos h1 (by omega)

theorem magnitude_float_eq {x y px py s : ℚ} (hx : F32.round (x * x) = .finite px)
    (hy : F32.round (y * y) = .finite py) (hs : F32.round (px + py) = .finite s) :
    Vector2f.magnitude ⟨.finite x, .finite y⟩ = F32.sqrt (.finite s) := by
  show F32.sqrt (F32.add (F32.round (x * x)) (F32.round (y * y))) = _
  rw [hx, hy]
  show F32.sqrt (F32.round (px + py)) = _
  rw [hs]

theorem div_eq_round {a l : ℚ} (hl : l ≠ 0) :
    F32.div (.finite a) (.finite l) = F32.round (a / l) := by
  simp [F32.div, hl]

theorem round_small_int (k : Int) (h1 : 1 ≤ k) (h2 : k < 16777216) (q : ℚ) (e : q = (k : ℚ)) :
    F32.round q = .finite q := by
  rw [e]
  exact round_intCast_pos h1 h2

theorem normalized_three_four :
    Vector2f.magnitude ⟨.finite 3, .finite 4⟩ = .finite 5 ∧
    Vector2f.normalized ⟨.finite 3, .finite 4⟩ =
      .ok ⟨.finite (5033165 / 8388608), .finite (13421773 / 16777216)⟩ := by
  have h9 : F32.round (3 * 3) = .finite 9 := by
    have := round_small_int 9 (by decide) (by decide) (3 * 3) (by norm_num)
    rw [this]
    norm_num
  have h16 : F32.round (4 * 4) = .finite 16 := by
    have := round_small_int 16 (by decide) (by decide) (4 * 4) (by norm_num)
    rw [this]
    norm_num
  have h25 : F32.round (9 + 16) = .finite (((5 : Int) : ℚ) * (5 : Int)) := by
    have := round_small_int 25 (by decide) (by decide) (9 + 16) (by norm_num)
    rw [this]
    norm_num
  have hmag : Vector2f.magnitude ⟨.finite 3, .finite 4⟩ = .finite 5 := by
    rw [magnitude_float_eq h9 h16 h25, sqrt_of_sq (by decide) (by decide)]
    norm_num
  have hd3 : F32.div (.finite 3) (.finite 5) = .finite (5033165 / 8388608) := by
    rw [div_eq_round (by norm_num)]
    have h := round_eq_of_pos (q := 3 / 5) (k := -1) (n := 10066330)
      (by norm_num) (by norm_num) (by norm_num) (by rw [abs_lt]; constructor <;> norm_num)
      (by norm_num)
    rw [h]
    norm_num
  have hd4 : F32.div (.finite 4) (.finite 5) = .finite (13421773 / 16777216) := by
    rw [div_eq_round (by norm_num)]
    have h := round_eq_of_pos (q := 4 / 5) (k := -1) (n := 13421773)
      (by norm_num) (by norm_num) (by norm_num) (by rw [abs_lt]; constructor <;> norm_num)
      (by norm_num)
    rw [h]
    norm_num
  have hle3 : |(5033165 : ℚ) / 8388608| ≤ 1 := by
    rw [abs_le]
    constructor <;> norm_num
  have hle4 : |(13421773 : ℚ) / 16777216| ≤ 1 := by
    rw [abs_le]
    constructor <;> norm_num
  exact ⟨hmag, normalize_float_ok (v := ⟨.finite 3, .finite 4⟩) hmag hd3 hd4 hle3 hle4⟩

theorem ofInt_180 : F32.ofInt 180 = .finite 180 := by
  simpa using ofInt_of_natAbs_le (show (180 : Int).natAbs ≤ 16777216 by decide)

theorem M_PI_pos : 0 < M_PI := by
  unfold M_PI
  norm_num

/-- Rounding to `double` moves a number of `[2^k, 2^(k+1))` by at most
`2^(k-53)`. -/
theorem roundBinary53_near {a : ℚ} {k : Int} (h1 : (2 : ℚ) ^ k ≤ a) (h2 : a < (2 : ℚ) ^ (k + 1))
    (hk : -1022 ≤ k) : |roundBinary 53 (-1022) a - a| ≤ 2 ^ (k - 53) := by
  have hu : binaryUlp 53 (-1022) a = 2 ^ (k - 52) := by
    unfold binaryUlp
    rw [int_log_two_eq h1 h2, max_eq_left hk]
    norm_num
  have h := abs_roundBinary_sub_le 53 (-1022) a
  rw [hu] at h
  have e : (2 : ℚ) ^ (k - 52) / 2 = 2 ^ (k - 53) := by
    have e1 : k - 52 = (k - 53) + 1 := by ring
    rw [e1, zpow_add₀ (by norm_num : (2 : ℚ) ≠ 0)]
    norm_num
  rw [e] at h
  exact h

theorem roundBinary24_1024 : roundBinary 24 (-126) 1024 = 1024 := by
  have h := roundBinary24_eq (a := 1024) (k := 10) (n := 8388608) (by norm_num)
    (by norm_num) (by norm_num) (by rw [abs_lt]; constructor <;> norm_num)
  rw [h]
  norm_num

/-- The arithmetic of `angle` after `acosf`: for a value `p` of `acosf` between
0 and 4, the product by 180 in `float`, the quotient by `M_PI` in `double` and
the conversion to `float` are finite. -/
theorem angle_value {p : ℚ} (h0 : 0 ≤ p) (h1 : p ≤ 4) :
    F64.toFloat (F64.div (F32.mul (.finite p) (F32.ofInt 180)) (.finite M_PI)) =
      .finite (roundBinary 24 (-126)
        (roundBinary 53 (-1022) (roundBinary 24 (-126) (p * 180) / M_PI))) ∧
    0 ≤ roundBinary 24 (-126) (p * 180) ∧
    roundBinary 24 (-126) (p * 180) ≤ 1024 ∧
    0 ≤ roundBinary 53 (-1022) (roundBinary 24 (-126) (p * 180) / M_PI) ∧
    roundBinary 53 (-1022) (roundBinary 24 (-126) (p * 180) / M_PI) ≤ 513 := by
  have hp0 : 0 ≤ p * 180 := by positivity
  have hp1 : p * 180 ≤ 1024 := by linarith
  have hA0 := roundBinary_nonneg 24 (-126) hp0
  have hA1 := roundBinary24_mono hp0 hp1
  rw [roundBinary24_1024] at hA1
  have hmul : F32.mul (.finite p) (F32.ofInt 180) =
      .finite (roundBinary 24 (-126) (p * 180)) := by
    rw [ofInt_180]
    exact round_of_nonneg hp0 (le_trans hp1 (by norm_num))
  generalize roundBinary 24 (-126) (p * 180) = A at *
  have hpi := M_PI_pos
  have hx0 : 0 ≤ A / M_PI := div_nonneg hA0 hpi.le
  have hx1 : A / M_PI < 512 := by
    rw [div_lt_iff₀ hpi]
    unfold M_PI
    norm_num
    linarith
  have hD0 := roundBinary_nonneg 53 (-1022) hx0
  have hD1 : roundBinary 53 (-1022) (A / M_PI) ≤ 513 := by
    rcases eq_or_lt_of_le hx0 with hz | hpos
    · rw [← hz, roundBinary_zero]
      norm_num
    · have hL : Int.log 2 (A / M_PI) < 9 := (log_two_lt_iff hpos 9).mp (by norm_num; linarith)
      have hu : binaryUlp 53 (-1022) (A / M_PI) ≤ 1 := by
        unfold binaryUlp
        have : max (Int.log 2 (A / M_PI)) (-1022) - (((53 : ℕ) : Int) - 1) ≤ 0 := by
          have := max_le (a := Int.log 2 (A / M_PI)) (b := -1022) (c := 9) (by omega) (by omega)
          push_cast
          omega
        calc (2 : ℚ) ^ (max (Int.log 2 (A / M_PI)) (-1022) - (((53 : ℕ) : Int) - 1))
            ≤ 2 ^ (0 : Int) := zpow_le_zpow_right₀ (by norm_num) this
          _ = 1 := by norm_num
      have hb := (abs_le.mp (abs_roundBinary_sub_le 53 (-1022) (A / M_PI))).2
      linarith
  have hdiv : F64.div (.finite A) (.finite M_PI) =
      .finite (roundBinary 53 (-1022) (A / M_PI)) := by
    have hlt : ¬ ((2 : ℚ) ^ 1024 ≤ roundBinary 53 (-1022) (A / M_PI)) := by
      intro hc
      have : (513 : ℚ) < 2 ^ 1024 := by norm_num
      linarith
    show (if M_PI = 0 then _ else F64.round (A / M_PI)) = _
    rw [if_neg (ne_of_gt hpi)]
    unfold F64.round
    rw [abs_of_nonneg hx0]
    simp [hlt, not_lt.mpr hx0]
  refine ⟨?_, hA0, hA1, hD0, hD1⟩
  rw [hmul, hdiv]
  exact round_of_nonneg hD0 (le_trans hD1 (by norm_num))

/-- When `acosf` returns NaN, so does `angle`. -/
theorem angle_value_nan :
    F64.toFloat (F64.div (F32.mul .nan (F32.ofInt 180)) (.finite M_PI)) = .nan := by
  rw [ofInt_180]
  rfl

/-- For a value `p` of `acosf` between 0 and the `float` nearest to π, the
result of `angle` lies between 0 and 180. -/
theorem angle_value_range {p : ℚ} (h0 : 0 ≤ p) (h1 : p ≤ 13176795 / 4194304) :
    0 ≤ roundBinary 24 (-126)
      (roundBinary 53 (-1022) (roundBinary 24 (-126) (p * 180) / M_PI)) ∧
    roundBinary 24 (-126)
      (roundBinary 53 (-1022) (roundBinary 24 (-126) (p * 180) / M_PI)) ≤ 180 := by
  obtain ⟨-, hA0, -, hD0, -⟩ := angle_value h0 (le_trans h1 (by norm_num))
  have hp0 : 0 ≤ p * 180 := by positivity
  have hp1 : p * 180 ≤ 13176795 / 4194304 * 180 := by linarith
  have hA1 := roundBinary24_mono hp0 hp1
  have hAtop : roundBinary 24 (-126) (13176795 / 4194304 * 180) = 4632467 / 8192 := by
    have h := roundBinary24_eq (a := 13176795 / 4194304 * 180) (k := 9) (n := 9264934)
      (by norm_num) (by norm_num) (by norm_num) (by rw [abs_lt]; constructor <;> norm_num)
    rw [h]
    norm_num
  rw [hAtop] at hA1
  generalize roundBinary 24 (-126) (p * 180) = A at *
  have hpi := M_PI_pos
  have hx0 : 0 ≤ A / M_PI := div_nonneg hA0 hpi.le
  have hx1 : A / M_PI ≤ 4632467 / 8192 / M_PI := div_le_div_of_nonneg_right hA1 hpi.le
  have hxtop : (4632467 : ℚ) / 8192 / M_PI < 180 + 23 / 2 ^ 22 := by
    unfold M_PI
    norm_num
  have hD1 : roundBinary 53 (-1022) (A / M_PI) ≤ 180 + 3 / 2 ^ 19 := by
    rcases eq_or_lt_of_le hx0 with hz | hpos
    · rw [← hz, roundBinary_zero]
      norm_num
    · have hL : Int.log 2 (A / M_PI) < 8 :=
        (log_two_lt_iff hpos 8).mp (by norm_num; linarith)
      have hu : binaryUlp 53 (-1022) (A / M_PI) ≤ 1 / 2 ^ 45 := by
        unfold binaryUlp
        have : max (Int.log 2 (A / M_PI)) (-1022) - (((53 : ℕ) : Int) - 1) ≤ -45 := by
          have := max_le (a := Int.log 2 (A / M_PI)) (b := -1022) (c := 7) (by omega) (by omega)
          push_cast
          omega
        calc (2 : ℚ) ^ (max (Int.log 2 (A / M_PI)) (-1022) - (((53 : ℕ) : Int) - 1))
            ≤ 2 ^ (-45 : Int) := zpow_le_zpow_right₀ (by norm_num) this
          _ = 1 / 2 ^ 45 := by norm_num
      have hb := (abs_le.mp (abs_roundBinary_sub_le 53 (-1022) (A / M_PI))).2
      norm_num at hu hxtop hx1 hb ⊢
      linarith
  have htop : roundBinary 24 (-126) (180 + 3 / 2 ^ 19) = 180 := by
    have h := roundBinary24_eq (a := 180 + 3 / 2 ^ 19) (k := 7) (n := 11796480)
      (by norm_num) (by norm_num) (by norm_num) (by rw [abs_lt]; constructor <;> norm_num)
    rw [h]
    norm_num
  have hm := roundBinary24_mono hD0 hD1
  rw [htop] at hm
  exact ⟨roundBinary_nonneg 24 (-126) hD0, hm⟩

/-- A number rounded to `double` and then to `float` lands on the `float`
`n * 2^(k-23)` when it is well inside the interval of that `float`. -/
theorem roundBinary24_roundBinary53 {x : ℚ} {k n : Int} (hk : -126 ≤ k)
    (h1 : (2 : ℚ) ^ k + 2 ^ (k - 53) ≤ x) (h2 : x + 2 ^ (k - 53) < 2 ^ (k + 1))
    (hn : |x / 2 ^ (k - 23) - n| < 1 / 2 - 1 / 2 ^ 30) :
    roundBinary 24 (-126) (roundBinary 53 (-1022) x) = n * 2 ^ (k - 23) := by
  have hp53 : (0 : ℚ) < 2 ^ (k - 53) := by positivity
  have hu : (0 : ℚ) < 2 ^ (k - 23) := by positivity
  have hnear := abs_le.mp (roundBinary53_near (a := x) (k := k) (by linarith) (by linarith)
    (by omega))
  have e : (2 : ℚ) ^ (k - 53) = 2 ^ (k - 23) / 2 ^ 30 := by
    have e1 : k - 53 = (k - 23) + (-30) := by ring
    rw [e1, zpow_add₀ (by norm_num : (2 : ℚ) ≠ 0)]
    norm_num
    ring
  apply roundBinary24_eq (by linarith [hnear.1]) (by linarith [hnear.2]) hk
  have hd : |roundBinary 53 (-1022) x / 2 ^ (k - 23) - x / 2 ^ (k - 23)| ≤ 1 / 2 ^ 30 := by
    rw [← sub_div, abs_div, abs_of_pos hu, div_le_iff₀ hu]
    rw [abs_le]
    constructor
    · have := hnear.1
      rw [e] at this
      linarith
    · have := hnear.2
      rw [e] at this
      linarith
  have ht := abs_add (roundBinary 53 (-1022) x / 2 ^ (k - 23) - x / 2 ^ (k - 23))
    (x / 2 ^ (k - 23) - n)
  have e2 : roundBinary 53 (-1022) x / 2 ^ (k - 23) - x / 2 ^ (k - 23) +
      (x / 2 ^ (k - 23) - n) = roundBinary 53 (-1022) x / 2 ^ (k - 23) - n := by ring
  rw [e2] at ht
  linarith

/-- When `acosf` returns the `float` nearest to π/2, `angle` returns 90. -/
theorem angle_value_right :
    F64.toFloat (F64.div (F32.mul (.finite (13176795 / 8388608)) (F32.ofInt 180))
      (.finite M_PI)) = .finite 90 := by
  have hA : roundBinary 24 (-126) (13176795 / 8388608 * 180) = 4632467 / 16384 := by
    have h := roundBinary24_eq (a := 13176795 / 8388608 * 180) (k := 8) (n := 9264934)
      (by norm_num) (by norm_num) (by norm_num) (by rw [abs_lt]; constructor <;> norm_num)
    rw [h]
    norm_num
  have hv := (angle_value (p := 13176795 / 8388608) (by norm_num) (by norm_num)).1
  rw [hA] at hv
  have hr := roundBinary24_roundBinary53 (x := 4632467 / 16384 / M_PI) (k := 6)
    (n := 11796480) (by norm_num) (by unfold M_PI; norm_num) (by unfold M_PI; norm_num)
    (by unfold M_PI; rw [abs_lt]; constructor <;> norm_num)
  rw [hv, hr]
  norm_num

/-- When `acosf` returns the `float` nearest to π/4, `angle` returns 45. -/
theorem angle_value_half_right :
    F64.toFloat (F64.div (F32.mul (.finite (13176795 / 16777216)) (F32.ofInt 180))
      (.finite M_PI)) = .finite 45 := by
  have hA : roundBinary 24 (-126) (13176795 / 16777216 * 180) = 4632467 / 32768 := by
    have h := roundBinary24_eq (a := 13176795 / 16777216 * 180) (k := 7) (n := 9264934)
      (by norm_num) (by norm_num) (by norm_num) (by rw [abs_lt]; constructor <;> norm_num)
    rw [h]
    norm_num
  have hv := (angle_value (p := 13176795 / 16777216) (by norm_num) (by norm_num)).1
  rw [hA] at hv
  have hr := roundBinary24_roundBinary53 (x := 4632467 / 32768 / M_PI) (k := 5)
    (n := 11796480) (by norm_num) (by unfold M_PI; norm_num) (by unfold M_PI; norm_num)
    (by unfold M_PI; rw [abs_lt]; constructor <;> norm_num)
  rw [hv, hr]
  norm_num

theorem dot_float_eq {a1 a2 b1 b2 p1 p2 : ℚ} (h1 : F32.round (a1 * b1) = .finite p1)
    (h2 : F32.round (a2 * b2) = .finite p2) :
    Vector2f.dot ⟨.finite a1, .finite a2⟩ ⟨.finite b1, .finite b2⟩ = F32.round (p1 + p2) := by
  show F32.add (F32.round (a1 * b1)) (F32.round (a2 * b2)) = _
  rw [h1, h2]
  rfl

theorem normalized_neg_eight_six :
    Vector2f.normalized ⟨.finite (-8), .finite 6⟩ =
      .ok ⟨.finite (-(13421773 / 16777216)), .finite (5033165 / 8388608)⟩ := by
  have h64 : F32.round (-8 * -8) = .finite 64 := by
    have := round_small_int 64 (by decide) (by decide) (-8 * -8) (by norm_num)
    rw [this]
    norm_num
  have h36 : F32.round (6 * 6) = .finite 36 := by
    have := round_small_int 36 (by decide) (by decide) (6 * 6) (by norm_num)
    rw [this]
    norm_num
  have h100 : F32.round (64 + 36) = .finite (((10 : Int) : ℚ) * (10 : Int)) := by
    have := round_small_int 100 (by decide) (by decide) (64 + 36) (by norm_num)
    rw [this]
    norm_num
  have hmag : Vector2f.magnitude ⟨.finite (-8), .finite 6⟩ = .finite 10 := by
    rw [magnitude_float_eq h64 h36 h100, sqrt_of_sq (by decide) (by decide)]
    norm_num
  have hd8 : F32.div (.finite (-8)) (.finite 10) = .finite (-(13421773 / 16777216)) := by
    rw [div_eq_round (by norm_num)]
    have h := round_eq_of_pos (q := 4 / 5) (k := -1) (n := 13421773)
      (by norm_num) (by norm_num) (by norm_num) (by rw [abs_lt]; constructor <;> norm_num)
      (by norm_num)
    have e : (-8 : ℚ) / 10 = -(4 / 5) := by norm_num
    rw [e, round_neg, h]
    simp only [F32.neg]
    norm_num
  have hd6 : F32.div (.finite 6) (.finite 10) = .finite (5033165 / 8388608) := by
    rw [div_eq_round (by norm_num)]
    have h := round_eq_of_pos (q := 6 / 10) (k := -1) (n := 10066330)
      (by norm_num) (by norm_num) (by norm_num) (by rw [abs_lt]; constructor <;> norm_num)
      (by norm_num)
    rw [h]
    norm_num
  have hle8 : |-((13421773 : ℚ) / 16777216)| ≤ 1 := by
    rw [abs_le]
    constructor <;> norm_num
  have hle6 : |(5033165 : ℚ) / 8388608| ≤ 1 := by
    rw [abs_le]
    constructor <;> norm_num
  exact normalize_float_ok (v := ⟨.finite (-8), .finite 6⟩) hmag hd8 hd6 hle8 hle6

theorem normalized_three_zero :
    Vector2f.normalized ⟨.finite 3, .finite 0⟩ = .ok ⟨.finite 1, .finite 0⟩ := by
  have h9 : F32.round (3 * 3) = .finite 9 := by
    have := round_small_int 9 (by decide) (by decide) (3 * 3) (by norm_num)
    rw [this]
    norm_num
  have h0 : F32.round (0 * 0) = .finite 0 := by rw [mul_zero, round_zero]
  have hs : F32.round (9 + 0) = .finite (((3 : Int) : ℚ) * (3 : Int)) := by
    have := round_small_int 9 (by decide) (by decide) (9 + 0) (by norm_num)
    rw [this]
    norm_num
  have hmag : Vector2f.magnitude ⟨.finite 3, .finite 0⟩ = .finite 3 := by
    rw [magnitude_float_eq h9 h0 hs, sqrt_of_sq (by decide) (by decide)]
    norm_num
  have hd3 : F32.div (.finite 3) (.finite 3) = .finite 1 := by
    rw [div_eq_round (by norm_num)]
    have e : (3 : ℚ) / 3 = 1 := by norm_num
    rw [e, round_one]
  have hd0 : F32.div (.finite 0) (.finite 3) = .finite 0 := by
    rw [div_eq_round (by norm_num), zero_div, round_zero]
  exact normalize_float_ok (v := ⟨.finite 3, .finite 0⟩) hmag hd3 hd0 (by norm_num)
    (by norm_num)

theorem normalized_five_five :
    Vector2f.normalized ⟨.finite 5, .finite 5⟩ =
      .ok ⟨.finite (11863283 / 16777216), .finite (11863283 / 16777216)⟩ := by
  have h25 : F32.round (5 * 5) = .finite 25 := by
    have := round_small_int 25 (by decide) (by decide) (5 * 5) (by norm_num)
    rw [this]
    norm_num
  have h50 : F32.round (25 + 25) = .finite 50 := by
    have := round_small_int 50 (by decide) (by decide) (25 + 25) (by norm_num)
    rw [this]
    norm_num
  have hs : sqrtDouble 50 = 124395540479019 / 17592186044416 := by
    have h := sqrtDouble_eq (a := 50) (k := 2) (m := 7961314590657216)
      (by norm_num) (by norm_num) (by norm_num) (by norm_num) (by norm_num)
    rw [h]
    norm_num
  have hr : F32.round (124395540479019 / 17592186044416) = .finite (926819 / 131072) := by
    have h := round_eq_of_pos (q := 124395540479019 / 17592186044416) (k := 2)
      (n := 14829104) (by norm_num) (by norm_num) (by norm_num)
      (by rw [abs_lt]; constructor <;> norm_num) (by norm_num)
    rw [h]
    norm_num
  have hmag : Vector2f.magnitude ⟨.finite 5, .finite 5⟩ = .finite (926819 / 131072) := by
    rw [magnitude_float_eq h25 h25 h50, sqrt_finite_pos (by norm_num), hs, hr]
  have hd : F32.div (.finite 5) (.finite (926819 / 131072)) =
      .finite (11863283 / 16777216) := by
    rw [div_eq_round (by norm_num)]
    have h := round_eq_of_pos (q := 5 / (926819 / 131072)) (k := -1) (n := 11863283)
      (by norm_num) (by norm_num) (by norm_num) (by rw [abs_lt]; constructor <;> norm_num)
      (by norm_num)
    rw [h]
    norm_num
  have hle : |(11863283 : ℚ) / 16777216| ≤ 1 := by
    rw [abs_le]
    constructor <;> norm_num
  exact normalize_float_ok (v := ⟨.finite 5, .finite 5⟩) hmag hd hd hle hle

theorem normalized_three_three :
    Vector2f.normalized ⟨.finite 3, .finite 3⟩ =
      .ok ⟨.finite (2965821 / 4194304), .finite (2965821 / 4194304)⟩ := by
  have h9 : F32.round (3 * 3) = .finite 9 := by
    have := round_small_int 9 (by decide) (by decide) (3 * 3) (by norm_num)
    rw [this]
    norm_num
  have h18 : F32.round (9 + 9) = .finite 18 := by
    have := round_small_int 18 (by decide) (by decide) (9 + 9) (by norm_num)
    rw [this]
    norm_num
  have hs : sqrtDouble 18 = 4776788754394329 / 1125899906842624 := by
    have h := sqrtDouble_eq (a := 18) (k := 2) (m := 4776788754394329)
      (by norm_num) (by norm_num) (by norm_num) (by norm_num) (by norm_num)
    rw [h]
    norm_num
  have hr : F32.round (4776788754394329 / 1125899906842624) = .finite (4448731 / 1048576) := by
    have h := round_eq_of_pos (q := 4776788754394329 / 1125899906842624) (k := 2)
      (n := 8897462) (by norm_num) (by norm_num) (by norm_num)
      (by rw [abs_lt]; constructor <;> norm_num) (by norm_num)
    rw [h]
    norm_num
  have hmag : Vector2f.magnitude ⟨.finite 3, .finite 3⟩ = .finite (4448731 / 1048576) := by
    rw [magnitude_float_eq h9 h9 h18, sqrt_finite_pos (by norm_num), hs, hr]
  have hd : F32.div (.finite 3) (.finite (4448731 / 1048576)) =
      .finite (2965821 / 4194304) := by
    rw [div_eq_round (by norm_num)]
    have h := round_eq_of_pos (q := 3 / (4448731 / 1048576)) (k := -1) (n := 11863284)
      (by norm_num) (by norm_num) (by norm_num) (by rw [abs_lt]; constructor <;> norm_num)
      (by norm_num)
    rw [h]
    norm_num
  have hle : |(2965821 : ℚ) / 4194304| ≤ 1 := by
    rw [abs_le]
    constructor <;> norm_num
  exact normalize_float_ok (v := ⟨.finite 3, .finite 3⟩) hmag hd hd hle hle

theorem dot_unit_diagonal_above_one :
    Vector2f.dot ⟨.finite (2965821 / 4194304), .finite (2965821 / 4194304)⟩
      ⟨.finite (2965821 / 4194304), .finite (2965821 / 4194304)⟩ =
      .finite (8388609 / 8388608) := by
  have hp : F32.round (2965821 / 4194304 * (2965821 / 4194304)) =
      .finite (8388609 / 16777216) := by
    have h := round_eq_of_pos (q := 2965821 / 4194304 * (2965821 / 4194304)) (k := -1)
      (n := 8388609) (by norm_num) (by norm_num) (by norm_num)
      (by rw [abs_lt]; constructor <;> norm_num) (by norm_num)
    rw [h]
    norm_num
  have hs : F32.round (8388609 / 16777216 + 8388609 / 16777216) =
      .finite (8388609 / 8388608) := by
    have h := round_eq_of_pos (q := 8388609 / 16777216 + 8388609 / 16777216) (k := 0)
      (n := 8388609) (by norm_num) (by norm_num) (by norm_num)
      (by rw [abs_lt]; constructor <;> norm_num) (by norm_num)
    rw [h]
    norm_num
  rw [dot_float_eq hp hp, hs]

theorem dot_perpendicular :
    Vector2f.dot ⟨.finite (5033165 / 8388608), .finite (13421773 / 16777216)⟩
      ⟨.finite (-(13421773 / 16777216)), .finite (5033165 / 8388608)⟩ = .finite 0 := by
  obtain ⟨P, hP, -, -, -⟩ := round_finite
    (q := 13421773 / 16777216 * (5033165 / 8388608))
    (by rw [abs_of_pos (by norm_num)]; norm_num)
  have h1 : F32.round (5033165 / 8388608 * -(13421773 / 16777216)) = .finite (-P) := by
    have e : (5033165 : ℚ) / 8388608 * -(13421773 / 16777216) =
        -(13421773 / 16777216 * (5033165 / 8388608)) := by ring
    rw [e, round_neg, hP]
    rfl
  rw [dot_float_eq h1 hP, neg_add_cancel, round_zero]

theorem dot_right_diagonal :
    Vector2f.dot ⟨.finite 1, .finite 0⟩
      ⟨.finite (11863283 / 16777216), .finite (11863283 / 16777216)⟩ =
      .finite (11863283 / 16777216) := by
  have hc : F32.round (11863283 / 16777216) = .finite (11863283 / 16777216) := by
    have h := round_eq_of_pos (q := 11863283 / 16777216) (k := -1) (n := 11863283)
      (by norm_num) (by norm_num) (by norm_num) (by rw [abs_lt]; constructor <;> norm_num)
      (by norm_num)
    rw [h]
    norm_num
  have h1 : F32.round (1 * (11863283 / 16777216)) = .finite (11863283 / 16777216) := by
    rw [one_mul, hc]
  have h2 : F32.round (0 * (11863283 / 16777216)) = .finite 0 := by
    rw [zero_mul, round_zero]
  rw [dot_float_eq h1 h2, add_zero, hc]

theorem angle_eq {lib : ℚ → ℚ} {u v a b : Vector2f} (ha : u.normalized = .ok a)
    (hb : v.normalized = .ok b) :
    Vector2f.angle lib u v = .ok (F64.toFloat (F64.div
      (F32.mul (acosf lib (Vector2f.dot a b)) (F32.ofInt 180)) (.finite M_PI))) := by
  unfold Vector2f.angle
  rw [ha, hb]
  rfl

/-- The dot product of two `float` vectors with components of absolute value at
most 1 is finite. -/
theorem dot_finite_of_abs_le_one {a1 a2 b1 b2 : ℚ} (ha1 : |a1| ≤ 1) (ha2 : |a2| ≤ 1)
    (hb1 : |b1| ≤ 1) (hb2 : |b2| ≤ 1) :
    ∃ d : ℚ, Vector2f.dot ⟨.finite a1, .finite a2⟩ ⟨.finite b1, .finite b2⟩ = .finite d := by
  have prod : ∀ s t : ℚ, |s| ≤ 1 → |t| ≤ 1 →
      ∃ p : ℚ, F32.round (s * t) = .finite p ∧ |p| ≤ 1 := by
    intro s t hs ht
    have h1 : |s * t| ≤ 1 := by
      rw [abs_mul]
      calc |s| * |t| ≤ 1 * 1 := mul_le_mul hs ht (abs_nonneg t) (by norm_num)
        _ = 1 := by norm_num
    obtain ⟨p, hp, hpabs, -, -⟩ := round_finite (q := s * t) (le_trans h1 (by norm_num))
    exact ⟨p, hp, by rw [hpabs]; exact roundBinary24_le_one (abs_nonneg _) h1⟩
  obtain ⟨p1, hp1, hp1a⟩ := prod a1 b1 ha1 hb1
  obtain ⟨p2, hp2, hp2a⟩ := prod a2 b2 ha2 hb2
  have hs : |p1 + p2| ≤ 2 ^ 127 := by
    have := abs_add p1 p2
    have h2 : (2 : ℚ) ≤ 2 ^ 127 := by norm_num
    linarith
  obtain ⟨d, hd, -, -, -⟩ := round_finite hs
  exact ⟨d, by rw [dot_float_eq hp1 hp2, hd]⟩

/-- C1: on a `Vector2<int>`, `operator[]` returns `x` at index 0, `y` at index 1,
and throws `std::out_of_range` exactly when the index is neither 0 nor 1; the
index obtained by converting -1 to `std::size_t` is such an index. -/
theorem opIndex_spec (v : Vector2i) :
    v.opIndex 0 = .ok v.x ∧ v.opIndex 1 = .ok v.y ∧
    (∀ i : Nat, v.opIndex i = .error .outOfRange ↔ (i ≠ 0 ∧ i ≠ 1)) ∧
    v.opIndex (toSizeT (-1)) = .error .outOfRange := by
  have key : ∀ i : Nat, v.opIndex i = .error .outOfRange ↔ (i ≠ 0 ∧ i ≠ 1) := by
    intro i
    unfold Vector2i.opIndex
    by_cases h0 : i = 0
    · simp [h0]
    · by_cases h1 : i = 1
      · simp [h1]
      · simp [h0, h1]
  have hsz : toSizeT (-1) = 18446744073709551615 := by decide
  refine ⟨rfl, rfl, key, (key _).mpr ?_⟩
  rw [hsz]
  exact ⟨by decide, by decide⟩

/-- C2: the code returns `true` for `(1, 2) == (1, 3)`, two vectors whose `y`
differ; in general `a == b` is `true` exactly when the `x` components agree,
whatever the `y` components are. -/
theorem opEq_ignores_y :
    Vector2i.opEq ⟨1, 2⟩ ⟨1, 3⟩ = true ∧
    ∀ a b : Vector2i, (a.opEq b = true ↔ a.x = b.x) := by
  refine ⟨by decide, ?_⟩
  intro a b
  unfold Vector2i.opEq
  constructor
  · intro h
    simp only [Bool.and_eq_true, beq_iff_eq] at h
    exact h.1.symm
  · intro h
    simp [h]

/-- C3, as stated, fails: `Vector2<int>(1, 2) == Vector2<float>(1.5, 2)` is `true`
while `Vector2<float>(1.5, 2) == Vector2<int>(1, 2)` is `false`, and
`Vector2<int>(16777217, 0) == Vector2<float>(16777216, 0)` is `false` while the
comparison the other way round is `true`. -/
theorem opEq_int_float_asymmetric :
    (Vector2i.opEqF ⟨1, 2⟩ ⟨.finite (3 / 2), .finite 2⟩ = .ok true ∧
      Vector2f.opEqI ⟨.finite (3 / 2), .finite 2⟩ ⟨1, 2⟩ = false) ∧
    (Vector2i.opEqF ⟨16777217, 0⟩ ⟨.finite 16777216, .finite 0⟩ = .ok false ∧
      Vector2f.opEqI ⟨.finite 16777216, .finite 0⟩ ⟨16777217, 0⟩ = true) := by
  have h1 : F32.toInt (.finite (3 / 2)) = .ok 1 := by
    norm_num [F32.toInt, F32.truncQ, inIntRange, INT_MIN, INT_MAX]
    decide
  have h2 : F32.toInt (.finite 2) = .ok 2 := by
    simpa using toInt_finite_intCast (show inIntRange 2 by decide)
  have h3 : F32.toInt (.finite 16777216) = .ok 16777216 := by
    simpa using toInt_finite_intCast (show inIntRange 16777216 by decide)
  have r1 : roundInt24 1 = 1 := by decide
  have r2 : roundInt24 2 = 2 := by decide
  have r3 : roundInt24 16777217 = 16777216 := by decide
  have r0 : roundInt24 0 = 0 := by decide
  refine ⟨⟨?_, ?_⟩, ?_, ?_⟩
  · simp [Vector2i.opEqF, h1, h2, F32.ofInt, r2, F32.eq, bind, Except.bind, pure, Except.pure]
  · norm_num [Vector2f.opEqI, F32.ofInt, r1, r2, F32.eq]
  · simp [Vector2i.opEqF, h3, bind, Except.bind, pure, Except.pure]
  · simp [Vector2f.opEqI, F32.ofInt, r3, r0, F32.eq]

/-- C3, amended: let the `Vector2<int>` `a` have components that convert to
`float` without rounding, and let the `Vector2<float>` `b` have an integer
within the range of `int` as `x` and `b.y = a.y`. Then `a == b` and `b == a`
return the same boolean, and it is `true` exactly when `a.x = b.x`. -/
theorem opEq_int_float_exact (a : Vector2i) (bx : Int)
    (hax : F32.ofInt a.x = .finite (a.x : ℚ))
    (hay : F32.ofInt a.y = .finite (a.y : ℚ))
    (hbx : inIntRange bx) (hby : inIntRange a.y) :
    a.opEqF ⟨.finite bx, .finite a.y⟩ = .ok (decide (a.x = bx)) ∧
    Vector2f.opEqI ⟨.finite bx, .finite a.y⟩ a = decide (a.x = bx) := by
  constructor
  · by_cases h : a.x = bx
    · have hb : (bx == a.x) = true := by simp [h]
      simp [Vector2i.opEqF, toInt_finite_intCast hbx, toInt_finite_intCast hby, hay,
        eq_finite_self, hb, h, bind, Except.bind, pure, Except.pure]
    · have hb : (bx == a.x) = false := by
        simp only [beq_eq_false_iff_ne, ne_eq]
        exact fun e => h e.symm
      simp [Vector2i.opEqF, toInt_finite_intCast hbx, hb, h, bind, Except.bind, pure,
        Except.pure]
  · unfold Vector2f.opEqI
    rw [eq_ofInt_self, hax]
    simp [F32.eq, beq_intCast]

/-- Instance of `opEq_int_float_exact` at `a = (30, 25)` and `b = (30.0, 25.0)`,
the vectors of the test `EqualityOperator.VectorsDifferentType`: both
comparisons return `true`. -/
theorem opEq_int_float_exact_witness :
    (F32.ofInt 30 = .finite ((30 : Int) : ℚ) ∧ F32.ofInt 25 = .finite ((25 : Int) : ℚ) ∧
      inIntRange 30 ∧ inIntRange 25) ∧
    Vector2i.opEqF ⟨30, 25⟩ ⟨.finite ((30 : Int) : ℚ), .finite ((25 : Int) : ℚ)⟩ = .ok true ∧
    Vector2f.opEqI ⟨.finite ((30 : Int) : ℚ), .finite ((25 : Int) : ℚ)⟩ ⟨30, 25⟩ = true := by
  have h30 : F32.ofInt 30 = .finite ((30 : Int) : ℚ) := by
    have h : roundInt24 30 = 30 := by decide
    simp [F32.ofInt, h]
  have h25 : F32.ofInt 25 = .finite ((25 : Int) : ℚ) := by
    have h : roundInt24 25 = 25 := by decide
    simp [F32.ofInt, h]
  have hr30 : inIntRange 30 := by decide
  have hr25 : inIntRange 25 := by decide
  exact ⟨⟨h30, h25, hr30, hr25⟩, opEq_int_float_exact ⟨30, 25⟩ 30 h30 h25 hr30 hr25⟩

/-- C4, as stated, fails: both components of `w = (-1, 1)` are non-zero, and for
`v = (INT_MIN, 0)` neither `v / w` returns a vector nor `v /= w` leaves one in
`v`, because the `int` division `INT_MIN / -1`, whose quotient `2^31` is no
value of `int`, has no result. -/
theorem opDivAssign_int_min_by_minus_one :
    ((-1 : Int) ≠ 0 ∧ (1 : Int) ≠ 0) ∧
    Vector2i.opDiv ⟨INT_MIN, 0⟩ ⟨-1, 1⟩ = .error .undefinedBehaviour ∧
    Vector2i.opDivAssign ⟨INT_MIN, 0⟩ ⟨-1, 1⟩ = .error .undefinedBehaviour ∧
    ¬ ∃ r : Vector2i, Vector2i.opDiv ⟨INT_MIN, 0⟩ ⟨-1, 1⟩ = .ok r ∧
      Vector2i.opDivAssign ⟨INT_MIN, 0⟩ ⟨-1, 1⟩ = .ok r := by
  have h : Vector2i.opDiv ⟨INT_MIN, 0⟩ ⟨-1, 1⟩ = .error .undefinedBehaviour := by decide
  refine ⟨⟨by decide, by decide⟩, h, by decide, ?_⟩
  rintro ⟨r, hr, -⟩
  rw [h] at hr
  exact Except.noConfusion hr

/-- C4, amended: for `Vector2<int>` operands each in-place vector operator
leaves in `v` the vector the non-mutating operator returns: `+=` with `+`, `-=`
with `-`, `*=` with `*`, and, when both components of `w` are non-zero and
neither component division is `INT_MIN / -1`, `/=` with `/`, both giving the
quotients rounded toward zero (the components of `v` being values of `int`).
For every `w` the two divisions have the same outcome. -/
theorem opAssign_eq_op (v w : Vector2i) :
    v.opAddAssign w = v.opAdd w ∧
    v.opSubAssign w = v.opSub w ∧
    v.opMulAssign w = v.opMul w ∧
    v.opDivAssign w = v.opDiv w ∧
    (w.x ≠ 0 → w.y ≠ 0 → inIntRange v.x → inIntRange v.y →
      ¬(v.x = INT_MIN ∧ w.x = -1) → ¬(v.y = INT_MIN ∧ w.y = -1) →
      v.opDivAssign w = .ok ⟨Int.tdiv v.x w.x, Int.tdiv v.y w.y⟩ ∧
      v.opDiv w = .ok ⟨Int.tdiv v.x w.x, Int.tdiv v.y w.y⟩) := by
  have heq : v.opDivAssign w = v.opDiv w := by
    unfold Vector2i.opDivAssign Vector2i.opDiv
    cases divInt v.x w.x <;> rfl
  refine ⟨rfl, rfl, rfl, heq, ?_⟩
  intro hx hy hvx hvy hnx hny
  have hd : v.opDiv w = .ok ⟨Int.tdiv v.x w.x, Int.tdiv v.y w.y⟩ := by
    unfold Vector2i.opDiv
    rw [divInt_eq_ok hx (tdiv_inIntRange hvx hx hnx),
      divInt_eq_ok hy (tdiv_inIntRange hvy hy hny)]
    rfl
  exact ⟨heq.trans hd, hd⟩

/-- Instance of `opAssign_eq_op` at `v = (2, 4)` and `w = (1, 2)`, the vectors of
the test `CompoundAssignmentOperatorDivideWithVector.VectorsSameType`. -/
theorem opAssign_eq_op_witness :
    Vector2i.opDivAssign ⟨2, 4⟩ ⟨1, 2⟩ = .ok ⟨2, 2⟩ ∧
    Vector2i.opDiv ⟨2, 4⟩ ⟨1, 2⟩ = .ok ⟨2, 2⟩ :=
  (opAssign_eq_op ⟨2, 4⟩ ⟨1, 2⟩).2.2.2.2 (by decide) (by decide) (by decide) (by decide)
    (by decide) (by decide)

/-- C5, as stated, fails: the scalar -1 is non-zero, and for `v = (INT_MIN, 0)`
neither `v / -1` returns a vector nor `v /= -1` leaves one in `v`, because the
`int` division `INT_MIN / -1`, whose quotient `2^31` is no value of `int`, has
no result. -/
theorem opDivAssignScalar_int_min_by_minus_one :
    (Scalar.integer (-1)).toInt = .ok (-1) ∧
    Vector2i.opDivScalar ⟨INT_MIN, 0⟩ (.integer (-1)) = .error .undefinedBehaviour ∧
    Vector2i.opDivAssignScalar ⟨INT_MIN, 0⟩ (.integer (-1)) = .error .undefinedBehaviour ∧
    ¬ ∃ r : Vector2i, Vector2i.opDivScalar ⟨INT_MIN, 0⟩ (.integer (-1)) = .ok r ∧
      Vector2i.opDivAssignScalar ⟨INT_MIN, 0⟩ (.integer (-1)) = .ok r := by
  have h : Vector2i.opDivScalar ⟨INT_MIN, 0⟩ (.integer (-1)) = .error .undefinedBehaviour := by
    decide
  refine ⟨by decide, h, by decide, ?_⟩
  rintro ⟨r, hr, -⟩
  rw [h] at hr
  exact Except.noConfusion hr

/-- C5, amended: for a `Vector2<int>` `v` and a scalar `s` (an integer or a
`float`), each in-place scalar operator leaves in `v` the vector the
non-mutating scalar operator returns: `+=` with `+`, `-=` with `-`, `*=` with
`*`, and, when the converted scalar `t` is non-zero and neither component
division is `INT_MIN / -1`, `/=` with `/`, both giving the quotients rounded
toward zero (the components of `v` being values of `int`). When `s` converts to
`t` the first three succeed, with the components combined with `t`, and for
non-zero `t` the two divisions have the same outcome. -/
theorem opAssignScalar_eq_opScalar (v : Vector2i) (s : Scalar) :
    v.opAddAssignScalar s = v.opAddScalar s ∧
    v.opSubAssignScalar s = v.opSubScalar s ∧
    v.opMulAssignScalar s = v.opMulScalar s ∧
    (∀ t : Int, s.toInt = .ok t →
      v.opAddScalar s = .ok ⟨addInt v.x t, addInt v.y t⟩ ∧
      v.opSubScalar s = .ok ⟨subInt v.x t, subInt v.y t⟩ ∧
      v.opMulScalar s = .ok ⟨mulInt v.x t, mulInt v.y t⟩ ∧
      (t ≠ 0 →
        v.opDivAssignScalar s = v.opDivScalar s ∧
        (inIntRange v.x → inIntRange v.y →
          ¬(v.x = INT_MIN ∧ t = -1) → ¬(v.y = INT_MIN ∧ t = -1) →
          v.opDivAssignScalar s = .ok ⟨Int.tdiv v.x t, Int.tdiv v.y t⟩ ∧
          v.opDivScalar s = .ok ⟨Int.tdiv v.x t, Int.tdiv v.y t⟩))) := by
  refine ⟨?_, ?_, ?_, ?_⟩
  · cases h : s.toInt <;>
      simp [Vector2i.opAddAssignScalar, Vector2i.opAddScalar, h, bind, Except.bind, pure,
        Except.pure]
  · cases h : s.toInt <;>
      simp [Vector2i.opSubAssignScalar, Vector2i.opSubScalar, h, bind, Except.bind, pure,
        Except.pure]
  · cases h : s.toInt <;>
      simp [Vector2i.opMulAssignScalar, Vector2i.opMulScalar, h, bind, Except.bind, pure,
        Except.pure]
  · intro t h
    refine ⟨opAddScalar_ok v h, opSubScalar_ok v h, opMulScalar_ok v h, ?_⟩
    intro ht
    have hz : s.isZero = false := scalar_isZero_eq_false h ht
    have heq : v.opDivAssignScalar s = v.opDivScalar s := by
      unfold Vector2i.opDivAssignScalar Vector2i.opDivScalar
      rw [hz, h]
      show (divInt v.x t).bind _ = (divInt v.x t).bind _
      cases divInt v.x t <;> rfl
    refine ⟨heq, ?_⟩
    intro hvx hvy hnx hny
    have hd := opDivScalar_ok v h ht (tdiv_inIntRange hvx ht hnx) (tdiv_inIntRange hvy ht hny)
    exact ⟨heq.trans hd, hd⟩

/-- Instance of `opAssignScalar_eq_opScalar` at `v = (6, 4)` and `s = 3.0f`, the
operands of the test `CompoundAssignmentOperatorDivideWithValue.ValueDifferentType`:
both divisions give `(2, 1)`. -/
theorem opAssignScalar_eq_opScalar_witness :
    (Scalar.float (.finite ((3 : Int) : ℚ))).toInt = .ok 3 ∧
    Vector2i.opAddScalar ⟨6, 4⟩ (.float (.finite ((3 : Int) : ℚ))) = .ok ⟨9, 7⟩ ∧
    Vector2i.opDivAssignScalar ⟨6, 4⟩ (.float (.finite ((3 : Int) : ℚ))) = .ok ⟨2, 1⟩ ∧
    Vector2i.opDivScalar ⟨6, 4⟩ (.float (.finite ((3 : Int) : ℚ))) = .ok ⟨2, 1⟩ :=
  have h3 : (Scalar.float (.finite ((3 : Int) : ℚ))).toInt = .ok 3 :=
    toInt_finite_intCast (show inIntRange 3 by decide)
  ⟨h3, ((opAssignScalar_eq_opScalar ⟨6, 4⟩ _).2.2.2 3 h3).1,
    (((opAssignScalar_eq_opScalar ⟨6, 4⟩ _).2.2.2 3 h3).2.2.2 (by decide)).2
      (by decide) (by decide) (by decide) (by decide)⟩

/-- C6, as stated, fails: both components of `b = (-1, 1)` are non-zero, and
`(INT_MIN, 5) / b` returns no vector, because the `int` division
`INT_MIN / -1`, whose quotient `2^31` is no value of `int`, has no result. -/
theorem opDiv_int_min_by_minus_one :
    ((-1 : Int) ≠ 0 ∧ (1 : Int) ≠ 0) ∧
    Vector2i.opDiv ⟨INT_MIN, 5⟩ ⟨-1, 1⟩ = .error .undefinedBehaviour ∧
    ¬ ∃ r : Vector2i, Vector2i.opDiv ⟨INT_MIN, 5⟩ ⟨-1, 1⟩ = .ok r := by
  have h : Vector2i.opDiv ⟨INT_MIN, 5⟩ ⟨-1, 1⟩ = .error .undefinedBehaviour := by decide
  refine ⟨⟨by decide, by decide⟩, h, ?_⟩
  rintro ⟨r, hr⟩
  rw [h] at hr
  exact Except.noConfusion hr

/-- C6, amended: on `Vector2<int>` operands the binary vector operators act
component by component with the `int` operators: `a + b`, `a - b` and `a * b`
are the vectors of the `int` sums, differences and products (the exact ones
whenever these are values of `int`), and, when both components of `b` are
non-zero and neither component division is `INT_MIN / -1`, `a / b` is the vector
of the quotients rounded toward zero (the components of `a` being values of
`int`). -/
theorem opVector_componentwise (a b : Vector2i) :
    a.opAdd b = ⟨addInt a.x b.x, addInt a.y b.y⟩ ∧
    a.opSub b = ⟨subInt a.x b.x, subInt a.y b.y⟩ ∧
    a.opMul b = ⟨mulInt a.x b.x, mulInt a.y b.y⟩ ∧
    (b.x ≠ 0 → b.y ≠ 0 → inIntRange a.x → inIntRange a.y →
      ¬(a.x = INT_MIN ∧ b.x = -1) → ¬(a.y = INT_MIN ∧ b.y = -1) →
      a.opDiv b = .ok ⟨Int.tdiv a.x b.x, Int.tdiv a.y b.y⟩) ∧
    (inIntRange (a.x + b.x) → inIntRange (a.y + b.y) →
      a.opAdd b = ⟨a.x + b.x, a.y + b.y⟩) ∧
    (inIntRange (a.x - b.x) → inIntRange (a.y - b.y) →
      a.opSub b = ⟨a.x - b.x, a.y - b.y⟩) ∧
    (inIntRange (a.x * b.x) → inIntRange (a.y * b.y) →
      a.opMul b = ⟨a.x * b.x, a.y * b.y⟩) := by
  refine ⟨rfl, rfl, rfl, ?_, ?_, ?_, ?_⟩
  · intro hx hy hax hay hnx hny
    unfold Vector2i.opDiv
    rw [divInt_eq_ok hx (tdiv_inIntRange hax hx hnx),
      divInt_eq_ok hy (tdiv_inIntRange hay hy hny)]
    rfl
  · intro hx hy
    simp [Vector2i.opAdd, addInt, wrapInt_of_inIntRange hx, wrapInt_of_inIntRange hy]
  · intro hx hy
    simp [Vector2i.opSub, subInt, wrapInt_of_inIntRange hx, wrapInt_of_inIntRange hy]
  · intro hx hy
    simp [Vector2i.opMul, mulInt, wrapInt_of_inIntRange hx, wrapInt_of_inIntRange hy]

/-- Instance of `opVector_componentwise` at `a = (-7, 16)` and `b = (2, -3)`:
the quotients are -3 and -5, rounded toward zero. -/
theorem opVector_componentwise_witness :
    Vector2i.opDiv ⟨-7, 16⟩ ⟨2, -3⟩ = .ok ⟨-3, -5⟩ :=
  (opVector_componentwise ⟨-7, 16⟩ ⟨2, -3⟩).2.2.2.1
    (by decide) (by decide) (by decide) (by decide) (by decide) (by decide)

/-- C7, as stated, fails: the `float` scalar -1 is converted to the non-zero
`int` -1, and `(INT_MIN, 5) / -1.0f` returns no vector, because the `int`
division `INT_MIN / -1`, whose quotient `2^31` is no value of `int`, has no
result. -/
theorem opDivScalar_int_min_by_minus_one :
    (Scalar.float (.finite (-1))).toInt = .ok (-1) ∧
    Vector2i.opDivScalar ⟨INT_MIN, 5⟩ (.float (.finite (-1))) = .error .undefinedBehaviour ∧
    ¬ ∃ r : Vector2i, Vector2i.opDivScalar ⟨INT_MIN, 5⟩ (.float (.finite (-1))) = .ok r := by
  have hc : (Scalar.float (.finite (-1))).toInt = .ok (-1) := by
    have h := toInt_finite_intCast (show inIntRange (-1) by decide)
    simpa using h
  have hz : (Scalar.float (.finite (-1))).isZero = false :=
    scalar_isZero_eq_false hc (by decide)
  have h : Vector2i.opDivScalar ⟨INT_MIN, 5⟩ (.float (.finite (-1))) =
      .error .undefinedBehaviour := by
    unfold Vector2i.opDivScalar
    rw [hz, hc]
    simp [bind, Except.bind, divInt_int_min_neg_one]
  refine ⟨hc, h, ?_⟩
  rintro ⟨r, hr⟩
  rw [h] at hr
  exact Except.noConfusion hr

/-- C7, amended: for a `Vector2<int>` `v` and a `float` scalar with value `q`
whose rounding toward zero `t` is a value of `int`, the non-mutating scalar
operators work on `t` with the `int` operators: `v + s = (v.x + t, v.y + t)`,
`v - s = (v.x - t, v.y - t)`, `v * s = (v.x * t, v.y * t)`, and, for non-zero `t`
when neither component division is `INT_MIN / -1`, `v / s = (v.x / t, v.y / t)`
with the quotients rounded toward zero (the components of `v` being values of
`int`). -/
theorem opScalar_float (v : Vector2i) (q : ℚ) (h : inIntRange (roundTowardZero q)) :
    v.opAddScalar (.float (.finite q)) =
      .ok ⟨addInt v.x (roundTowardZero q), addInt v.y (roundTowardZero q)⟩ ∧
    v.opSubScalar (.float (.finite q)) =
      .ok ⟨subInt v.x (roundTowardZero q), subInt v.y (roundTowardZero q)⟩ ∧
    v.opMulScalar (.float (.finite q)) =
      .ok ⟨mulInt v.x (roundTowardZero q), mulInt v.y (roundTowardZero q)⟩ ∧
    (roundTowardZero q ≠ 0 → inIntRange v.x → inIntRange v.y →
      ¬(v.x = INT_MIN ∧ roundTowardZero q = -1) →
      ¬(v.y = INT_MIN ∧ roundTowardZero q = -1) →
      v.opDivScalar (.float (.finite q)) =
        .ok ⟨Int.tdiv v.x (roundTowardZero q), Int.tdiv v.y (roundTowardZero q)⟩) := by
  have hc : (Scalar.float (.finite q)).toInt = .ok (roundTowardZero q) :=
    toInt_finite_of_inIntRange h
  exact ⟨opAddScalar_ok v hc, opSubScalar_ok v hc, opMulScalar_ok v hc,
    fun ht hvx hvy hnx hny =>
      opDivScalar_ok v hc ht (tdiv_inIntRange hvx ht hnx) (tdiv_inIntRange hvy ht hny)⟩

/-- Instance of `opScalar_float` at `v = (100, 25)` and the scalar `2.5f`, which
is converted to 2: the sum is `(102, 27)` and the quotient `(50, 12)`. -/
theorem opScalar_float_witness :
    inIntRange (roundTowardZero (5 / 2)) ∧
    Vector2i.opAddScalar ⟨100, 25⟩ (.float (.finite (5 / 2))) = .ok ⟨102, 27⟩ ∧
    Vector2i.opDivScalar ⟨100, 25⟩ (.float (.finite (5 / 2))) = .ok ⟨50, 12⟩ := by
  have e : roundTowardZero (5 / 2) = 2 := by
    rw [← truncQ_eq_roundTowardZero]
    norm_num [F32.truncQ]
    decide
  have hr : inIntRange (roundTowardZero (5 / 2)) := by
    rw [e]
    decide
  have hadd := (opScalar_float ⟨100, 25⟩ (5 / 2) hr).1
  have hdiv := (opScalar_float ⟨100, 25⟩ (5 / 2) hr).2.2.2 (by rw [e]; decide) (by decide)
    (by decide) (by rw [e]; decide) (by rw [e]; decide)
  rw [e] at hadd hdiv
  exact ⟨hr, hadd, hdiv⟩

/-- C8: the code does not report a division by zero. `v /= 0`, `v /= w` and
`v / w` with a zero component in `w` run the `int` division on the zero
divisor, which has no defined result, for instance at `v = (6, 4)`; only the
non-mutating scalar division `v / 0` stops on its assertion. -/
theorem division_by_zero_unchecked :
    Vector2i.opDivAssignScalar ⟨6, 4⟩ (.integer 0) = .error .undefinedBehaviour ∧
    Vector2i.opDivAssign ⟨6, 4⟩ ⟨3, 0⟩ = .error .undefinedBehaviour ∧
    Vector2i.opDiv ⟨6, 4⟩ ⟨3, 0⟩ = .error .undefinedBehaviour ∧
    (∀ v : Vector2i, v.opDivAssignScalar (.integer 0) = .error .undefinedBehaviour) ∧
    (∀ v w : Vector2i, (w.x = 0 ∨ w.y = 0) →
      v.opDivAssign w = .error .undefinedBehaviour ∧
      v.opDiv w = .error .undefinedBehaviour) ∧
    (∀ v : Vector2i, v.opDivScalar (.integer 0) = .error .assertion) := by
  refine ⟨by decide, by decide, by decide, ?_, ?_, ?_⟩
  · intro v
    simp [Vector2i.opDivAssignScalar, Scalar.toInt, wrapInt, divInt, bind, Except.bind]
  · intro v w hw
    by_cases hx : w.x = 0
    · simp [Vector2i.opDivAssign, Vector2i.opDiv, divInt, hx, bind, Except.bind]
    · have hy : w.y = 0 := hw.resolve_left hx
      by_cases hq : inIntRange (Int.tdiv v.x w.x) <;>
        simp [Vector2i.opDivAssign, Vector2i.opDiv, divInt, hx, hy, hq, bind, Except.bind]
  · intro v
    simp [Vector2i.opDivScalar, Scalar.isZero]

/-- C9: for a `Vector2<float>` whose components `qx` and `qy` lie within the
range of `int`, the converting constructor yields the two components rounded
toward zero; a source with integral components is copied exactly. -/
theorem ofVector2f_truncates (qx qy : ℚ)
    (hx : ((INT_MIN : Int) : ℚ) ≤ qx ∧ qx ≤ ((INT_MAX : Int) : ℚ))
    (hy : ((INT_MIN : Int) : ℚ) ≤ qy ∧ qy ≤ ((INT_MAX : Int) : ℚ)) :
    Vector2i.ofVector2f ⟨.finite qx, .finite qy⟩ =
      .ok ⟨roundTowardZero qx, roundTowardZero qy⟩ ∧
    (∀ n m : Int, qx = n → qy = m →
      Vector2i.ofVector2f ⟨.finite qx, .finite qy⟩ = .ok ⟨n, m⟩) := by
  have hmain : Vector2i.ofVector2f ⟨.finite qx, .finite qy⟩ =
      .ok ⟨roundTowardZero qx, roundTowardZero qy⟩ := by
    simp [Vector2i.ofVector2f, toInt_finite_of_inIntRange (inIntRange_roundTowardZero hx),
      toInt_finite_of_inIntRange (inIntRange_roundTowardZero hy), bind, Except.bind, pure,
      Except.pure]
  refine ⟨hmain, ?_⟩
  intro n m hn hm
  rw [hmain, hn, hm, roundTowardZero_intCast, roundTowardZero_intCast]

/-- Instance of `ofVector2f_truncates` at the `float` vector `(-2.7f, 2.7f)`,
whose components are exactly -11324621/4194304 and 11324621/4194304: the
constructor yields `(-2, 2)`. -/
theorem ofVector2f_truncates_witness :
    Vector2i.ofVector2f ⟨.finite (-11324621 / 4194304), .finite (11324621 / 4194304)⟩ =
      .ok ⟨-2, 2⟩ := by
  have e1 : roundTowardZero (-11324621 / 4194304) = -2 := by
    rw [← truncQ_eq_roundTowardZero]
    norm_num [F32.truncQ]
    decide
  have e2 : roundTowardZero (11324621 / 4194304) = 2 := by
    rw [← truncQ_eq_roundTowardZero]
    norm_num [F32.truncQ]
    decide
  have h := (ofVector2f_truncates (-11324621 / 4194304) (11324621 / 4194304)
    (by norm_num [INT_MIN, INT_MAX]) (by norm_num [INT_MIN, INT_MAX])).1
  rw [e1, e2] at h
  exact h

/-- C10: whatever `v` held, when the arguments `a` and `b` convert to the `int`
values `ta` and `tb`, `v.set(a, b)` leaves `x = ta` and `y = tb`; each argument
is converted on its own: an integer that is a value of `int` is kept, and a
`float` is rounded toward zero. -/
theorem set_casts (v : Vector2i) (a b : Scalar) (ta tb : Int)
    (ha : a.toInt = .ok ta) (hb : b.toInt = .ok tb) :
    v.set a b = .ok ⟨ta, tb⟩ ∧
    (∀ n : Int, a = .integer n → inIntRange n → ta = n) ∧
    (∀ q : ℚ, a = .float (.finite q) → ta = roundTowardZero q) ∧
    (∀ n : Int, b = .integer n → inIntRange n → tb = n) ∧
    (∀ q : ℚ, b = .float (.finite q) → tb = roundTowardZero q) := by
  have hint : ∀ (s : Scalar) (t n : Int), s.toInt = .ok t → s = .integer n →
      inIntRange n → t = n := by
    intro s t n hs e hn
    subst e
    simp only [Scalar.toInt, wrapInt_of_inIntRange hn, Except.ok.injEq] at hs
    exact hs.symm
  have hflt : ∀ (s : Scalar) (t : Int) (q : ℚ), s.toInt = .ok t →
      s = .float (.finite q) → t = roundTowardZero q := by
    intro s t q hs e
    subst e
    rw [← truncQ_eq_roundTowardZero]
    simp only [Scalar.toInt, F32.toInt] at hs
    split at hs
    · simp only [Except.ok.injEq] at hs
      exact hs.symm
    · cases hs
  refine ⟨?_, fun n e hn => hint a ta n ha e hn, fun q e => hflt a ta q ha e,
    fun n e hn => hint b tb n hb e hn, fun q e => hflt b tb q hb e⟩
  simp [Vector2i.set, ha, hb, bind, Except.bind, pure, Except.pure]

/-- Instance of `set_casts` at the default vector with the arguments
`(unsigned char) 2` and `2.58f` (exactly 1352663/524288) of the test
`Set.DifferentTypes`: the vector becomes `(2, 2)`. -/
theorem set_casts_witness :
    (Scalar.integer 2).toInt = .ok 2 ∧
    (Scalar.float (.finite (1352663 / 524288))).toInt = .ok 2 ∧
    Vector2i.set ⟨0, 0⟩ (.integer 2) (.float (.finite (1352663 / 524288))) = .ok ⟨2, 2⟩ := by
  have h1 : (Scalar.integer 2).toInt = .ok 2 := by decide
  have h2 : (Scalar.float (.finite (1352663 / 524288))).toInt = .ok 2 := by
    norm_num [Scalar.toInt, F32.toInt, F32.truncQ, inIntRange, INT_MIN, INT_MAX]
    decide
  exact ⟨h1, h2, (set_casts ⟨0, 0⟩ _ _ 2 2 h1 h2).1⟩

/-- C11: for every scalar `s` the expression `Vector2<int>(s)` and the
assignment `v = s` end alike, whatever `v` held; when `s` converts to the `int`
`t` both give the vector with `x = y = t`. -/
theorem ofScalar_eq_opAssignScalar (v : Vector2i) (s : Scalar) :
    Vector2i.ofScalar s = v.opAssignScalar s ∧
    (∀ t : Int, s.toInt = .ok t →
      Vector2i.ofScalar s = .ok ⟨t, t⟩ ∧ v.opAssignScalar s = .ok ⟨t, t⟩) := by
  constructor
  · cases h : s.toInt <;>
      simp [Vector2i.ofScalar, Vector2i.opAssignScalar, Vector2i.ofValue, h, bind,
        Except.bind, pure, Except.pure]
  · intro t h
    simp [Vector2i.ofScalar, Vector2i.opAssignScalar, Vector2i.ofValue, h, bind,
      Except.bind, pure, Except.pure]

/-- Instance of `ofScalar_eq_opAssignScalar` at `v = (80, 65)` and `s = 2.0f`,
the operands of the test `AssignmentOperator.FromValueDifferentType`: both give
`(2, 2)`. -/
theorem ofScalar_eq_opAssignScalar_witness :
    (Scalar.float (.finite ((2 : Int) : ℚ))).toInt = .ok 2 ∧
    Vector2i.ofScalar (.float (.finite ((2 : Int) : ℚ))) = .ok ⟨2, 2⟩ ∧
    Vector2i.opAssignScalar ⟨80, 65⟩ (.float (.finite ((2 : Int) : ℚ))) = .ok ⟨2, 2⟩ :=
  have h2 : (Scalar.float (.finite ((2 : Int) : ℚ))).toInt = .ok 2 :=
    toInt_finite_intCast (show inIntRange 2 by decide)
  ⟨h2, (ofScalar_eq_opAssignScalar ⟨80, 65⟩ _).2 2 h2⟩

/-- C12: the static factories return the fixed vectors `up() = (0, 1)`,
`down() = (0, -1)`, `left() = (-1, 0)`, `right() = (1, 0)`, `zero() = (0, 0)`,
`one() = (1, 1)`, for `int` and for `float` components, and `zero()` equals the
default-constructed vector. -/
theorem factories_spec :
    (Vector2i.up = ⟨0, 1⟩ ∧ Vector2i.down = ⟨0, -1⟩ ∧ Vector2i.left = ⟨-1, 0⟩ ∧
      Vector2i.right = ⟨1, 0⟩ ∧ Vector2i.zero = ⟨0, 0⟩ ∧ Vector2i.one = ⟨1, 1⟩ ∧
      Vector2i.zero = Vector2i.new) ∧
    (Vector2f.up = ⟨.finite 0, .finite 1⟩ ∧ Vector2f.down = ⟨.finite 0, .finite (-1)⟩ ∧
      Vector2f.left = ⟨.finite (-1), .finite 0⟩ ∧ Vector2f.right = ⟨.finite 1, .finite 0⟩ ∧
      Vector2f.zero = ⟨.finite 0, .finite 0⟩ ∧ Vector2f.one = ⟨.finite 1, .finite 1⟩ ∧
      Vector2f.zero = Vector2f.new) := by
  have h0 : F32.ofInt 0 = .finite 0 := by
    simpa using ofInt_of_natAbs_le (show (0 : Int).natAbs ≤ 16777216 by decide)
  have h1 : F32.ofInt 1 = .finite 1 := by
    simpa using ofInt_of_natAbs_le (show (1 : Int).natAbs ≤ 16777216 by decide)
  have hm : F32.ofInt (-1) = .finite (-1) := by
    simpa using ofInt_of_natAbs_le (show (-1 : Int).natAbs ≤ 16777216 by decide)
  refine ⟨⟨rfl, rfl, rfl, rfl, rfl, rfl, rfl⟩, ?_, ?_, ?_, ?_, ?_, ?_, rfl⟩
  · rw [Vector2f.up, h0, h1]
  · rw [Vector2f.down, h0, hm]
  · rw [Vector2f.left, h0, hm]
  · rw [Vector2f.right, h0, h1]
  · rw [Vector2f.zero, h0]
  · rw [Vector2f.one, h1]

/-- C13: for a `Vector2<int>` `v`, unary minus returns the vector of the negated
components (`int` negation; the exact opposites whenever these are values of
`int`). The operator is a `const` member: the embedding gives it no way to
change the receiver. -/
theorem opNeg_spec (v : Vector2i) :
    v.opNeg = ⟨negInt v.x, negInt v.y⟩ ∧
    (inIntRange (-v.x) → inIntRange (-v.y) → v.opNeg = ⟨-v.x, -v.y⟩) := by
  refine ⟨rfl, ?_⟩
  intro hx hy
  simp [Vector2i.opNeg, negInt, wrapInt_of_inIntRange hx, wrapInt_of_inIntRange hy]

/-- Instance of `opNeg_spec` at `v = (20, 679)`, the vector of the test
`UnaryMinusOperator.PositiveVector`. -/
theorem opNeg_spec_witness : Vector2i.opNeg ⟨20, 679⟩ = ⟨-20, -679⟩ :=
  (opNeg_spec ⟨20, 679⟩).2 (by decide) (by decide)

/-- C14: `dot(a, b)` is `a.x * b.x + a.y * b.y` computed with the operators of
the component type and returned as a `float`: for `int` components the `int`
result converted to `float` (the exact sum of products when nothing
overflows), for `float` components the `float` sum of the `float` products. In
both cases `dot(a, b) = dot(b, a)`. -/
theorem dot_spec (a b : Vector2i) (fa fb : Vector2f) :
    Vector2i.dot a b = F32.ofInt (addInt (mulInt a.x b.x) (mulInt a.y b.y)) ∧
    (inIntRange (a.x * b.x) → inIntRange (a.y * b.y) →
      inIntRange (a.x * b.x + a.y * b.y) →
      Vector2i.dot a b = F32.ofInt (a.x * b.x + a.y * b.y)) ∧
    Vector2i.dot a b = Vector2i.dot b a ∧
    Vector2f.dot fa fb = F32.add (F32.mul fa.x fb.x) (F32.mul fa.y fb.y) ∧
    Vector2f.dot fa fb = Vector2f.dot fb fa := by
  refine ⟨rfl, ?_, ?_, rfl, ?_⟩
  · intro hx hy hs
    simp [Vector2i.dot, addInt, mulInt, wrapInt_of_inIntRange hx, wrapInt_of_inIntRange hy,
      wrapInt_of_inIntRange hs]
  · simp [Vector2i.dot, mulInt_comm a.x b.x, mulInt_comm a.y b.y]
  · simp [Vector2f.dot, F32_mul_comm fa.x fb.x, F32_mul_comm fa.y fb.y]

/-- Instance of `dot_spec` at `a = (-4, -9)` and `b = (-1, 2)`, the components of
the test `DotProduct.NegativeVectors`: the product is -14. -/
theorem dot_spec_witness :
    Vector2i.dot ⟨-4, -9⟩ ⟨-1, 2⟩ = .finite (-14) := by
  have h := (dot_spec ⟨-4, -9⟩ ⟨-1, 2⟩ ⟨.nan, .nan⟩ ⟨.nan, .nan⟩).2.1
    (by decide) (by decide) (by decide)
  rw [h]
  simpa using ofInt_of_natAbs_le (show ((-4 : Int) * -1 + -9 * 2).natAbs ≤ 16777216 by decide)

/-- C16: for a `Vector2<int>` whose `x * x + y * y` does not overflow,
`squaredMagnitude()` returns that `int` value converted to `float`; the
conversion is exact up to 16777216, so `(-5, -5)` gives 50. -/
theorem squaredMagnitude_spec (v : Vector2i) (h : inIntRange (v.x * v.x + v.y * v.y)) :
    v.squaredMagnitude = F32.ofInt (v.x * v.x + v.y * v.y) ∧
    (v.x * v.x + v.y * v.y ≤ 16777216 →
      v.squaredMagnitude = .finite ((v.x * v.x + v.y * v.y : Int) : ℚ)) := by
  have hs : v.squaredMagnitude = F32.ofInt (v.x * v.x + v.y * v.y) := by
    rw [Vector2i.squaredMagnitude, sumSquares_exact h]
  refine ⟨hs, ?_⟩
  intro hle
  rw [hs]
  apply ofInt_of_natAbs_le
  have h0 : 0 ≤ v.x * v.x + v.y * v.y := add_nonneg (mul_self_nonneg _) (mul_self_nonneg _)
  omega

/-- Instance of `squaredMagnitude_spec` at `v = (-5, -5)`, the vector of the test
`SquaredMagnitude.NegativeVector`: the result is 50. -/
theorem squaredMagnitude_spec_witness :
    inIntRange ((-5 : Int) * -5 + -5 * -5) ∧
    Vector2i.squaredMagnitude ⟨-5, -5⟩ = .finite 50 := by
  have hr : inIntRange ((-5 : Int) * -5 + -5 * -5) := by decide
  refine ⟨hr, ?_⟩
  have h := (squaredMagnitude_spec ⟨-5, -5⟩ hr).2 (by decide)
  rw [h]
  norm_num

/-- C17, as stated, fails: for `v = (1, 1)` `magnitude()` returns the `float`
11863283/8388608 (1.41421353...), the square of which is not the 2 that
`squaredMagnitude()` returns, neither exactly nor when the product is rounded
to `float` (16777215/8388608). -/
theorem magnitude_sq_ne_squaredMagnitude :
    Vector2i.magnitude ⟨1, 1⟩ = .finite (11863283 / 8388608) ∧
    Vector2i.squaredMagnitude ⟨1, 1⟩ = .finite 2 ∧
    (11863283 / 8388608 : ℚ) * (11863283 / 8388608) ≠ 2 ∧
    F32.mul (.finite (11863283 / 8388608)) (.finite (11863283 / 8388608)) =
      .finite (16777215 / 8388608) := by
  refine ⟨magnitude_one_one, ?_, by norm_num, ?_⟩
  · have h : addInt (mulInt 1 1) (mulInt 1 1) = 2 := by decide
    rw [Vector2i.squaredMagnitude, h]
    simpa using ofInt_of_natAbs_le (show (2 : Int).natAbs ≤ 16777216 by decide)
  · have h := round_eq_of_pos (q := 11863283 / 8388608 * (11863283 / 8388608)) (k := 0)
      (n := 16777215) (by norm_num) (by norm_num) (by norm_num)
      (by rw [abs_lt]; constructor <;> norm_num) (by norm_num)
    simp only [F32.mul]
    rw [h]
    norm_num

/-- C17, amended: for a `Vector2<int>` `v` whose `x * x + y * y` does not
overflow, `magnitude()` returns exactly `k` whenever `x * x + y * y = k * k`
for a non-negative integer `k`; in general it returns a non-negative `float`
whose square equals `x * x + y * y` up to a relative error of `2 ^ (-22)`. -/
theorem magnitude_spec (v : Vector2i) (h : inIntRange (v.x * v.x + v.y * v.y)) :
    (∀ k : Int, 0 ≤ k → v.x * v.x + v.y * v.y = k * k → v.magnitude = .finite (k : ℚ)) ∧
    ∃ m : ℚ, v.magnitude = .finite m ∧ 0 ≤ m ∧
      |m * m - ((v.x * v.x + v.y * v.y : Int) : ℚ)| ≤
        ((v.x * v.x + v.y * v.y : Int) : ℚ) / 2 ^ 22 := by
  refine ⟨fun k hk hsq => magnitude_of_square h hk hsq, ?_⟩
  have hn0 : (0 : Int) ≤ v.x * v.x + v.y * v.y :=
    add_nonneg (mul_self_nonneg _) (mul_self_nonneg _)
  have hhi : v.x * v.x + v.y * v.y ≤ 2147483647 := by
    unfold inIntRange INT_MAX at h
    exact h.2
  unfold Vector2i.magnitude
  rw [sumSquares_exact h]
  generalize v.x * v.x + v.y * v.y = n at hn0 hhi
  rcases eq_or_lt_of_le hn0 with h0 | hpos
  · refine ⟨0, ?_, le_refl _, ?_⟩
    · rw [← h0]
      simp [F32.sqrt]
    · rw [← h0]
      simp
  · have hq1 : (1 : ℚ) ≤ (n : ℚ) := by exact_mod_cast (show (1 : Int) ≤ n by omega)
    have hq2 : (n : ℚ) ≤ 2147483647 := by exact_mod_cast hhi
    obtain ⟨l, hl, hlpos, hlo, hup⟩ := sqrt_sq_bounds (a := (n : ℚ))
      (le_trans (by norm_num) hq1) (le_trans hq2 (by norm_num))
    refine ⟨l, hl, hlpos.le, ?_⟩
    rw [abs_le]
    constructor <;> linarith

/-- Instance of `magnitude_spec` at `v = (4, -3)`, the vector of the test
`Magnitude.NegativeVector`: the magnitude is exactly 5. -/
theorem magnitude_spec_witness :
    inIntRange ((4 : Int) * 4 + -3 * -3) ∧ Vector2i.magnitude ⟨4, -3⟩ = .finite 5 := by
  have hr : inIntRange ((4 : Int) * 4 + -3 * -3) := by decide
  have h := (magnitude_spec ⟨4, -3⟩ hr).1 5 (by decide) (by decide)
  refine ⟨hr, ?_⟩
  rw [h]
  norm_num

/-- C18, as stated, fails for the component type `int` and for `float`
components whose squares overflow: `Vector2<int>(-5, -6).normalized()` is
`(0, 0)`, of magnitude 0; and for the `float` vector `(2^64, 0)` the square of
`x` is infinite, so are the sum and the length, both quotients are 0, the
assertions hold, and the vector returned is `(0, 0)`, of magnitude 0. -/
theorem normalized_magnitude_not_one :
    Vector2i.normalized ⟨-5, -6⟩ = .ok ⟨0, 0⟩ ∧
    Vector2i.magnitude ⟨0, 0⟩ = .finite 0 ∧
    F32.round 18446744073709551616 = .finite 18446744073709551616 ∧
    Vector2f.magnitude ⟨.finite 18446744073709551616, .finite 0⟩ = .inf false ∧
    Vector2f.normalized ⟨.finite 18446744073709551616, .finite 0⟩ =
      .ok ⟨.finite 0, .finite 0⟩ ∧
    Vector2f.magnitude ⟨.finite 0, .finite 0⟩ = .finite 0 := by
  have hni : Vector2i.normalized ⟨-5, -6⟩ = .ok ⟨0, 0⟩ := by
    obtain ⟨l, hmag, hlx, hly⟩ := magnitude_gt_components (x := -5) (y := -6)
      (by decide) (by decide) (by decide) (by decide)
    exact normalize_eq_of_toInt hmag (div_toInt_zero (by decide) hlx)
      (div_toInt_zero (by decide) hly) (by decide) (by decide)
  have hmi : Vector2i.magnitude ⟨0, 0⟩ = .finite 0 := by
    have : addInt (mulInt 0 0) (mulInt 0 0) = 0 := by decide
    simp [Vector2i.magnitude, this, F32.sqrt]
  have hfl : F32.round 18446744073709551616 = .finite 18446744073709551616 := by
    have h := round_eq_of_pos (q := 18446744073709551616) (k := 64) (n := 8388608)
      (by norm_num) (by norm_num) (by norm_num) (by rw [abs_lt]; constructor <;> norm_num)
      (by norm_num)
    rw [h]
    norm_num
  have hsq : F32.round (18446744073709551616 * 18446744073709551616) = .inf false := by
    have h := roundBinary24_eq (a := 18446744073709551616 * 18446744073709551616) (k := 128)
      (n := 8388608) (by norm_num) (by norm_num) (by norm_num)
      (by rw [abs_lt]; constructor <;> norm_num)
    have hpos : |(18446744073709551616 : ℚ) * 18446744073709551616| =
        18446744073709551616 * 18446744073709551616 := abs_of_pos (by positivity)
    unfold F32.round
    rw [hpos, h]
    norm_num
  obtain ⟨hmf, hnf⟩ := normalized_float_overflow hsq
  have hm0 : Vector2f.magnitude ⟨.finite 0, .finite 0⟩ = .finite 0 := by
    simp [Vector2f.magnitude, F32.mul, F32.add, round_zero, F32.sqrt]
  exact ⟨hni, hmi, hfl, hmf, hnf, hm0⟩

/-- C18, amended: for every `Vector2<float>` `v`, not the zero vector, whose
non-zero components have an absolute value between `2^-30` and `2^30`,
`v.normalized()` passes both assertions and returns a vector whose
`magnitude()` is finite and within `2^-20` of 1. The receiver is an argument of
the function and has no state after the call: `normalized()` is a `const`
member. The hypotheses `hx` and `hy` say that `x` and `y` are values of
`float`. -/
theorem normalized_float_magnitude (x y : ℚ) (hx : F32.round x = .finite x)
    (hy : F32.round y = .finite y)
    (hxr : x = 0 ∨ (1 / 2 ^ 30 ≤ |x| ∧ |x| ≤ 2 ^ 30))
    (hyr : y = 0 ∨ (1 / 2 ^ 30 ≤ |y| ∧ |y| ≤ 2 ^ 30)) (hne : x ≠ 0 ∨ y ≠ 0) :
    ∃ w : Vector2f, ∃ m : ℚ,
      Vector2f.normalized ⟨.finite x, .finite y⟩ = .ok w ∧
      w.magnitude = .finite m ∧ |m - 1| ≤ 1 / 2 ^ 20 := by
  have weaken : ∀ z : ℚ, (z = 0 ∨ (1 / 2 ^ 30 ≤ |z| ∧ |z| ≤ 2 ^ 30)) →
      (z = 0 ∨ (1 / 2 ^ 62 ≤ |z| ∧ |z| ≤ 2 ^ 30)) ∧ (z = 0 ∨ 1 / 2 ^ 30 ≤ |z|) ∧
        z * z ≤ 2 ^ 60 := by
    intro z hz
    rcases hz with hz | ⟨hz1, hz2⟩
    · rw [hz]
      norm_num
    · have h2 : |z| * |z| ≤ 2 ^ 30 * 2 ^ 30 := mul_le_mul hz2 hz2 (abs_nonneg z) (by positivity)
      rw [abs_mul_abs_self] at h2
      exact ⟨Or.inr ⟨le_trans (by norm_num) hz1, hz2⟩, Or.inr hz1, le_trans h2 (by norm_num)⟩
  obtain ⟨hxw, hxl, hxu⟩ := weaken x hxr
  obtain ⟨hyw, hyl, hyu⟩ := weaken y hyr
  obtain ⟨s, l, hmag, hlpos, hrb, hsx, hsy, bl1, bl2⟩ := magnitude_rel hxw hyw hne
  have hNpos : 0 < x * x + y * y := by
    rcases hne with h | h
    · have := mul_self_pos.mpr h
      have := mul_self_nonneg y
      linarith
    · have := mul_self_pos.mpr h
      have := mul_self_nonneg x
      linarith
  have hxle : |x| ≤ l := by
    rcases hxl with h | h
    · rw [h, abs_zero]
      exact hlpos.le
    · rw [← hrb]
      exact roundBinary_sqrt_ge h (round_abs_of_round hx) hsx
  have hyle : |y| ≤ l := by
    rcases hyl with h | h
    · rw [h, abs_zero]
      exact hlpos.le
    · rw [← hrb]
      exact roundBinary_sqrt_ge h (round_abs_of_round hy) hsy
  have hlu : l ≤ 2 ^ 31 := by
    by_contra hcon
    have hcon := not_le.mp hcon
    have : (2 : ℚ) ^ 31 * 2 ^ 31 < l * l := mul_lt_mul'' hcon hcon (by positivity) (by positivity)
    norm_num at this bl2 hxu hyu
    linarith
  obtain ⟨x', hdx, hx1, hxr', bx1, bx2⟩ := div_round_le_one hlpos hxle hlu hxl
  obtain ⟨y', hdy, hy1, hyr', by1, by2⟩ := div_round_le_one hlpos hyle hlu hyl
  have hnorm := normalize_float_ok (v := ⟨.finite x, .finite y⟩) hmag hdx hdy hx1 hy1
  have hne' : x' ≠ 0 ∨ y' ≠ 0 := by
    rcases hne with h | h
    · left
      intro h0
      rw [h0, abs_zero, zero_mul] at bx1
      have : 0 < |x| := abs_pos.mpr h
      norm_num at bx1
      linarith
    · right
      intro h0
      rw [h0, abs_zero, zero_mul] at by1
      have : 0 < |y| := abs_pos.mpr h
      norm_num at by1
      linarith
  obtain ⟨s', m, hmag', hmpos, -, -, -, bm1, bm2⟩ := magnitude_rel hxr' hyr' hne'
  refine ⟨⟨.finite x', .finite y'⟩, m, hnorm, hmag', ?_⟩
  -- squares of the scaled components
  have sqx1 := sq_ge_of_mul_le (c := 1 - 1 / 2 ^ 24)
    (mul_nonneg (by norm_num) (abs_nonneg x)) bx1
  have sqx2 := sq_le_of_le_mul (mul_nonneg (abs_nonneg x') hlpos.le) bx2
  have sqy1 := sq_ge_of_mul_le (c := 1 - 1 / 2 ^ 24)
    (mul_nonneg (by norm_num) (abs_nonneg y)) by1
  have sqy2 := sq_le_of_le_mul (mul_nonneg (abs_nonneg y') hlpos.le) by2
  have ex : |x'| * l * (|x'| * l) = x' * x' * (l * l) := by
    rw [← abs_mul_abs_self x']
    ring
  have ey : |y'| * l * (|y'| * l) = y' * y' * (l * l) := by
    rw [← abs_mul_abs_self y']
    ring
  rw [ex, abs_mul_abs_self] at sqx1 sqx2
  rw [ey, abs_mul_abs_self] at sqy1 sqy2
  have hn1 : (1 - 1 / 2 ^ 24) * (1 - 1 / 2 ^ 24) * (x * x + y * y) ≤
      (x' * x' + y' * y') * (l * l) := by
    rw [mul_add, add_mul]
    linarith
  have hn2 : (x' * x' + y' * y') * (l * l) ≤
      (1 + 1 / 2 ^ 24) * (1 + 1 / 2 ^ 24) * (x * x + y * y) := by
    rw [mul_add, add_mul]
    linarith
  have hN' : 0 ≤ x' * x' + y' * y' := add_nonneg (mul_self_nonneg x') (mul_self_nonneg y')
  obtain ⟨f1, f2⟩ := normalized_sq_bounds hNpos hN' (by norm_num) (by norm_num) bl1 bl2 hn1 hn2
    bm1 bm2
  apply abs_sub_one_le_of_sq hmpos
  · norm_num at f1 ⊢
    linarith
  · norm_num at f2 ⊢
    linarith

/-- Instance of `normalized_float_magnitude` at `v = (2, 2)`, the vector of the
test `Normalized.FloatVector`. -/
theorem normalized_float_magnitude_witness :
    (F32.round 2 = .finite 2 ∧ ((2 : ℚ) = 0 ∨ (1 / 2 ^ 30 ≤ |(2 : ℚ)| ∧ |(2 : ℚ)| ≤ 2 ^ 30)) ∧
      ((2 : ℚ) ≠ 0 ∨ (2 : ℚ) ≠ 0)) ∧
    ∃ w : Vector2f, ∃ m : ℚ,
      Vector2f.normalized ⟨.finite 2, .finite 2⟩ = .ok w ∧
      w.magnitude = .finite m ∧ |m - 1| ≤ 1 / 2 ^ 20 := by
  have h2 : F32.round 2 = .finite 2 := by
    simpa using round_intCast_pos (k := 2) (by decide) (by decide)
  have hr : (2 : ℚ) = 0 ∨ (1 / 2 ^ 30 ≤ |(2 : ℚ)| ∧ |(2 : ℚ)| ≤ 2 ^ 30) := by
    right
    rw [abs_of_pos (by norm_num : (0 : ℚ) < 2)]
    constructor <;> norm_num
  have hn : (2 : ℚ) ≠ 0 ∨ (2 : ℚ) ≠ 0 := Or.inl (by norm_num)
  exact ⟨⟨h2, hr, hn⟩, normalized_float_magnitude 2 2 h2 h2 hr hr hn⟩

/-- C19, as stated, fails: for `v = (4096, 1)` the magnitude, rounded to `float`,
is exactly 4096, the first quotient is exactly 1, and `normalize()` leaves
`v = (1, 0)`. -/
theorem normalize_int_not_zero :
    Vector2i.magnitude ⟨4096, 1⟩ = .finite 4096 ∧
    Vector2i.normalize ⟨4096, 1⟩ = .ok ⟨1, 0⟩ := by
  refine ⟨magnitude_4096_1, ?_⟩
  have hofInt : F32.ofInt 4096 = .finite 4096 := by
    simpa using ofInt_of_natAbs_le (show (4096 : Int).natAbs ≤ 16777216 by decide)
  have hx : (F32.div (F32.ofInt 4096) (.finite 4096)).toInt = .ok 1 := by
    have hd : F32.div (F32.ofInt 4096) (.finite 4096) = .finite 1 := by
      rw [hofInt]
      simp [F32.div, round_one]
    rw [hd]
    simpa using toInt_finite_intCast (show inIntRange 1 by decide)
  have hy : (F32.div (F32.ofInt 1) (.finite 4096)).toInt = .ok 0 :=
    div_toInt_zero (x := 1) (by decide) (by norm_num)
  exact normalize_eq_of_toInt magnitude_4096_1 hx hy (by decide) (by decide)

/-- C19, amended: for a `Vector2<int>` whose two components are both non-zero and
of absolute value at most 4095, `normalize()` leaves `v = (0, 0)`. -/
theorem normalize_int_zero (v : Vector2i) (hx0 : v.x ≠ 0) (hy0 : v.y ≠ 0)
    (hx : |v.x| ≤ 4095) (hy : |v.y| ≤ 4095) :
    v.normalize = .ok ⟨0, 0⟩ := by
  have hx1 : 1 ≤ |v.x| := Int.one_le_abs hx0
  have hy1 : 1 ≤ |v.y| := Int.one_le_abs hy0
  obtain ⟨l, hmag, hlx, hly⟩ := magnitude_gt_components hx1 hx hy1 hy
  exact normalize_eq_of_toInt hmag (div_toInt_zero hx hlx) (div_toInt_zero hy hly)
    (by decide) (by decide)

/-- Instance of `normalize_int_zero` at `v = (-5, -6)`, the vector of the test
`Normalize.IntVector`. -/
theorem normalize_int_zero_witness :
    ((-5 : Int) ≠ 0 ∧ (-6 : Int) ≠ 0 ∧ |(-5 : Int)| ≤ 4095 ∧ |(-6 : Int)| ≤ 4095) ∧
    Vector2i.normalize ⟨-5, -6⟩ = .ok ⟨0, 0⟩ :=
  ⟨⟨by decide, by decide, by decide, by decide⟩,
    normalize_int_zero ⟨-5, -6⟩ (by decide) (by decide) (by decide) (by decide)⟩

/-- C20: the code has no zero-magnitude policy. On the `float` zero vector the
two divisions of `normalize()` store NaN in `x` and `y`, after which the
assertion fails, in `normalize()` and in `normalized()`; on the `int` zero
vector the quotient NaN is converted to `int`, which has no defined result. -/
theorem normalize_zero_vector :
    Vector2f.magnitude ⟨.finite 0, .finite 0⟩ = .finite 0 ∧
    Vector2f.normalizeAssignments ⟨.finite 0, .finite 0⟩ = ⟨.nan, .nan⟩ ∧
    Vector2f.normalize ⟨.finite 0, .finite 0⟩ = .error .assertion ∧
    Vector2f.normalized ⟨.finite 0, .finite 0⟩ = .error .assertion ∧
    Vector2i.magnitude ⟨0, 0⟩ = .finite 0 ∧
    Vector2i.normalize ⟨0, 0⟩ = .error .undefinedBehaviour ∧
    Vector2i.normalized ⟨0, 0⟩ = .error .undefinedBehaviour := by
  have hmf : Vector2f.magnitude ⟨.finite 0, .finite 0⟩ = .finite 0 := by
    simp [Vector2f.magnitude, F32.mul, F32.add, round_zero, F32.sqrt]
  have hna : Vector2f.normalizeAssignments ⟨.finite 0, .finite 0⟩ = ⟨.nan, .nan⟩ := by
    simp [Vector2f.normalizeAssignments, hmf, F32.div]
  have hnf : Vector2f.normalize ⟨.finite 0, .finite 0⟩ = .error .assertion := by
    simp [Vector2f.normalize, hna, F32.le]
  have hmi : Vector2i.magnitude ⟨0, 0⟩ = .finite 0 := by
    have : addInt (mulInt 0 0) (mulInt 0 0) = 0 := by decide
    simp [Vector2i.magnitude, this, F32.sqrt]
  have hofInt : F32.ofInt 0 = .finite 0 := by
    simpa using ofInt_of_natAbs_le (show (0 : Int).natAbs ≤ 16777216 by decide)
  have hni : Vector2i.normalize ⟨0, 0⟩ = .error .undefinedBehaviour := by
    simp [Vector2i.normalize, hmi, hofInt, F32.div, F32.toInt, bind, Except.bind]
  exact ⟨hmf, hna, hnf, hnf, hmi, hni, hni⟩

/-- C21: for every `Vector2<int>` `v`, `toString()` returns the string made of
an opening parenthesis, the decimal rendering of `v.x`, a comma and a blank, the
decimal rendering of `v.y` and a closing parenthesis; stream insertion appends
that same text to whatever the stream holds; the rendering of a negative `int`
is a minus sign before the rendering of its absolute value. At `(2, 5)`, the
vector of the test `Stream.StreamInsertion`, the text is `(2, 5)`. -/
theorem toString_spec (v : Vector2i) :
    v.toString = "(" ++ decimal v.x ++ ", " ++ decimal v.y ++ ")" ∧
    (∀ out : OStream, (Vector2i.opInsert out v).written = out.written ++ v.toString) ∧
    (∀ n : Int, n < 0 → decimal n = "-" ++ decimal (-n)) ∧
    Vector2i.toString ⟨2, 5⟩ = "(2, 5)" ∧
    Vector2i.toString ⟨-34, 2147483647⟩ = "(-34, 2147483647)" := by
  have h : v.toString = "(" ++ decimal v.x ++ ", " ++ decimal v.y ++ ")" := by
    show (Vector2i.opInsert ⟨""⟩ v).written = _
    rw [opInsert_written]
    exact String.empty_append _
  refine ⟨h, ?_, ?_, by decide, by decide⟩
  · intro out
    rw [h, opInsert_written]
  · intro n hn
    have h1 : ¬ (-n < 0) := by omega
    simp [decimal, hn, h1]

/-- C22: the code does not return the angle between two vectors of the same
direction. For `from = to = (3, 3)`, whose angle is 0, both normalized copies
are `(c, c)` with `c = 2965821 / 4194304`, their dot product, rounded to
`float`, is `1 + 2^-23`, above 1, and `acosf` has no value there: `angle`
returns NaN, whatever the library returns inside `[-1, 1]`. Nothing brings the
argument of `acosf` back into `[-1, 1]`. -/
theorem angle_nan_of_equal_vectors :
    Vector2f.normalized ⟨.finite 3, .finite 3⟩ =
      .ok ⟨.finite (2965821 / 4194304), .finite (2965821 / 4194304)⟩ ∧
    Vector2f.dot ⟨.finite (2965821 / 4194304), .finite (2965821 / 4194304)⟩
      ⟨.finite (2965821 / 4194304), .finite (2965821 / 4194304)⟩ =
      .finite (8388609 / 8388608) ∧
    (fun lib : ℚ → ℚ => Vector2f.angle lib ⟨.finite 3, .finite 3⟩ ⟨.finite 3, .finite 3⟩) =
      fun _ => .ok .nan := by
  refine ⟨normalized_three_three, dot_unit_diagonal_above_one, ?_⟩
  funext lib
  rw [angle_eq normalized_three_three normalized_three_three, dot_unit_diagonal_above_one]
  have h : acosf lib (.finite (8388609 / 8388608)) = .nan := by
    have h1 : (1 : ℚ) < 8388609 / 8388608 := by norm_num
    simp only [acosf, h1, or_true, if_true]
  rw [h, angle_value_nan]

/-- What `angle` computes. For every two `Vector2<float>` `from` and `to`,
neither the zero vector, whose non-zero components have an absolute value
between `2^-30` and `2^30`, both normalized copies exist, their dot product `d` is finite, and
`angle(from, to)` is `acosf(d) * 180 / M_PI`, the product taken in `float` and
the quotient in `double`. When `d` lies outside `[-1, 1]` the result is NaN;
when `d` lies in `[-1, 1]`, where `acosf` returns a value between 0 and the
`float` nearest to π, the result is finite and lies in `[0, 180]`. If `acosf`
returns the `float` nearest to π/2 at 0, `angle((3, 4), (-8, 6))` is 90; if it
returns the `float` nearest to π/4 at `11863283 / 16777216`,
`angle((3, 0), (5, 5))` is 45. -/
theorem angle_spec (lib : ℚ → ℚ) (ux uy vx vy : ℚ)
    (hux : F32.round ux = .finite ux) (huy : F32.round uy = .finite uy)
    (hvx : F32.round vx = .finite vx) (hvy : F32.round vy = .finite vy)
    (rux : ux = 0 ∨ (1 / 2 ^ 30 ≤ |ux| ∧ |ux| ≤ 2 ^ 30))
    (ruy : uy = 0 ∨ (1 / 2 ^ 30 ≤ |uy| ∧ |uy| ≤ 2 ^ 30))
    (rvx : vx = 0 ∨ (1 / 2 ^ 30 ≤ |vx| ∧ |vx| ≤ 2 ^ 30))
    (rvy : vy = 0 ∨ (1 / 2 ^ 30 ≤ |vy| ∧ |vy| ≤ 2 ^ 30))
    (hu : ux ≠ 0 ∨ uy ≠ 0) (hv : vx ≠ 0 ∨ vy ≠ 0)
    (hlib : ∀ q : ℚ, -1 ≤ q → q ≤ 1 → 0 ≤ lib q ∧ lib q ≤ 13176795 / 4194304) :
    (∃ (a b : Vector2f) (d : ℚ),
      Vector2f.normalized ⟨.finite ux, .finite uy⟩ = .ok a ∧
      Vector2f.normalized ⟨.finite vx, .finite vy⟩ = .ok b ∧
      Vector2f.dot a b = .finite d ∧
      Vector2f.angle lib ⟨.finite ux, .finite uy⟩ ⟨.finite vx, .finite vy⟩ =
        .ok (F64.toFloat (F64.div (F32.mul (acosf lib (.finite d)) (F32.ofInt 180))
          (.finite M_PI))) ∧
      ((d < -1 ∨ 1 < d) →
        Vector2f.angle lib ⟨.finite ux, .finite uy⟩ ⟨.finite vx, .finite vy⟩ = .ok .nan) ∧
      (-1 ≤ d → d ≤ 1 → ∃ r : ℚ,
        Vector2f.angle lib ⟨.finite ux, .finite uy⟩ ⟨.finite vx, .finite vy⟩ =
          .ok (.finite r) ∧ 0 ≤ r ∧ r ≤ 180)) ∧
    (lib 0 = 13176795 / 8388608 →
      Vector2f.angle lib ⟨.finite 3, .finite 4⟩ ⟨.finite (-8), .finite 6⟩ =
        .ok (.finite 90)) ∧
    (lib (11863283 / 16777216) = 13176795 / 16777216 →
      Vector2f.angle lib ⟨.finite 3, .finite 0⟩ ⟨.finite 5, .finite 5⟩ =
        .ok (.finite 45)) := by
  refine ⟨?_, ?_, ?_⟩
  · obtain ⟨-, a1, a2, -, -, -, -, hna, ha1, ha2, -⟩ :=
      normalized_float_components hux huy rux ruy hu
    obtain ⟨-, b1, b2, -, -, -, -, hnb, hb1, hb2, -⟩ :=
      normalized_float_components hvx hvy rvx rvy hv
    obtain ⟨d, hd⟩ := dot_finite_of_abs_le_one ha1 ha2 hb1 hb2
    have hang := @angle_eq lib _ _ _ _ hna hnb
    rw [hd] at hang
    refine ⟨_, _, d, hna, hnb, hd, hang, ?_, ?_⟩
    · intro hout
      have h : acosf lib (.finite d) = .nan := by
        simp only [acosf, hout, if_true]
      rw [hang, h, angle_value_nan]
    · intro h1 h2
      have hin : ¬ (d < -1 ∨ 1 < d) := by
        intro h
        rcases h with h | h <;> linarith
      have h : acosf lib (.finite d) = .finite (lib d) := by
        simp only [acosf, hin, if_false]
      obtain ⟨hl0, hl1⟩ := hlib d h1 h2
      obtain ⟨hval, -⟩ := angle_value hl0 (le_trans hl1 (by norm_num))
      obtain ⟨hr0, hr1⟩ := angle_value_range hl0 hl1
      exact ⟨_, by rw [hang, h, hval], hr0, hr1⟩
  · intro h0
    rw [angle_eq normalized_three_four.2 normalized_neg_eight_six, dot_perpendicular]
    have h : acosf lib (.finite 0) = .finite (13176795 / 8388608) := by
      have hin : ¬ ((0 : ℚ) < -1 ∨ (1 : ℚ) < 0) := by norm_num
      simp only [acosf, hin, if_false, h0]
    rw [h, angle_value_right]
  · intro h0
    rw [angle_eq normalized_three_zero normalized_five_five, dot_right_diagonal]
    have h : acosf lib (.finite (11863283 / 16777216)) = .finite (13176795 / 16777216) := by
      have hin : ¬ ((11863283 : ℚ) / 16777216 < -1 ∨ (1 : ℚ) < 11863283 / 16777216) := by
        norm_num
      simp only [acosf, hin, if_false, h0]
    rw [h, angle_value_half_right]

/-- Instance of `angle_spec` at `from = (3, 4)` and `to = (-8, 6)`, the vectors
of the test `Angle.NegativeVectors`, for a library that returns the `float`
nearest to π/2 at 0 and the `float` nearest to π/4 elsewhere: the angle is 90. -/
theorem angle_spec_witness :
    (F32.round 3 = .finite 3 ∧ F32.round 4 = .finite 4 ∧ F32.round (-8) = .finite (-8) ∧
      F32.round 6 = .finite 6 ∧
      (∀ q : ℚ, -1 ≤ q → q ≤ 1 →
        0 ≤ (if q = 0 then (13176795 : ℚ) / 8388608 else 13176795 / 16777216) ∧
        (if q = 0 then (13176795 : ℚ) / 8388608 else 13176795 / 16777216) ≤
          13176795 / 4194304)) ∧
    Vector2f.angle (fun q => if q = 0 then 13176795 / 8388608 else 13176795 / 16777216)
      ⟨.finite 3, .finite 4⟩ ⟨.finite (-8), .finite 6⟩ = .ok (.finite 90) := by
  have r3 : F32.round 3 = .finite 3 := round_small_int 3 (by decide) (by decide) 3 (by norm_num)
  have r4 : F32.round 4 = .finite 4 := round_small_int 4 (by decide) (by decide) 4 (by norm_num)
  have r6 : F32.round 6 = .finite 6 := round_small_int 6 (by decide) (by decide) 6 (by norm_num)
  have r8 : F32.round (-8) = .finite (-8) := by
    have := round_intCast (k := -8) (by decide)
    simpa using this
  have g : ∀ z : ℚ, 1 ≤ |z| → |z| ≤ 8 → (z = 0 ∨ (1 / 2 ^ 30 ≤ |z| ∧ |z| ≤ 2 ^ 30)) :=
    fun z h1 h2 => Or.inr ⟨le_trans (by norm_num) h1, le_trans h2 (by norm_num)⟩
  have a3 : |(3 : ℚ)| = 3 := abs_of_pos (by norm_num)
  have a4 : |(4 : ℚ)| = 4 := abs_of_pos (by norm_num)
  have a6 : |(6 : ℚ)| = 6 := abs_of_pos (by norm_num)
  have a8 : |(-8 : ℚ)| = 8 := by rw [abs_neg]; exact abs_of_pos (by norm_num)
  have hl : ∀ q : ℚ, -1 ≤ q → q ≤ 1 →
      0 ≤ (if q = 0 then (13176795 : ℚ) / 8388608 else 13176795 / 16777216) ∧
      (if q = 0 then (13176795 : ℚ) / 8388608 else 13176795 / 16777216) ≤
        13176795 / 4194304 := by
    intro q _ _
    split_ifs <;> constructor <;> norm_num
  refine ⟨⟨r3, r4, r8, r6, hl⟩, ?_⟩
  exact (angle_spec (fun q => if q = 0 then 13176795 / 8388608 else 13176795 / 16777216)
    3 4 (-8) 6 r3 r4 r8 r6
    (g 3 (by rw [a3]; norm_num) (by rw [a3]; norm_num))
    (g 4 (by rw [a4]; norm_num) (by rw [a4]; norm_num))
    (g (-8) (by rw [a8]; norm_num) (by rw [a8]))
    (g 6 (by rw [a6]; norm_num) (by rw [a6]; norm_num))
    (Or.inl (by norm_num)) (Or.inl (by norm_num)) hl).2.1 (by simp)

/-- C25, as stated, fails: the in-place operators taking a `Vector2<float>`
compute in `float` and convert the result, they do not convert the operand
first. `(1, 1) += (-0.5, -0.5)` leaves `(0, 0)`, where the converted operand
`(0, 0)` leaves `(1, 1)`; `(3, 3) *= (0.5, 0.5)` leaves `(1, 1)`, not `(0, 0)`;
`(2, 2) /= (0.5, 0.5)` leaves `(4, 4)`, where the division by the converted
operand is a division by zero. -/
theorem opAssignF_not_convert_first :
    Vector2i.opAddAssignF ⟨1, 1⟩ ⟨.finite (-(1 / 2)), .finite (-(1 / 2))⟩ = .ok ⟨0, 0⟩ ∧
    (Vector2i.ofVector2f ⟨.finite (-(1 / 2)), .finite (-(1 / 2))⟩).map
      (Vector2i.opAddAssign ⟨1, 1⟩) = .ok ⟨1, 1⟩ ∧
    Vector2i.opMulAssignF ⟨3, 3⟩ ⟨.finite (1 / 2), .finite (1 / 2)⟩ = .ok ⟨1, 1⟩ ∧
    (Vector2i.ofVector2f ⟨.finite (1 / 2), .finite (1 / 2)⟩).map
      (Vector2i.opMulAssign ⟨3, 3⟩) = .ok ⟨0, 0⟩ ∧
    Vector2i.opDivAssignF ⟨2, 2⟩ ⟨.finite (1 / 2), .finite (1 / 2)⟩ = .ok ⟨4, 4⟩ ∧
    (Vector2i.ofVector2f ⟨.finite (1 / 2), .finite (1 / 2)⟩).bind
      (Vector2i.opDivAssign ⟨2, 2⟩) = .error .undefinedBehaviour := by
  have h0 : inIntRange 0 := by decide
  have h1 : inIntRange 1 := by decide
  have h4 : inIntRange 4 := by decide
  have t1 : F32.truncQ (1 / 2) = 0 := truncQ_eq_zero (by rw [abs_lt]; constructor <;> norm_num)
  have t2 : F32.truncQ (-(1 / 2)) = 0 :=
    truncQ_eq_zero (by rw [abs_lt]; constructor <;> norm_num)
  have o1 : F32.ofInt 1 = .finite 1 := by simpa using ofInt_small (x := 1) (by decide)
  have o2 : F32.ofInt 2 = .finite 2 := by simpa using ofInt_small (x := 2) (by decide)
  have o3 : F32.ofInt 3 = .finite 3 := by simpa using ofInt_small (x := 3) (by decide)
  have cneg : Vector2i.ofVector2f ⟨.finite (-(1 / 2)), .finite (-(1 / 2))⟩ = .ok ⟨0, 0⟩ := by
    have := toInt_finite_of_truncQ t2 h0
    simp only [Vector2i.ofVector2f, this, bind, Except.bind, pure, Except.pure]
  have cpos : Vector2i.ofVector2f ⟨.finite (1 / 2), .finite (1 / 2)⟩ = .ok ⟨0, 0⟩ := by
    have := toInt_finite_of_truncQ t1 h0
    simp only [Vector2i.ofVector2f, this, bind, Except.bind, pure, Except.pure]
  have a1 : (F32.add (F32.ofInt 1) (.finite (-(1 / 2)))).toInt = .ok 0 := by
    have e : F32.add (F32.ofInt 1) (.finite (-(1 / 2))) = .finite (1 / 2) := by
      rw [o1]
      show F32.round (1 + -(1 / 2)) = _
      have e2 : (1 : ℚ) + -(1 / 2) = 1 / 2 := by norm_num
      rw [e2, round_half]
    rw [e]
    exact toInt_finite_of_truncQ t1 h0
  have m1 : (F32.mul (F32.ofInt 3) (.finite (1 / 2))).toInt = .ok 1 := by
    have e : F32.mul (F32.ofInt 3) (.finite (1 / 2)) = .finite (3 / 2) := by
      rw [o3]
      show F32.round (3 * (1 / 2)) = _
      have e2 : (3 : ℚ) * (1 / 2) = 3 / 2 := by norm_num
      rw [e2, round_three_halves]
    rw [e]
    exact toInt_finite_of_truncQ truncQ_three_halves h1
  have d1 : (F32.div (F32.ofInt 2) (.finite (1 / 2))).toInt = .ok 4 := by
    have e : F32.div (F32.ofInt 2) (.finite (1 / 2)) = .finite ((4 : Int) : ℚ) := by
      rw [o2]
      have hne : ((1 : ℚ) / 2) ≠ 0 := by norm_num
      show (if (1 : ℚ) / 2 = 0 then _ else F32.round (2 / (1 / 2))) = _
      rw [if_neg hne]
      have e2 : (2 : ℚ) / (1 / 2) = ((4 : Int) : ℚ) := by norm_num
      rw [e2]
      exact round_intCast (by decide)
    rw [e]
    exact toInt_finite_intCast h4
  refine ⟨opAssignF_eq F32.add a1 a1, ?_, opAssignF_eq F32.mul m1 m1, ?_,
    opAssignF_eq F32.div d1 d1, ?_⟩
  · rw [cneg]
    decide
  · rw [cpos]
    decide
  · rw [cpos]
    decide

/-- C25, amended: for every `Vector2<int>` `v` and every `Vector2<float>` `w`
whose components are integers, all four of absolute value at most 4095, the
in-place operators `+=`, `-=`, `*=` applied with `w` give the same result as the
same-type operators applied with `Vector2<int>(w)`, namely the component-wise
sum, difference and product; when both components of `w` are non-zero, so does
`/=`, the result being the component-wise `int` quotient. -/
theorem opAssignF_integral (v : Vector2i) (wx wy : Int)
    (hvx : |v.x| ≤ 4095) (hvy : |v.y| ≤ 4095) (hwx : |wx| ≤ 4095) (hwy : |wy| ≤ 4095) :
    (v.opAddAssignF ⟨.finite wx, .finite wy⟩ =
        (Vector2i.ofVector2f ⟨.finite wx, .finite wy⟩).map v.opAddAssign ∧
      v.opAddAssignF ⟨.finite wx, .finite wy⟩ = .ok ⟨v.x + wx, v.y + wy⟩) ∧
    (v.opSubAssignF ⟨.finite wx, .finite wy⟩ =
        (Vector2i.ofVector2f ⟨.finite wx, .finite wy⟩).map v.opSubAssign ∧
      v.opSubAssignF ⟨.finite wx, .finite wy⟩ = .ok ⟨v.x - wx, v.y - wy⟩) ∧
    (v.opMulAssignF ⟨.finite wx, .finite wy⟩ =
        (Vector2i.ofVector2f ⟨.finite wx, .finite wy⟩).map v.opMulAssign ∧
      v.opMulAssignF ⟨.finite wx, .finite wy⟩ = .ok ⟨v.x * wx, v.y * wy⟩) ∧
    (wx ≠ 0 → wy ≠ 0 →
      v.opDivAssignF ⟨.finite wx, .finite wy⟩ =
        (Vector2i.ofVector2f ⟨.finite wx, .finite wy⟩).bind v.opDivAssign ∧
      v.opDivAssignF ⟨.finite wx, .finite wy⟩ = .ok ⟨Int.tdiv v.x wx, Int.tdiv v.y wy⟩) := by
  have rng : ∀ n : Int, |n| ≤ 16769025 → inIntRange n := by
    intro n hn
    have := abs_le.mp hn
    unfold inIntRange INT_MIN INT_MAX
    constructor <;> omega
  have prod : ∀ a b : Int, |a| ≤ 4095 → |b| ≤ 4095 → |a * b| ≤ 16769025 := by
    intro a b ha hb
    rw [abs_mul]
    calc |a| * |b| ≤ 4095 * 4095 := mul_le_mul ha hb (abs_nonneg b) (by norm_num)
      _ = 16769025 := by norm_num
  have sum : ∀ a b : Int, |a| ≤ 4095 → |b| ≤ 4095 → |a + b| ≤ 16769025 := by
    intro a b ha hb
    have := abs_add a b
    omega
  have diff : ∀ a b : Int, |a| ≤ 4095 → |b| ≤ 4095 → |a - b| ≤ 16769025 := by
    intro a b ha hb
    have := abs_sub a b
    omega
  have conv : Vector2i.ofVector2f ⟨.finite wx, .finite wy⟩ = .ok ⟨wx, wy⟩ := by
    have h1 := toInt_finite_intCast (rng wx (by omega))
    have h2 := toInt_finite_intCast (rng wy (by omega))
    simp only [Vector2i.ofVector2f, h1, h2, bind, Except.bind, pure, Except.pure]
  have val : ∀ n : Int, |n| ≤ 16769025 → (F32.round (n : ℚ)).toInt = .ok n := by
    intro n hn
    rw [round_intCast (by omega)]
    exact toInt_finite_intCast (rng n hn)
  have hadd : ∀ a b : Int, |a| ≤ 4095 → |b| ≤ 4095 →
      (F32.add (F32.ofInt a) (.finite b)).toInt = .ok (a + b) := by
    intro a b ha hb
    rw [ofInt_small ha]
    show (F32.round ((a : ℚ) + b)).toInt = _
    have e : (a : ℚ) + b = ((a + b : Int) : ℚ) := by push_cast; ring
    rw [e]
    exact val _ (sum a b ha hb)
  have hsub : ∀ a b : Int, |a| ≤ 4095 → |b| ≤ 4095 →
      (F32.sub (F32.ofInt a) (.finite b)).toInt = .ok (a - b) := by
    intro a b ha hb
    rw [ofInt_small ha]
    show (F32.round ((a : ℚ) + -(b : ℚ))).toInt = _
    have e : (a : ℚ) + -(b : ℚ) = ((a - b : Int) : ℚ) := by push_cast; ring
    rw [e]
    exact val _ (diff a b ha hb)
  have hmul : ∀ a b : Int, |a| ≤ 4095 → |b| ≤ 4095 →
      (F32.mul (F32.ofInt a) (.finite b)).toInt = .ok (a * b) := by
    intro a b ha hb
    rw [ofInt_small ha]
    show (F32.round ((a : ℚ) * b)).toInt = _
    have e : (a : ℚ) * b = ((a * b : Int) : ℚ) := by push_cast; ring
    rw [e]
    exact val _ (prod a b ha hb)
  have hdiv : ∀ a b : Int, |a| ≤ 4095 → |b| ≤ 4095 → b ≠ 0 →
      (F32.div (F32.ofInt a) (.finite b)).toInt = .ok (Int.tdiv a b) := by
    intro a b ha hb hb0
    rw [ofInt_small ha]
    have hne : (b : ℚ) ≠ 0 := by exact_mod_cast hb0
    show (if (b : ℚ) = 0 then _ else F32.round ((a : ℚ) / b)).toInt = _
    rw [if_neg hne]
    exact toInt_round_div ha hb0 hb
  have w1 : ∀ n : Int, |n| ≤ 16769025 → wrapInt n = n :=
    fun n hn => wrapInt_of_inIntRange (rng n hn)
  refine ⟨?_, ?_, ?_, ?_⟩
  · have h := opAssignF_eq (v := v) (w := ⟨.finite wx, .finite wy⟩) F32.add
      (hadd v.x wx hvx hwx) (hadd v.y wy hvy hwy)
    refine ⟨?_, h⟩
    rw [conv]
    show _ = Except.ok (Vector2i.opAddAssign v ⟨wx, wy⟩)
    simp only [Vector2i.opAddAssign, addInt, w1 _ (sum v.x wx hvx hwx),
      w1 _ (sum v.y wy hvy hwy)]
    exact h
  · have h := opAssignF_eq (v := v) (w := ⟨.finite wx, .finite wy⟩) F32.sub
      (hsub v.x wx hvx hwx) (hsub v.y wy hvy hwy)
    refine ⟨?_, h⟩
    rw [conv]
    show _ = Except.ok (Vector2i.opSubAssign v ⟨wx, wy⟩)
    simp only [Vector2i.opSubAssign, subInt, w1 _ (diff v.x wx hvx hwx),
      w1 _ (diff v.y wy hvy hwy)]
    exact h
  · have h := opAssignF_eq (v := v) (w := ⟨.finite wx, .finite wy⟩) F32.mul
      (hmul v.x wx hvx hwx) (hmul v.y wy hvy hwy)
    refine ⟨?_, h⟩
    rw [conv]
    show _ = Except.ok (Vector2i.opMulAssign v ⟨wx, wy⟩)
    simp only [Vector2i.opMulAssign, mulInt, w1 _ (prod v.x wx hvx hwx),
      w1 _ (prod v.y wy hvy hwy)]
    exact h
  · intro hx0 hy0
    have h := opAssignF_eq (v := v) (w := ⟨.finite wx, .finite wy⟩) F32.div
      (hdiv v.x wx hvx hwx hx0) (hdiv v.y wy hvy hwy hy0)
    refine ⟨?_, h⟩
    rw [conv]
    show _ = Vector2i.opDivAssign v ⟨wx, wy⟩
    have q : ∀ a b : Int, |a| ≤ 4095 → inIntRange (Int.tdiv a b) := by
      intro a b ha
      apply rng
      have h1 : (Int.tdiv a b).natAbs ≤ a.natAbs := by
        rw [Int.natAbs_tdiv]
        exact Nat.div_le_self _ _
      have h2 := Int.abs_eq_natAbs a
      have h3 := Int.abs_eq_natAbs (Int.tdiv a b)
      omega
    simp only [Vector2i.opDivAssign, divInt, hx0, hy0, if_false, if_true, bind, Except.bind,
      pure, Except.pure, q v.x wx hvx, q v.y wy hvy]
    exact h

/-- Instance of `opAssignF_integral` at `v = (2, 4)` and `w = (1, 2)`, the
vectors of the test `CompoundAssignmentOperatorDivideWithVector.VectorsDifferentType`:
`v /= w` leaves `(2, 2)`. -/
theorem opAssignF_integral_witness :
    (|(2 : Int)| ≤ 4095 ∧ |(4 : Int)| ≤ 4095 ∧ |(1 : Int)| ≤ 4095 ∧ |(2 : Int)| ≤ 4095 ∧
      (1 : Int) ≠ 0 ∧ (2 : Int) ≠ 0) ∧
    Vector2i.opDivAssignF ⟨2, 4⟩ ⟨.finite (1 : Int), .finite (2 : Int)⟩ = .ok ⟨2, 2⟩ :=
  ⟨⟨by decide, by decide, by decide, by decide, by decide, by decide⟩,
    ((opAssignF_integral ⟨2, 4⟩ 1 2 (by decide) (by decide) (by decide) (by decide)).2.2.2
      (by decide) (by decide)).2⟩

/-- C26: for every `Vector2<int>` `v`, `v != w` is the negation of `v == w`, for
a `Vector2<int>` `w` and for a `Vector2<float>` `w`; in the second case the two
operators convert the same components of `w` to `int`, so that one has a result
exactly when the other has, and the two results are opposite. -/
theorem opNe_eq_not_opEq (v w : Vector2i) (f : Vector2f) :
    v.opNe w = !(v.opEq w) ∧
    v.opNeF f = (v.opEqF f).map (fun b => !b) := by
  constructor
  · simp [Vector2i.opNe, Vector2i.opEq, bne]
  · unfold Vector2i.opNeF Vector2i.opEqF
    cases hx : f.x.toInt with
    | error e => rfl
    | ok cx =>
      by_cases hc : cx = v.x
      · cases hy : f.y.toInt with
        | error e => simp [hc, bind, Except.bind, Except.map, hy]
        | ok cy => simp [hc, bind, Except.bind, Except.map, hy, ne_eq_not_eq, pure, Except.pure]
      · simp [hc, bind, Except.bind, Except.map, pure, Except.pure, bne]

/-- C27: the assertion of `operator/(U value)` compares the argument with 0
before it is converted to `int`. For `v = (100, 25)` and the `float` 0.5 the
assertion holds, the divisor `static_cast<int>(0.5f)` is 0, and the `int`
division by it has no defined result. -/
theorem opDivScalar_assert_insufficient :
    Scalar.isZero (.float (.finite (1 / 2))) = false ∧
    Scalar.toInt (.float (.finite (1 / 2))) = .ok 0 ∧
    Vector2i.opDivScalar ⟨100, 25⟩ (.float (.finite (1 / 2))) = .error .undefinedBehaviour := by
  have hz : Scalar.isZero (.float (.finite (1 / 2))) = false := by
    simp [Scalar.isZero, F32.eq]
  have ht : F32.truncQ (1 / 2) = 0 := truncQ_eq_zero (by rw [abs_lt]; constructor <;> norm_num)
  have hi : Scalar.toInt (.float (.finite (1 / 2))) = .ok 0 := by
    have h0 : inIntRange 0 := by decide
    show (if inIntRange (F32.truncQ (1 / 2)) then Except.ok (F32.truncQ (1 / 2))
      else Except.error Fault.undefinedBehaviour) = Except.ok 0
    rw [ht, if_pos h0]
  refine ⟨hz, hi, ?_⟩
  unfold Vector2i.opDivScalar
  rw [hz, hi]
  simp [divInt, bind, Except.bind]

/-- C28: for every `Vector2<int>` `v` other than `(0, 0)` whose `x * x + y * y`
does not overflow `int`, `normalize()` runs to its end: both quotients convert
to `int`, both assertions hold, and each stored component is -1, 0 or 1. -/
theorem normalize_int_asserts (v : Vector2i) (hne : v ≠ ⟨0, 0⟩)
    (h : inIntRange (v.x * v.x + v.y * v.y)) :
    ∃ a b : Int, v.normalize = .ok ⟨a, b⟩ ∧ (-1 ≤ a ∧ a ≤ 1) ∧ (-1 ≤ b ∧ b ≤ 1) := by
  obtain ⟨x, y⟩ := v
  simp only at h
  have hx0 : 0 ≤ x * x := mul_self_nonneg x
  have hy0 : 0 ≤ y * y := mul_self_nonneg y
  have hpos : 0 < x * x + y * y := by
    rcases eq_or_lt_of_le (add_nonneg hx0 hy0) with hz | hp
    · exfalso
      apply hne
      have h1 : x * x = 0 := by omega
      have h2 : y * y = 0 := by omega
      rw [mul_self_eq_zero.mp h1, mul_self_eq_zero.mp h2]
    · exact hp
  have hS1 : (1 : ℚ) ≤ ((x * x + y * y : Int) : ℚ) := by exact_mod_cast hpos
  have hS2 : ((x * x + y * y : Int) : ℚ) ≤ 2147483647 := by exact_mod_cast h.2
  obtain ⟨l, hl, hlpos, hlo, -⟩ := sqrt_sq_bounds (a := ((x * x + y * y : Int) : ℚ))
    (le_trans (by norm_num) hS1) (le_trans hS2 (by norm_num))
  have hmag : Vector2i.magnitude ⟨x, y⟩ = .finite l := by
    unfold Vector2i.magnitude
    rw [sumSquares_exact h]
    exact hl
  have small : ∀ z : Int, z * z ≤ x * x + y * y → F32.ofInt z = .finite (z : ℚ) := by
    intro z hz
    apply ofInt_of_natAbs_le
    have h2 := h.2
    unfold INT_MAX at h2
    have h3 : z.natAbs * z.natAbs ≤ 2147483647 := by
      have : ((z.natAbs * z.natAbs : Nat) : Int) = z * z := by
        rw [Nat.cast_mul, Int.natAbs_mul_self']
      omega
    by_contra hcon
    have hcon := Nat.lt_of_not_le hcon
    have : 16777216 * 16777216 ≤ z.natAbs * z.natAbs :=
      Nat.mul_le_mul hcon.le hcon.le
    omega
  have quot : ∀ z : Int, z * z ≤ x * x + y * y →
      ∃ k : Int, (F32.div (F32.ofInt z) (.finite l)).toInt = .ok k ∧ -1 ≤ k ∧ k ≤ 1 := by
    intro z hz
    rw [small z hz]
    have hdiv : F32.div (.finite (z : ℚ)) (.finite l) = F32.round ((z : ℚ) / l) := by
      simp [F32.div, ne_of_gt hlpos]
    rw [hdiv]
    exact toInt_round_small (abs_div_magnitude_le hlpos hz hlo)
  obtain ⟨a, ha, ha1, ha2⟩ := quot x (by omega)
  obtain ⟨b, hb, hb1, hb2⟩ := quot y (by omega)
  exact ⟨a, b, normalize_eq_of_toInt hmag ha hb ⟨ha2, ha1⟩ ⟨hb2, hb1⟩, ⟨ha1, ha2⟩, ⟨hb1, hb2⟩⟩

/-- Instance of `normalize_int_asserts` at `v = (4096, 1)`, where the first
stored component is 1. -/
theorem normalize_int_asserts_witness :
    ((⟨4096, 1⟩ : Vector2i) ≠ ⟨0, 0⟩ ∧ inIntRange ((4096 : Int) * 4096 + 1 * 1)) ∧
    ∃ a b : Int, Vector2i.normalize ⟨4096, 1⟩ = .ok ⟨a, b⟩ ∧
      (-1 ≤ a ∧ a ≤ 1) ∧ (-1 ≤ b ∧ b ≤ 1) :=
  ⟨⟨by decide, by decide⟩, normalize_int_asserts ⟨4096, 1⟩ (by decide) (by decide)⟩

/-- C29, as stated, fails: for `v = (46341, 0)` the product `x * x` is
2147488281, above the largest `int`; reduced to 32 bits the sum `x * x + y * y`
is -2147479015, `squaredMagnitude()` returns that number rounded to `float`, a
negative value, and `magnitude()` takes the square root of a negative number
and returns NaN. -/
theorem squares_wrap_negative :
    addInt (mulInt 46341 46341) (mulInt 0 0) = -2147479015 ∧
    Vector2i.squaredMagnitude ⟨46341, 0⟩ = .finite (-2147479040) ∧
    Vector2i.magnitude ⟨46341, 0⟩ = .nan := by
  have h : addInt (mulInt 46341 46341) (mulInt 0 0) = -2147479015 := by decide
  have hr : roundInt24 (-2147479015) = -2147479040 := by decide
  refine ⟨h, ?_, ?_⟩
  · simp [Vector2i.squaredMagnitude, h, F32.ofInt, hr]
  · simp [Vector2i.magnitude, h, F32.sqrt]

/-- C29, amended: for every `Vector2<int>` `v` whose `x * x + y * y` does not
overflow `int`, the integer that `magnitude()` and `squaredMagnitude()` compute
is `x * x + y * y`, which is non-negative; `squaredMagnitude()` returns a finite
non-negative value and `magnitude()`, the square root of a non-negative
number, returns a finite non-negative value. -/
theorem squares_nonneg (v : Vector2i) (h : inIntRange (v.x * v.x + v.y * v.y)) :
    addInt (mulInt v.x v.x) (mulInt v.y v.y) = v.x * v.x + v.y * v.y ∧
    0 ≤ addInt (mulInt v.x v.x) (mulInt v.y v.y) ∧
    (∃ s : ℚ, v.squaredMagnitude = .finite s ∧ 0 ≤ s) ∧
    (∃ m : ℚ, v.magnitude = .finite m ∧ 0 ≤ m) := by
  have he := sumSquares_exact h
  have h0 : 0 ≤ v.x * v.x + v.y * v.y := add_nonneg (mul_self_nonneg _) (mul_self_nonneg _)
  refine ⟨he, by rw [he]; exact h0, ?_, ?_⟩
  · refine ⟨_, rfl, ?_⟩
    have hn : ¬ (addInt (mulInt v.x v.x) (mulInt v.y v.y) < 0) := by rw [he]; omega
    simp only [roundInt24, hn, if_false]
    exact_mod_cast Nat.zero_le _
  · unfold Vector2i.magnitude
    rw [he]
    rcases eq_or_lt_of_le h0 with hz | hpos
    · rw [← hz]
      exact ⟨0, by simp [F32.sqrt], le_refl _⟩
    · have h1 : (1 : ℚ) ≤ ((v.x * v.x + v.y * v.y : Int) : ℚ) := by exact_mod_cast hpos
      have h2 : ((v.x * v.x + v.y * v.y : Int) : ℚ) ≤ 2147483647 := by exact_mod_cast h.2
      obtain ⟨l, hl, hlpos, -, -⟩ := sqrt_sq_bounds (a := ((v.x * v.x + v.y * v.y : Int) : ℚ))
        (le_trans (by norm_num) h1) (le_trans h2 (by norm_num))
      exact ⟨l, hl, hlpos.le⟩

/-- Instance of `squares_nonneg` at `v = (-5, -5)`, the vector of the test
`SquaredMagnitude.NegativeVector`. -/
theorem squares_nonneg_witness :
    inIntRange ((-5 : Int) * -5 + -5 * -5) ∧
    addInt (mulInt (-5) (-5)) (mulInt (-5) (-5)) = 50 :=
  ⟨by decide, (squares_nonneg ⟨-5, -5⟩ (by decide)).1⟩

/-- C30: for every `Vector2<int>` `v`, whose components are values of `int`, the
negation of the negation of `v` is `v`, and `v + (-v)` is `zero()`, in 32-bit
wrap-around arithmetic: also at the smallest `int`, which is its own
opposite. -/
theorem opNeg_involutive (v : Vector2i) (hx : inIntRange v.x) (hy : inIntRange v.y) :
    v.opNeg.opNeg = v ∧ v.opAdd v.opNeg = Vector2i.zero := by
  unfold inIntRange INT_MIN INT_MAX at hx hy
  obtain ⟨x, y⟩ := v
  simp only at hx hy
  constructor
  · simp only [Vector2i.opNeg, negInt, wrapInt, Vector2i.mk.injEq]
    constructor <;> omega
  · simp only [Vector2i.opAdd, Vector2i.opNeg, Vector2i.zero, addInt, negInt, wrapInt,
      Vector2i.mk.injEq]
    constructor <;> omega

/-- Instance of `opNeg_involutive` at `v = (-2147483648, 679)`, with the smallest
`int` as a component. -/
theorem opNeg_involutive_witness :
    (inIntRange (-2147483648) ∧ inIntRange 679) ∧
    Vector2i.opNeg (Vector2i.opNeg ⟨-2147483648, 679⟩) = ⟨-2147483648, 679⟩ ∧
    Vector2i.opAdd ⟨-2147483648, 679⟩ (Vector2i.opNeg ⟨-2147483648, 679⟩) = Vector2i.zero :=
  ⟨⟨by decide, by decide⟩, opNeg_involutive ⟨-2147483648, 679⟩ (by decide) (by decide)⟩

/-- C31: for every two `Vector2<int>` `v` and `w`, with components that are
values of `int`, where both components of `w` are non-zero and neither product
`v.x * w.x` nor `v.y * w.y` overflows `int`, `(v * w) / w` has a result, and
that result is `v`. -/
theorem opMul_opDiv_cancel (v w : Vector2i) (hvx : inIntRange v.x) (hvy : inIntRange v.y)
    (hwx : w.x ≠ 0) (hwy : w.y ≠ 0)
    (hpx : inIntRange (v.x * w.x)) (hpy : inIntRange (v.y * w.y)) :
    (v.opMul w).opDiv w = .ok v := by
  obtain ⟨x, y⟩ := v
  simp only at hvx hvy hpx hpy
  have hx : divInt (mulInt x w.x) w.x = .ok x := by
    have e : Int.tdiv (x * w.x) w.x = x := Int.mul_tdiv_cancel _ hwx
    unfold mulInt
    rw [wrapInt_of_inIntRange hpx, divInt_eq_ok hwx (by rw [e]; exact hvx), e]
  have hy : divInt (mulInt y w.y) w.y = .ok y := by
    have e : Int.tdiv (y * w.y) w.y = y := Int.mul_tdiv_cancel _ hwy
    unfold mulInt
    rw [wrapInt_of_inIntRange hpy, divInt_eq_ok hwy (by rw [e]; exact hvy), e]
  show (do
    let qx ← divInt (mulInt x w.x) w.x
    let qy ← divInt (mulInt y w.y) w.y
    pure ⟨qx, qy⟩ : Except Fault Vector2i) = .ok ⟨x, y⟩
  rw [hx, hy]
  rfl

/-- Instance of `opMul_opDiv_cancel` at `v = (2, 3)` and `w = (3, 4)`, the
vectors of the test `BinaryArithmeticOperatorMultiplyWithVector.VectorsSameType`:
the product is `(6, 12)` and its quotient by `w` is `v`. -/
theorem opMul_opDiv_cancel_witness :
    (inIntRange 2 ∧ inIntRange 3 ∧ (3 : Int) ≠ 0 ∧ (4 : Int) ≠ 0 ∧
      inIntRange (2 * 3) ∧ inIntRange (3 * 4)) ∧
    Vector2i.opMul ⟨2, 3⟩ ⟨3, 4⟩ = ⟨6, 12⟩ ∧
    Vector2i.opDiv (Vector2i.opMul ⟨2, 3⟩ ⟨3, 4⟩) ⟨3, 4⟩ = .ok ⟨2, 3⟩ :=
  ⟨⟨by decide, by decide, by decide, by decide, by decide, by decide⟩, by decide,
    opMul_opDiv_cancel ⟨2, 3⟩ ⟨3, 4⟩ (by decide) (by decide) (by decide) (by decide)
      (by decide) (by decide)⟩

end fuzzyTelegram
